import Mathlib

/-!
Shallow embedding of `src/tips/instability_chaining.py` (j2kun/pmfp-code),
the two-sided matching engine with couples, together with theorems checking
the natural-language specification against it.

Modelling conventions, used consistently below:
* Python ids are natural numbers.  Python `Student` objects are identified by
  their `id` (the source defines `__eq__`/`__hash__` by id); every dictionary
  keyed by students or programs is embedded as data keyed by id.
* Python exceptions are explicit: `PyErr` distinguishes `ValueError`
  (the only exception caught by `InstabilityChaining.run`), `KeyError`,
  `IndexError` and `AssertionError`.  `while` loops take explicit fuel and
  report exhaustion as the distinguished `PyErr.outOfFuel`.
* Python sets are embedded as strictly sorted lists of ids;
  `set.pop()` removes the least element, and set iteration is in sorted
  order.  CPython's actual set order is an implementation detail that the
  program otherwise treats as arbitrary.
* The mutable `best_unrejected` cursor of each student lives in the machine
  state as a function from id to index; `Student.best_unrejected` below is
  the *initial* cursor value of the dataclass (default 0).
-/

namespace IC

/-- Python exception kinds relevant to the source, plus fuel exhaustion for
embedded `while` loops. -/
inductive PyErr where
  | valueError
  | keyError
  | indexError
  | assertionError
  | outOfFuel
deriving Repr, DecidableEq

/-- Embeds the `Student` dataclass: an id, an ordered preference list of
program ids, and the initial value of the mutable `best_unrejected` cursor
(dataclass default 0). -/
structure Student where
  id : Nat
  preferences : List Nat
  best_unrejected : Nat := 0
deriving Repr, DecidableEq

/-- Embeds the `ResidencyProgram` dataclass: id, ordered preference list of
student ids, and capacity. -/
structure ResidencyProgram where
  id : Nat
  preferences : List Nat
  capacity : Nat
deriving Repr, DecidableEq

/-- Embeds the `Applicant` sum: a `Student` or a `Couple`.  A couple stores
its two members; `mkCouple` below performs the sorting and assertion of
`Couple.__post_init__`. -/
inductive Applicant where
  | single (s : Student)
  | couple (a b : Student)
deriving Repr, DecidableEq

/-- Embeds `Couple.__post_init__`: members are sorted by id (Python `sorted`
is stable, so equal ids keep their order) and the equal-length assertion on
the two preference lists is checked. -/
def mkCouple (a b : Student) : Except PyErr Applicant :=
  let p := if b.id < a.id then (b, a) else (a, b)
  if p.1.preferences.length = p.2.preferences.length then
    .ok (.couple p.1 p.2)
  else
    .error .assertionError

/-- The key by which Python hashes and compares applicants: ids of the
members and whether it is a couple. -/
def Applicant.key : Applicant → Nat × Nat × Bool
  | .single s => (s.id, s.id, false)
  | .couple a b => (a.id, b.id, true)

/-- Python `==` on applicants: `Student.__eq__`/`Couple.__eq__` compare by
ids (and the `isinstance` check separates the two variants). -/
def aeq (x y : Applicant) : Bool := x.key = y.key

/-- Embeds `Applicant.proposal_pair`: the one or two students that apply. -/
def Applicant.proposalPair : Applicant → Student × Option Student
  | .single s => (s, none)
  | .couple a b => (a, some b)

/-- Embeds `Applicant.is_single`. -/
def Applicant.isSingle : Applicant → Bool
  | .single _ => true
  | .couple _ _ => false

/-- Embeds the `Matching` dataclass.  `matches` is the dict
`{Student: ResidencyProgram}` as a list of (student id, program id) pairs
kept strictly sorted by student id (dict order is never observable in the
source: every read is via sets or an explicit sort). -/
structure Matching where
  matchesList : List (Nat × Nat)
  applicants : List Applicant
  programs : List ResidencyProgram
  valid : Bool := true
deriving Repr, DecidableEq

/-- Insert an id into a strictly sorted id list (Python `set.add`). -/
def insertSorted (x : Nat) : List Nat → List Nat
  | [] => [x]
  | y :: ys =>
    if x < y then x :: y :: ys
    else if x = y then y :: ys
    else y :: insertSorted x ys

/-- Union of two sorted id sets (Python `set` union / `|=`). -/
def unionSorted (xs ys : List Nat) : List Nat :=
  xs.foldl (fun acc x => insertSorted x acc) ys

/-- Sorted assoc-list update: `matches[student] = program`. -/
def dictSet (sid pid : Nat) : List (Nat × Nat) → List (Nat × Nat)
  | [] => [(sid, pid)]
  | (k, v) :: rest =>
    if sid < k then (sid, pid) :: (k, v) :: rest
    else if sid = k then (sid, pid) :: rest
    else (k, v) :: dictSet sid pid rest

/-- Sorted assoc-list removal: `del matches[student]`. -/
def dictDel (sid : Nat) : List (Nat × Nat) → List (Nat × Nat)
  | [] => []
  | (k, v) :: rest => if sid = k then rest else (k, v) :: dictDel sid rest

/-- Sorted assoc-list lookup: `matches[student]` / `matches.get(student)`. -/
def dictGet (sid : Nat) : List (Nat × Nat) → Option Nat
  | [] => none
  | (k, v) :: rest => if sid = k then some v else dictGet sid rest

/-- Embeds `list.index` (`precedes` uses it): the first index of `x`, or
`none` where Python raises `ValueError`. -/
def firstIdx (l : List Nat) (x : Nat) : Option Nat :=
  match l with
  | [] => none
  | y :: ys => if y = x then some 0 else (firstIdx ys x).map (fun i => i + 1)

/-- First index in a list of pairs, for `Couple.prefers`'s use of
`list.index` on the zipped joint preference list. -/
def firstIdxPair (l : List (Nat × Nat)) (x : Nat × Nat) : Option Nat :=
  match l with
  | [] => none
  | y :: ys => if y = x then some 0 else (firstIdxPair ys x).map (fun i => i + 1)

/-- Embeds `Matching.students_matched_to`: the set of students matched to
the program with this id, as a sorted id list. -/
def studentsMatchedTo (m : Matching) (pid : Nat) : List Nat :=
  (m.matchesList.filter (fun kv => kv.2 = pid)).map (fun kv => kv.1)

/-- Insertion sort of (id, rank) pairs by rank, embedding the order that
`heapq.nsmallest(..., key=...)` sorts by.  Ranks in a pool are distinct
(ids are distinct and `list.index` is injective on present values), so tie
handling is immaterial. -/
def insertByRank (x : Nat × Nat) : List (Nat × Nat) → List (Nat × Nat)
  | [] => [x]
  | y :: ys => if x.2 < y.2 then x :: y :: ys else y :: insertByRank x ys

/-- Sort (id, rank) pairs ascending by rank. -/
def sortByRank (l : List (Nat × Nat)) : List (Nat × Nat) :=
  l.foldr insertByRank []

/-- Pair each pool member with `preferences.index(s.id)`, the program-side
rank that `select` keys on; a missing student raises `ValueError`. -/
def ranksOf (prefs : List Nat) : List Nat → Except PyErr (List (Nat × Nat))
  | [] => .ok []
  | sid :: rest =>
    match firstIdx prefs sid with
    | none => .error .valueError
    | some r => do
      let l ← ranksOf prefs rest
      return (sid, r) :: l

/-- Embeds `ResidencyProgram.select`: rank every pool member by
`self.preferences.index(s.id)` (raising `ValueError` for a student missing
from the program's list, as `list.index` does), keep the `capacity`
best-ranked (`heapq.nsmallest`), and return the pool minus the chosen, as a
sorted id set. -/
def ResidencyProgram.select (P : ResidencyProgram) (pool : List Nat) :
    Except PyErr (List Nat) := do
  let ranked ← ranksOf P.preferences pool
  let chosen := ((sortByRank ranked).take P.capacity).map (fun xr => xr.1)
  return pool.filter (fun sid => !chosen.contains sid)

/-- Embeds `ResidencyProgram.prefers`: reject-test the given students
against the pool of them plus the program's current occupants; the program
prefers them all when none is displaced. -/
def ResidencyProgram.prefers (P : ResidencyProgram) (m : Matching)
    (students : List Nat) : Except PyErr Bool := do
  let pool := unionSorted students (studentsMatchedTo m P.id)
  let displ ← P.select pool
  return students.all (fun s => !displ.contains s)

/-- Embeds `Student.prefers`: an unmatched student (or one matched to a
program missing from its own list) prefers exactly the programs on its
list; otherwise `precedes` compares first indices, with a missing program
treated as not preferred (the `except ValueError` branch). -/
def Student.prefers (s : Student) (pid : Nat) (m : Matching) : Bool :=
  match dictGet s.id m.matchesList with
  | none => s.preferences.contains pid
  | some mid =>
    if !s.preferences.contains mid then s.preferences.contains pid
    else
      match firstIdx s.preferences pid, firstIdx s.preferences mid with
      | some i, some j => i < j
      | _, _ => false

/-- Embeds `Couple.joint_preferences`: position-wise zip of the two
members' preference lists. -/
def jointPreferences (a b : Student) : List (Nat × Nat) :=
  a.preferences.zip b.preferences

/-- Embeds `Couple.prefers` on a pair of program ids, including the
source's literal test `p2.id in p2.preferences` in the both-unmatched
branch (the program's own preference list, a list of student ids). -/
def couplePrefers (a b : Student) (p1 p2 : ResidencyProgram) (m : Matching) :
    Bool :=
  match dictGet a.id m.matchesList, dictGet b.id m.matchesList with
  | none, none => a.preferences.contains p1.id && p2.preferences.contains p2.id
  | some _, none => b.preferences.contains p2.id && a.prefers p1.id m
  | none, some _ => a.preferences.contains p1.id && b.prefers p2.id m
  | some m1, some m2 =>
    match firstIdxPair (jointPreferences a b) (p1.id, p2.id),
          firstIdxPair (jointPreferences a b) (m1, m2) with
    | some i, some j => i < j
    | _, _ => false

/-- Embeds `ProgramIndex.__getitem__` over the dict
`{program.id: program}`: comprehension later-entries overwrite earlier
ones, so lookup resolves to the last program with the id; a missing id is a
`KeyError`. -/
def indexGet (programs : List ResidencyProgram) (pid : Nat) :
    Except PyErr ResidencyProgram :=
  match programs.reverse.find? (fun p => p.id = pid) with
  | none => .error .keyError
  | some p => .ok p

/-- The iteration order of `ProgramIndex` (`dict.values()`): first
occurrence position per id, with the value overwritten by the last
occurrence. -/
def indexValues (programs : List ResidencyProgram) : List ResidencyProgram :=
  (programs.foldl
    (fun acc p => if acc.any (fun q => q.id = p.id) then acc else acc ++ [p])
    []).map
    (fun p =>
      match (indexGet programs p.id) with
      | .ok q => q
      | .error _ => p)

/-- Lexicographic order on applicant keys, used for canonical iteration
of Python sets of applicants. -/
def keyLe (x y : Nat × Nat × Bool) : Bool :=
  x.1 < y.1 ||
    (x.1 = y.1 && (x.2.1 < y.2.1 ||
      (x.2.1 = y.2.1 && (x.2.2.toNat ≤ y.2.2.toNat))))

/-- Insert an applicant into a canonically key-sorted applicant set
(dedups by the Python equality `aeq`). -/
def insertApplicant (x : Applicant) : List Applicant → List Applicant
  | [] => [x]
  | y :: ys =>
    if aeq x y then y :: ys
    else if keyLe x.key y.key then x :: y :: ys
    else y :: insertApplicant x ys

/-- A Python `set` of applicants in canonical (key-sorted) iteration
order. -/
def applicantSet (l : List Applicant) : List Applicant :=
  l.foldl (fun acc x => insertApplicant x acc) []

/-- The couple branch of `unstable_pairs`: scan the joint preference list
for a pair naming this program where both the couple and the program side
prefer; embeds the `for (p1_id, p2_id) in couple.joint_preferences()` loop
with its `break`. -/
def coupleScan (program : ResidencyProgram) (m : Matching)
    (index : List ResidencyProgram) (a b : Student) :
    List (Nat × Nat) → Except PyErr Bool
  | [] => .ok false
  | (p1id, p2id) :: rest => do
    let p1 ← indexGet index p1id
    let p2 ← indexGet index p2id
    if p1.id ≠ program.id && p2.id ≠ program.id then
      coupleScan program m index a b rest
    else
      let applicantPref := couplePrefers a b p1 p2 m
      let programPref ←
        if p1.id = p2.id then
          p1.prefers m (insertSorted b.id [a.id])
        else do
          let x ← p1.prefers m [a.id]
          if x then p2.prefers m [b.id] else pure false
      if applicantPref && programPref then
        .ok true
      else
        coupleScan program m index a b rest

/-- Embeds the body of `unstable_pairs` for one applicant: the skip of
applicants whose first member is unmatched, the per-member
`program.prefers` prefilter, then the single test or the couple scan. -/
def unstableWith (program : ResidencyProgram) (m : Matching)
    (index : List ResidencyProgram) (app : Applicant) :
    Except PyErr Bool := do
  let s1 := app.proposalPair.1
  if (dictGet s1.id m.matchesList).isNone then
    return false
  match app with
  | .single s => do
    let hasPref ← program.prefers m [s.id]
    if hasPref then
      return s.prefers program.id m
    else
      return false
  | .couple a b => do
    let prefA ← program.prefers m [a.id]
    let prefB ← program.prefers m [b.id]
    if prefA && prefB then
      coupleScan program m index a b (jointPreferences a b)
    else
      return false

/-- The `for applicant in matching.applicants` loop of `unstable_pairs`,
collecting in order the applicants whose test comes back true. -/
def filterUnstable (program : ResidencyProgram) (m : Matching)
    (index : List ResidencyProgram) : List Applicant → Except PyErr (List Applicant)
  | [] => .ok []
  | app :: rest => do
    let b ← unstableWith program m index app
    let l ← filterUnstable program m index rest
    return if b then app :: l else l

/-- Embeds `unstable_pairs`: all applicants of the market unstable with
`program`, as a canonical applicant set. -/
def unstablePairs (program : ResidencyProgram) (m : Matching)
    (index : List ResidencyProgram) : Except PyErr (List Applicant) := do
  let l ← filterUnstable program m index m.applicants
  return applicantSet l

/-- The `for prog in program_index` comprehension of `find_unstable_pairs`,
pairing each program's unstable applicants with the program. -/
def collectPairs (m : Matching) (index : List ResidencyProgram) :
    List ResidencyProgram → Except PyErr (List (Applicant × ResidencyProgram))
  | [] => .ok []
  | prog :: rest => do
    let apps ← unstablePairs prog m index
    let tail ← collectPairs m index rest
    return apps.map (fun app => (app, prog)) ++ tail

/-- Embeds `find_unstable_pairs`: one (applicant, program) pair per
program of the matching and unstable applicant for it. -/
def findUnstablePairs (m : Matching) :
    Except PyErr (List (Applicant × ResidencyProgram)) :=
  collectPairs m m.programs (indexValues m.programs)

/-! ### The stateful machine: `InstabilityChaining` -/

/-- The immutable market context built by `InstabilityChaining.__init__`:
the program index source list, the processing order of applicants
(singles first, couples last), the partner mapping, and the student
objects for id resolution. -/
structure Ctx where
  programs : List ResidencyProgram
  applicants : List Applicant
  partnerMap : List (Nat × Student)
  students : List Student

/-- Resolve a student id to its object (first occurrence wins; with the
unique ids the source requires, this is exact). -/
def studentOf (ctx : Ctx) (sid : Nat) : Student :=
  (ctx.students.find? (fun s => s.id = sid)).getD ⟨sid, [], 0⟩

/-- `partner_mapping[sid]` as an option. -/
def partnerGet (ctx : Ctx) (sid : Nat) : Option Student :=
  (ctx.partnerMap.find? (fun kv => kv.1 = sid)).map (fun kv => kv.2)

/-- `sid in partner_mapping`. -/
def inPartnerMap (ctx : Ctx) (sid : Nat) : Bool := (partnerGet ctx sid).isSome

/-- The snapshot key taken by `InstabilityChaining.snapshot`: the hashes of
the applicant stack in order, of the program stack, and the sorted match
pairs.  Hashes are modelled injectively by the applicant keys and ids. -/
abbrev SnapKey := List (Nat × Nat × Bool) × List Nat × List (Nat × Nat)

/-- The mutable state of `InstabilityChaining` (plus two ghost monitors
that record whether any cursor write ever decreased a cursor, overall and
excluding `reset_best`; they influence no control flow). -/
structure MState where
  matching : Matching
  cursors : Nat → Nat
  appStack : List Applicant
  progStack : List Nat
  log : List SnapKey
  anyDec : Bool := false
  nonResetDec : Bool := false

/-- Result of a stateful step: normal return, or a Python exception
carrying the state current at the raise. -/
inductive StepRes where
  | ok (σ : MState)
  | err (e : PyErr) (σ : MState)

/-- The state carried by a step result. -/
def StepRes.state : StepRes → MState
  | .ok σ => σ
  | .err _ σ => σ

/-- The exception kind of a step result, if any. -/
def StepRes.errKind : StepRes → Option PyErr
  | .ok _ => none
  | .err e _ => some e

/-- Whether a step result is the fuel-exhaustion artifact of the
embedding (never a behavior of the source program). -/
def StepRes.isFuel : StepRes → Bool
  | .err .outOfFuel _ => true
  | _ => false

/-- Every write to a `best_unrejected` cursor goes through this helper so
the ghost monitors can observe decreases.  `isReset` marks the writes made
by `reset_best`. -/
def writeCursor (isReset : Bool) (sid v : Nat) (σ : MState) : MState :=
  let old := σ.cursors sid
  { σ with
    cursors := fun j => if j = sid then v else σ.cursors j
    anyDec := σ.anyDec || decide (v < old)
    nonResetDec := σ.nonResetDec || (!isReset && decide (v < old)) }

/-- Embeds `reset_best` (cursor(s) back to 0). -/
def resetBest (app : Applicant) (σ : MState) : MState :=
  match app with
  | .single s => writeCursor true s.id 0 σ
  | .couple a b => writeCursor true b.id 0 (writeCursor true a.id 0 σ)

/-- Embeds `Applicant.may_still_apply`; for couples the cursor of the
first member is used (`Couple.best_unrejected`). -/
def mayStillApply (app : Applicant) (σ : MState) : Bool :=
  match app with
  | .single s => σ.cursors s.id < s.preferences.length
  | .couple a _ => σ.cursors a.id < a.preferences.length

/-- Embeds `Student.to_apply`: `preferences[best_unrejected]`, an
`IndexError` when the cursor is out of range. -/
def toApply (s : Student) (σ : MState) : Except PyErr Nat :=
  match s.preferences.get? (σ.cursors s.id) with
  | none => .error .indexError
  | some pid => .ok pid

/-- Embeds `ProgramIndex.next_to_apply`. -/
def nextToApply (ctx : Ctx) (app : Applicant) (σ : MState) :
    Except PyErr (ResidencyProgram × Option ResidencyProgram) :=
  match app with
  | .single s => do
    let pid ← toApply s σ
    let p ← indexGet ctx.programs pid
    return (p, none)
  | .couple a b => do
    let pid1 ← toApply a σ
    let p1 ← indexGet ctx.programs pid1
    let pid2 ← toApply b σ
    let p2 ← indexGet ctx.programs pid2
    return (p1, some p2)

/-- Embeds `Matching.set`: write each (student, program) pair with both
components present. -/
def setMatches (ps : List (Option Nat × Option Nat)) (σ : MState) : MState :=
  let ml := ps.foldl (fun acc sp =>
    match sp with
    | (some sid, some pid) => dictSet sid pid acc
    | _ => acc) σ.matching.matchesList
  { σ with matching := { σ.matching with matchesList := ml } }

/-- Embeds `Matching.reject`: if matched, delete the entry and advance the
student's cursor. -/
def reject (sid : Nat) (σ : MState) : MState :=
  if (dictGet sid σ.matching.matchesList).isSome then
    writeCursor false sid (σ.cursors sid + 1)
      { σ with matching :=
        { σ.matching with matchesList := dictDel sid σ.matching.matchesList } }
  else σ

/-- `applicant_stack.extend(items)`: the head of `appStack` is the top of
the Python list (its pop side), so extending reverses onto the head. -/
def pushStack (items : List Applicant) (σ : MState) : MState :=
  { σ with appStack := items.reverse ++ σ.appStack }

/-- `program_stack.add(pid)`. -/
def progAdd (pid : Nat) (σ : MState) : MState :=
  { σ with progStack := insertSorted pid σ.progStack }

/-- The `for bumped in singles` loop of `InstabilityChaining.apply`: the
logging f-string evaluates `matches[bumped]` (a `KeyError` if absent),
then the student is rejected. -/
def rejectSingles : List Nat → MState → StepRes
  | [], σ => .ok σ
  | sid :: rest, σ =>
    match dictGet sid σ.matching.matchesList with
    | none => .err .keyError σ
    | some _ => rejectSingles rest (reject sid σ)

/-- Result of the displaced-couples loop: the accumulated
`displaced_couples` set and the state, or an exception. -/
inductive CRes where
  | ok (dcs : List Applicant) (σ : MState)
  | err (e : PyErr) (σ : MState)

/-- The state carried by a displaced-couples loop result. -/
def CRes.state : CRes → MState
  | .ok _ σ => σ
  | .err _ σ => σ

/-- The `for bumped in couples` loop of `InstabilityChaining.apply`:
recover the partner, reconstitute the couple (re-running the
`Couple.__post_init__` assertion), dedup against `displaced_couples`,
evaluate the logged `matches[...]` lookups, push the withdrawer's program
on the program stack, and reject both members. -/
def displaceCouples (ctx : Ctx) : List Nat → List Applicant → MState → CRes
  | [], dcs, σ => .ok dcs σ
  | bumped :: rest, dcs, σ =>
    match partnerGet ctx bumped with
    | none => .err .keyError σ
    | some withdrawer =>
      match mkCouple (studentOf ctx bumped) withdrawer with
      | .error e => .err e σ
      | .ok couple =>
        if dcs.any (fun c => aeq c couple) then
          displaceCouples ctx rest dcs σ
        else
          match dictGet bumped σ.matching.matchesList with
          | none => .err .keyError σ
          | some _ =>
            match dictGet withdrawer.id σ.matching.matchesList with
            | none => .err .keyError σ
            | some wpid =>
              displaceCouples ctx rest (insertApplicant couple dcs)
                (reject withdrawer.id (reject bumped (progAdd wpid σ)))

/-- The candidate pool of one proposal (lines 399-404 of the source):
`make_pool(proposer)`, plus the partner when both coordinates name the
same program. -/
def proposePool (proposer : Student) (partner : Option Student)
    (program : ResidencyProgram) (partnerProgram : Option ResidencyProgram)
    (σ : MState) : List Nat :=
  let pool0 := insertSorted proposer.id (studentsMatchedTo σ.matching program.id)
  match partner, partnerProgram with
  | some pa, some pp => if program.id = pp.id then insertSorted pa.id pool0 else pool0
  | _, _ => pool0

/-- The displaced set of one proposal (lines 407-412): the program's
rejections from the proposer pool, unioned with the partner program's
rejections from the partner pool when the coordinates differ. -/
def computeDispl (proposer : Student) (partner : Option Student)
    (program : ResidencyProgram) (partnerProgram : Option ResidencyProgram)
    (σ : MState) : Except PyErr (List Nat) := do
  let displ1 ← program.select (proposePool proposer partner program partnerProgram σ)
  let displ2 ←
    match partner, partnerProgram with
    | some pa, some pp =>
      if program.id ≠ pp.id then
        pp.select (insertSorted pa.id (studentsMatchedTo σ.matching pp.id))
      else .ok []
    | _, _ => .ok []
  return unionSorted displ2 displ1

/-- The `matching.set` writes of one proposal (lines 418 and 436). -/
def acceptMatches (applicant : Applicant) (program : ResidencyProgram)
    (partnerProgram : Option ResidencyProgram) (σ : MState) : MState :=
  setMatches [(some applicant.proposalPair.1.id, some program.id),
    (applicant.proposalPair.2.map Student.id,
      partnerProgram.map ResidencyProgram.id)] σ

/-- Outcome of handling one nonempty displaced set (lines 421-487): the
next applicant to continue the `while` loop with, or an exception. -/
inductive BumpRes where
  | next (a : Applicant) (σ : MState)
  | err (e : PyErr) (σ : MState)

/-- The state carried by a bump-handling result. -/
def BumpRes.state : BumpRes → MState
  | .next _ σ => σ
  | .err _ σ => σ

/-- Handle a nonempty displaced set (lines 421-487): on a rejection of the
proposer or partner, advance the cursor(s) and retry the same applicant;
otherwise write the matches, reject the displaced singles, withdraw the
partners of displaced couple members, and continue with one displaced
applicant, pushing the rest on the applicant stack. -/
def handleDispl (ctx : Ctx) (applicant : Applicant) (program : ResidencyProgram)
    (partnerProgram : Option ResidencyProgram) (displ : List Nat) (σ : MState) :
    BumpRes :=
  let proposer := applicant.proposalPair.1
  let partner := applicant.proposalPair.2
  let rejected := displ.contains proposer.id ||
    (match partner with
     | some pa => displ.contains pa.id
     | none => false)
  if rejected then
    let σ1 := writeCursor false proposer.id (σ.cursors proposer.id + 1) σ
    let σ2 :=
      match partner with
      | some pa => writeCursor false pa.id (σ1.cursors pa.id + 1) σ1
      | none => σ1
    .next applicant σ2
  else
    let σ3 := acceptMatches applicant program partnerProgram σ
    let couplesL := displ.filter (fun sid => inPartnerMap ctx sid)
    let singlesL := displ.filter (fun sid => !inPartnerMap ctx sid)
    match rejectSingles singlesL σ3 with
    | .err e σ4 => .err e σ4
    | .ok σ4 =>
      if singlesL.length = displ.length then
        match displ with
        | [] => .err .keyError σ4
        | d :: drest =>
          .next (Applicant.single (studentOf ctx d))
            (pushStack (drest.map (fun sid =>
              Applicant.single (studentOf ctx sid))) σ4)
      else
        match displaceCouples ctx couplesL [] σ4 with
        | .err e σ5 => .err e σ5
        | .ok dcs σ5 =>
          match dcs with
          | [] => .err .keyError σ5
          | c :: crest =>
            .next c
              (pushStack (singlesL.map (fun sid =>
                Applicant.single (studentOf ctx sid)))
                (pushStack crest σ5))

/-- Embeds the `while applicant.may_still_apply()` loop of
`InstabilityChaining.apply`, with explicit fuel.  Each iteration proposes
at the applicant's cursor, computes the displaced set, and either breaks
(accepted with no bumps), retries after a rejection, or handles the
displaced singles and couples and continues with one of them. -/
def applyGo (ctx : Ctx) : Nat → Applicant → MState → StepRes
  | 0, _, σ => .err .outOfFuel σ
  | fuel + 1, applicant, σ =>
    if !mayStillApply applicant σ then .ok σ
    else
      match nextToApply ctx applicant σ with
      | .error e => .err e σ
      | .ok (program, partnerProgram) =>
        match computeDispl applicant.proposalPair.1 applicant.proposalPair.2
            program partnerProgram σ with
        | .error e => .err e σ
        | .ok displ =>
          if displ.isEmpty then
            .ok (acceptMatches applicant program partnerProgram σ)
          else
            match handleDispl ctx applicant program partnerProgram displ σ with
            | .next a2 σ2 => applyGo ctx fuel a2 σ2
            | .err e σ2 => .err e σ2

/-- The inner `while self.applicant_stack` loop of
`InstabilityChaining.process_one`: pop and apply until the stack drains. -/
def drainGo (ctx : Ctx) : Nat → MState → StepRes
  | 0, σ => .err .outOfFuel σ
  | fuel + 1, σ =>
    match σ.appStack with
    | [] => .ok σ
    | a :: rest =>
      match applyGo ctx fuel a { σ with appStack := rest } with
      | .ok σ1 => drainGo ctx fuel σ1
      | r => r

/-- The `for applicant in unstable_applicants` loop of
`InstabilityChaining.process_one`: reset the cursor, then push the
applicant's current program(s) on the program stack; a single whose match
is gone is a `KeyError` (`current_match` indexes the dict), a couple whose
first member is unmatched trips `assert m1 is not None`. -/
def repairLoopAdds : List Applicant → MState → StepRes
  | [], σ => .ok σ
  | app :: rest, σ =>
    let σ0 := resetBest app σ
    match app with
    | .single s =>
      match dictGet s.id σ0.matching.matchesList with
      | none => .err .keyError σ0
      | some m1 => repairLoopAdds rest (progAdd m1 σ0)
    | .couple a b =>
      match dictGet a.id σ0.matching.matchesList with
      | none => .err .assertionError σ0
      | some m1 =>
        match dictGet b.id σ0.matching.matchesList with
        | none => repairLoopAdds rest (progAdd m1 σ0)
        | some m2 => repairLoopAdds rest (progAdd m2 (progAdd m1 σ0))

/-- The `if self.program_stack` block of `process_one`: pop one affected
program, recompute its unstable applicants, reset and re-stack them. -/
def programStep (ctx : Ctx) (σ : MState) : StepRes :=
  match σ.progStack with
  | [] => .ok σ
  | pid :: rest =>
    let σ0 := { σ with progStack := rest }
    match indexGet ctx.programs pid with
    | .error e => .err e σ0
    | .ok program =>
      match unstablePairs program σ0.matching ctx.programs with
      | .error e => .err e σ0
      | .ok us =>
        match repairLoopAdds us σ0 with
        | .err e σ1 => .err e σ1
        | .ok σ1 => .ok (pushStack us σ1)

/-- Embeds `InstabilityChaining.snapshot`: raise `ValueError` on a
repeated snapshot key, else record it. -/
def snapKeyOf (σ : MState) : SnapKey :=
  (σ.appStack.map Applicant.key, σ.progStack, σ.matching.matchesList)

/-- The snapshot step: detection leaves the state unchanged. -/
def snapshotStep (σ : MState) : StepRes :=
  if snapKeyOf σ ∈ σ.log then .err .valueError σ
  else .ok { σ with log := snapKeyOf σ :: σ.log }

/-- The outer `while` loop of `process_one`: drain applicants, repair one
affected program, snapshot, repeat until both stacks are empty. -/
def processOneGo (ctx : Ctx) : Nat → MState → StepRes
  | 0, σ => .err .outOfFuel σ
  | fuel + 1, σ =>
    if σ.appStack.isEmpty && σ.progStack.isEmpty then .ok σ
    else
      match drainGo ctx fuel σ with
      | .ok σ1 =>
        match programStep ctx σ1 with
        | .ok σ2 =>
          match snapshotStep σ2 with
          | .ok σ3 => processOneGo ctx fuel σ3
          | r => r
        | r => r
      | r => r

/-- Embeds `process_one`: seed the applicant stack, clear the program
stack and the cycle log, and run the outer loop. -/
def processOne (ctx : Ctx) (fuel : Nat) (app : Applicant) (σ : MState) : StepRes :=
  processOneGo ctx fuel { σ with appStack := [app], progStack := [], log := [] }

/-- `valid = False` on the carried matching. -/
def invalidate (σ : MState) : MState :=
  { σ with matching := { σ.matching with valid := false } }

/-- Embeds `InstabilityChaining.run`: process each applicant in order; a
`ValueError` (the cycle signal) is caught, marks the matching invalid and
stops; other exceptions propagate. -/
def runGo (ctx : Ctx) (fuel : Nat) : List Applicant → MState → StepRes
  | [], σ => .ok σ
  | a :: rest, σ =>
    match processOne ctx fuel a σ with
    | .ok σ1 => runGo ctx fuel rest σ1
    | .err .valueError σ1 => .ok (invalidate σ1)
    | r => r

/-- The student objects reachable from the applicant list, for id
resolution. -/
def collectStudents : List Applicant → List Student
  | [] => []
  | .single s :: rest => s :: collectStudents rest
  | .couple a b :: rest => a :: b :: collectStudents rest

/-- Dict insert keyed on a student: later entries override. -/
def pmInsert (k v : Student) (l : List (Student × Student)) :
    List (Student × Student) :=
  (k, v) :: l.filter (fun kv => kv.1.id ≠ k.id)

/-- Embeds `InstabilityChaining.__init__`: collect the couple set, build
the symmetric partner mapping (`dict(c.members ...) | inverse`, right side
winning collisions), drop couple members from the singles, and order the
work list singles first, couples last.  Initial cursors come from each
student object's `best_unrejected` field. -/
def icInit (apps : List Applicant) (programs : List ResidencyProgram) :
    Ctx × MState :=
  let couples := applicantSet (apps.filter (fun a => !a.isSingle))
  let fwd : List (Student × Student) := couples.foldl
    (fun acc c =>
      match c with
      | .couple a b => pmInsert a b acc
      | _ => acc) []
  let pm : List (Student × Student) :=
    (fwd ++ fwd.map (fun kv => (kv.2, kv.1))).foldl
      (fun acc kv => pmInsert kv.1 kv.2 acc) []
  let partnerMap : List (Nat × Student) := pm.map (fun kv => (kv.1.id, kv.2))
  let students := collectStudents apps
  let inPm : Nat → Bool := fun sid => (partnerMap.find? (fun kv => kv.1 = sid)).isSome
  let singles := apps.filter
    (fun a =>
      match a with
      | .single s => !inPm s.id
      | _ => false)
  let order := singles ++ couples
  let ctx : Ctx :=
    { programs := programs, applicants := order, partnerMap := partnerMap,
      students := students }
  let m0 : Matching :=
    { matchesList := [], applicants := order, programs := programs, valid := true }
  let σ0 : MState :=
    { matching := m0,
      cursors := fun sid => (studentOf ctx sid).best_unrejected,
      appStack := [], progStack := [], log := [] }
  (ctx, σ0)

/-- Embeds `stable_matching`: construct the chider and run it.  The result
is the final state (`.ok`) or an uncaught exception (`.err`). -/
def stableMatching (apps : List Applicant) (programs : List ResidencyProgram)
    (fuel : Nat) : StepRes :=
  let cs := icInit apps programs
  runGo cs.1 fuel cs.1.applicants cs.2

/-- Raw applicants as a caller would construct them, before
`Couple.__post_init__` runs. -/
inductive RawApplicant where
  | single (s : Student)
  | couple (a b : Student)

/-- Construct the applicant values, running the `Couple` construction-time
assertion; the only validation the source performs before the run. -/
def constructApplicants : List RawApplicant → Except PyErr (List Applicant)
  | [] => .ok []
  | .single s :: rest => do
    let r ← constructApplicants rest
    return .single s :: r
  | .couple a b :: rest => do
    let c ← mkCouple a b
    let r ← constructApplicants rest
    return c :: r

/-! ### Definitions supporting the claim statements -/

/-- The program-side rank of a student (`preferences.index`), defaulting
to 0 for absent students; only used under hypotheses that make it
defined. -/
def rankIn (prefs : List Nat) (t : Nat) : Nat := (firstIdx prefs t).getD 0

/-- How many pool members the program ranks strictly better than `sid`. -/
def countBetter (prefs : List Nat) (pool : List Nat) (sid : Nat) : Nat :=
  (pool.filter (fun t => rankIn prefs t < rankIn prefs sid)).length

/-- Sortedness by rank (weak, ties broken by insertion position). -/
def SortedR (l : List (Nat × Nat)) : Prop :=
  l.Pairwise (fun p q => p.2 ≤ q.2)

/-- Strictly increasing keys: the representation invariant of the match
dict. -/
def sortedKeys (m : List (Nat × Nat)) : Prop :=
  m.Pairwise (fun a b => a.1 < b.1)

/-- The student ids matched to the program with id `pid` in a raw match
dict (the list form of `students_matched_to`). -/
def occL (m : List (Nat × Nat)) (pid : Nat) : List Nat :=
  (m.filter (fun kv => kv.2 = pid)).map (fun kv => kv.1)

/-- The capacity invariant of a match dict: strictly sorted keys, and every
program the index can resolve holds at most `capacity` students. -/
def minvL (progs : List ResidencyProgram) (m : List (Nat × Nat)) : Prop :=
  sortedKeys m ∧
  ∀ pid P, indexGet progs pid = Except.ok P → (occL m pid).length ≤ P.capacity

/-- The capacity invariant of a machine state. -/
def minv (progs : List ResidencyProgram) (σ : MState) : Prop :=
  minvL progs σ.matching.matchesList

/-- The capacity invariant at the step results the run can turn into a
returned `Matching`: normal returns and the caught cycle signal.  Other
exceptions propagate out of `run` uncaught, so their carried states never
become a returned `Matching`. -/
def StepInv (progs : List ResidencyProgram) : StepRes → Prop
  | .ok σ => minv progs σ
  | .err .valueError σ => minv progs σ
  | .err _ _ => True

/-- The capacity invariant at a bump-handling result, in the same sense. -/
def BumpInv (progs : List ResidencyProgram) : BumpRes → Prop
  | .next _ σ => minv progs σ
  | .err .valueError σ => minv progs σ
  | .err _ _ => True

/-- The students `select` retains from a fully listed pool: the
`capacity` best by the program's ranks (`heapq.nsmallest`). -/
def chosenOf (P : ResidencyProgram) (pool : List Nat) : List Nat :=
  ((sortByRank (pool.map (fun t => (t, rankIn P.preferences t)))).take
    P.capacity).map (fun xr => xr.1)

/-- Full-with-better: the program that position `i` of `s`'s preference
list resolves to already holds `capacity` students it ranks strictly
better than `s`. -/
def FWB (ctx : Ctx) (σ : MState) (s : Student) (i : Nat) : Prop :=
  ∀ pid, s.preferences.get? i = some pid →
    ∀ P, indexGet ctx.programs pid = Except.ok P →
      P.capacity ≤ ((occL σ.matching.matchesList P.id).filter
        (fun t => rankIn P.preferences t < rankIn P.preferences s.id)).length

/-- The run invariant for single-student markets: capacities respected,
every match sits at its student's cursor, every position skipped by a
cursor is full with better, the program stack stays empty, and the
applicant stack holds market applicants. -/
def C1Inv (ctx : Ctx) (σ : MState) : Prop :=
  minvL ctx.programs σ.matching.matchesList ∧
  (∀ sid pid, (sid, pid) ∈ σ.matching.matchesList →
    ∃ s, Applicant.single s ∈ ctx.applicants ∧ s.id = sid ∧
      s.preferences.get? (σ.cursors sid) = some pid) ∧
  (∀ a ∈ ctx.applicants, ∀ s, a = Applicant.single s →
    ∀ i, i < σ.cursors s.id → FWB ctx σ s i) ∧
  σ.progStack = [] ∧
  (∀ a ∈ σ.appStack, a ∈ ctx.applicants) ∧
  σ.matching.applicants = ctx.applicants ∧
  σ.matching.programs = ctx.programs

/-- The single-market invariant at a step result: it holds at normal
returns, and any exception is not the catchable cycle signal. -/
def C1Res (ctx : Ctx) : StepRes → Prop
  | .ok σ => C1Inv ctx σ
  | .err e _ => e ≠ PyErr.valueError

/-- The single-market invariant at a bump-handling result: the
continuation applicant belongs to the market and the invariant holds; any
exception is not the cycle signal. -/
def C1Bump (ctx : Ctx) : BumpRes → Prop
  | .next a σ => a ∈ ctx.applicants ∧ C1Inv ctx σ
  | .err e _ => e ≠ PyErr.valueError

/-- The static facts of a single-student market: every applicant is a
single, there are no partners, students' preferences resolve in the
index, every program of the market lists every student, and ids resolve
back to their student objects. -/
def SM (ctx : Ctx) : Prop :=
  (∀ a ∈ ctx.applicants, ∃ s, a = Applicant.single s) ∧
  ctx.partnerMap = [] ∧
  (∀ a ∈ ctx.applicants, ∀ s, a = Applicant.single s →
    ∀ pid ∈ s.preferences, ∃ P, indexGet ctx.programs pid = Except.ok P) ∧
  (∀ P ∈ ctx.programs, ∀ a ∈ ctx.applicants, ∀ s, a = Applicant.single s →
    s.id ∈ P.preferences) ∧
  (∀ a ∈ ctx.applicants, ∀ s, a = Applicant.single s →
    studentOf ctx s.id = s)

/-- The ids of the students of an applicant. -/
def Applicant.memberIds : Applicant → List Nat
  | .single s => [s.id]
  | .couple a b => [a.id, b.id]

/-- The preference lists of the students of an applicant. -/
def Applicant.prefLists : Applicant → List (List Nat)
  | .single s => [s.preferences]
  | .couple a b => [a.preferences, b.preferences]

/-- A market context in the class claim C1 quantifies over: every
applicant a single student, student preferences referencing known program
ids, every program ranking every student, and positive capacities. -/
def c1Class (apps : List Applicant) (programs : List ResidencyProgram) : Prop :=
  (∀ app ∈ apps, app.isSingle = true) ∧
  (∀ app ∈ apps, ∀ l ∈ app.prefLists, ∀ pid ∈ l, ∃ P ∈ programs, P.id = pid) ∧
  (∀ P ∈ programs, ∀ app ∈ apps, ∀ sid ∈ app.memberIds, sid ∈ P.preferences) ∧
  (∀ P ∈ programs, 0 < P.capacity)

/-- The pairwise instability test exactly as claim C3 words it.  Single
case: the applicant strictly prefers the program to its current match and
the program prefers the applicant over at least one current occupant.
Couple case: a joint pair strictly earlier than the current joint match
names the program, and each coordinate's program prefers the respective
member over at least one of its current occupants (two simultaneous
displacements when both coordinates name the program). -/
def genuineInstabilityClaim (app : Applicant) (P : ResidencyProgram)
    (m : Matching) (index : List ResidencyProgram) : Prop :=
  match app with
  | .single s =>
    (∃ mid, dictGet s.id m.matchesList = some mid ∧
      ∃ i j, firstIdx s.preferences P.id = some i ∧
        firstIdx s.preferences mid = some j ∧ i < j) ∧
    (∃ t ∈ studentsMatchedTo m P.id,
      ∃ i j, firstIdx P.preferences s.id = some i ∧
        firstIdx P.preferences t = some j ∧ i < j)
  | .couple a b =>
    ∃ m1 m2, dictGet a.id m.matchesList = some m1 ∧
      dictGet b.id m.matchesList = some m2 ∧
      ∃ p q i j, firstIdxPair (jointPreferences a b) (p, q) = some i ∧
        firstIdxPair (jointPreferences a b) (m1, m2) = some j ∧ i < j ∧
        (p = P.id ∨ q = P.id) ∧
        (if p = q then
          p = P.id ∧
          ∃ t1 ∈ studentsMatchedTo m P.id, ∃ t2 ∈ studentsMatchedTo m P.id,
            t1 ≠ t2 ∧
            rankIn P.preferences a.id < rankIn P.preferences t1 ∧
            rankIn P.preferences b.id < rankIn P.preferences t2
        else
          ∃ Pp ∈ index, Pp.id = p ∧ ∃ Pq ∈ index, Pq.id = q ∧
            (∃ t ∈ studentsMatchedTo m Pp.id,
              rankIn Pp.preferences a.id < rankIn Pp.preferences t) ∧
            (∃ t ∈ studentsMatchedTo m Pq.id,
              rankIn Pq.preferences b.id < rankIn Pq.preferences t))

/-- The corrected pairwise instability test for a single student, in pool
form: the student is matched, strictly prefers the program to its current
match under `Student.prefers` semantics (an unlisted current match makes
every listed program preferred; otherwise the first indices compare), and
joining the program's current occupant pool the student ranks among the
program's top `capacity` members — a free seat or a beaten occupant; the
whole pool is on the program's list. -/
def genuinePoolInstability (s : Student) (P : ResidencyProgram)
    (m : Matching) : Prop :=
  (∃ mid, dictGet s.id m.matchesList = some mid ∧
    ((s.preferences.contains mid = false ∧
        s.preferences.contains P.id = true) ∨
      (s.preferences.contains mid = true ∧
        ∃ i j, firstIdx s.preferences P.id = some i ∧
          firstIdx s.preferences mid = some j ∧ i < j))) ∧
  countBetter P.preferences
    (insertSorted s.id (occL m.matchesList P.id)) s.id < P.capacity ∧
  (∀ t ∈ insertSorted s.id (occL m.matchesList P.id), t ∈ P.preferences)

/-- The single-student strict-preference condition of the corrected
pairwise test, relative to the current match `mid`: an unlisted current
match makes every listed program preferred; otherwise the first indices
compare strictly. -/
def studentPrefersProp (s : Student) (pid mid : Nat) : Prop :=
  (s.preferences.contains mid = false ∧ s.preferences.contains pid = true) ∨
  (s.preferences.contains mid = true ∧
    ∃ i j, firstIdx s.preferences pid = some i ∧
      firstIdx s.preferences mid = some j ∧ i < j)

/-- The pool-sense program-side preference: the given students joined to
the program's current occupants are all on its list, and each of them
ranks among the program's top `capacity` of that pool — a free seat or a
beaten occupant for each. -/
def progPoolOk (P : ResidencyProgram) (students : List Nat)
    (m : Matching) : Prop :=
  (∀ t ∈ unionSorted students (occL m.matchesList P.id),
    t ∈ P.preferences) ∧
  ∀ s ∈ students, countBetter P.preferences
    (unionSorted students (occL m.matchesList P.id)) s < P.capacity

/-- The couple-side strict-preference condition of the corrected pairwise
test for a joint pair with ids `(p1id, p2id)`, with the first member
matched: when the second member is unmatched, its coordinate must be on
its list and the first member singly prefers its coordinate; when both
are matched, the joint pair sits strictly earlier on the joint preference
list than the current joint match. -/
def couplePrefersProp (a b : Student) (p1id p2id : Nat)
    (m : Matching) : Prop :=
  ∃ m1, dictGet a.id m.matchesList = some m1 ∧
    ((dictGet b.id m.matchesList = none ∧
        b.preferences.contains p2id = true ∧
        studentPrefersProp a p1id m1) ∨
      (∃ m2, dictGet b.id m.matchesList = some m2 ∧
        ∃ i j,
          firstIdxPair (jointPreferences a b) (p1id, p2id) = some i ∧
          firstIdxPair (jointPreferences a b) (m1, m2) = some j ∧ i < j))

/-- One joint-preference entry certifying a couple instability with
program `P`, in pool sense: both coordinates resolve in the index, one of
them is `P`, the couple strictly prefers the pair to its current state,
and the coordinate programs prefer the respective members in the pool
sense (jointly when the coordinates coincide). -/
def entryOk (P : ResidencyProgram) (m : Matching)
    (idx : List ResidencyProgram) (a b : Student) (pr : Nat × Nat) : Prop :=
  ∃ p1 p2, indexGet idx pr.1 = .ok p1 ∧ indexGet idx pr.2 = .ok p2 ∧
    (p1.id = P.id ∨ p2.id = P.id) ∧
    couplePrefersProp a b p1.id p2.id m ∧
    (if p1.id = p2.id then progPoolOk p1 (insertSorted b.id [a.id]) m
      else progPoolOk p1 [a.id] m ∧ progPoolOk p2 [b.id] m)

/-- The corrected pairwise instability test for a couple, in pool sense:
the first member is matched, the program prefers each member in the pool
sense (the checker prefilter), and some joint-preference entry certifies
the instability. -/
def genuineCouplePoolInstability (a b : Student) (P : ResidencyProgram)
    (m : Matching) (idx : List ResidencyProgram) : Prop :=
  (∃ m1, dictGet a.id m.matchesList = some m1) ∧
  progPoolOk P [a.id] m ∧ progPoolOk P [b.id] m ∧
  ∃ pr ∈ jointPreferences a b, entryOk P m idx a b pr

/-! #### Concrete inputs used by counterexamples, failing inputs and
witnesses -/

/-- C1 counterexample market: one single student whose initial
`best_unrejected` is 1, skipping its favourite program. -/
def c1xApps : List Applicant := [.single ⟨0, [0, 1], 1⟩]

/-- C1 counterexample programs: both rank the student, capacity 1. -/
def c1xProgs : List ResidencyProgram := [⟨0, [0], 1⟩, ⟨1, [0], 1⟩]

/-- The matching the C1 counterexample run returns. -/
def c1xM : Matching := (stableMatching c1xApps c1xProgs 50).state.matching

/-- C2 failing input, applicants: a single and a couple, each listing only
a personal program. -/
def c2xApps : List Applicant := [.single ⟨0, [0], 0⟩, .couple ⟨1, [1], 0⟩ ⟨2, [2], 0⟩]

/-- C2 failing input, programs: each ranks only its own student, so the
stability checker pools students into programs that do not rank them. -/
def c2xProgs : List ResidencyProgram := [⟨0, [0], 1⟩, ⟨1, [1], 1⟩, ⟨2, [2], 1⟩]

/-- The matching the C2 failing input returns. -/
def c2xM : Matching := (stableMatching c2xApps c2xProgs 100).state.matching

/-- C3 counterexample matching: a single student matched to program 1
while preferring program 0, which has a free seat and no occupant. -/
def c3xM : Matching :=
  { matchesList := [(0, 1)],
    applicants := [.single ⟨0, [0, 1], 0⟩],
    programs := [⟨0, [0], 1⟩, ⟨1, [0], 1⟩],
    valid := true }

/-- C3 amended-claim couple witness matching: a couple matched to its
second joint choice while its first joint choice has room for both. -/
def c3cM : Matching :=
  { matchesList := [(0, 1), (1, 1)],
    applicants := [.couple ⟨0, [0, 1], 0⟩ ⟨1, [0, 1], 0⟩],
    programs := [⟨0, [0, 1], 2⟩, ⟨1, [0, 1], 2⟩],
    valid := true }

/-- C3 amended-claim completeness witness matching: one student matched
to its only listed program; the checker reports nothing. -/
def c3sM : Matching :=
  { matchesList := [(0, 0)],
    applicants := [.single ⟨0, [0], 0⟩],
    programs := [⟨0, [0], 1⟩],
    valid := true }

/-- C4 counterexample market: two students into two program records that
share id 0 with different capacities; the index resolves id 0 to the
later, larger record. -/
def c4xApps : List Applicant := [.single ⟨0, [0], 0⟩, .single ⟨1, [0], 0⟩]

/-- C4 counterexample programs (duplicate id, capacities 1 and 2). -/
def c4xProgs : List ResidencyProgram := [⟨0, [0, 1], 1⟩, ⟨0, [0, 1], 2⟩]

/-- The matching the C4 counterexample run returns. -/
def c4xM : Matching := (stableMatching c4xApps c4xProgs 50).state.matching

/-- C4 amended-claim witness market: two singles chasing one seat. -/
def c4wApps : List Applicant := [.single ⟨0, [0], 0⟩, .single ⟨1, [0], 0⟩]

/-- C4 amended-claim witness programs: one program of capacity 1. -/
def c4wProgs : List ResidencyProgram := [⟨0, [0, 1], 1⟩]

/-- The state the C4 witness run returns. -/
def c4wState : MState := (stableMatching c4wApps c4wProgs 50).state

/-- C1 amended-claim witness market: two singles, one rejection. -/
def c1wApps : List Applicant := [.single ⟨0, [0, 1], 0⟩, .single ⟨1, [0], 0⟩]

/-- C1 amended-claim witness programs: both rank both students. -/
def c1wProgs : List ResidencyProgram := [⟨0, [0, 1], 1⟩, ⟨1, [0, 1], 1⟩]

/-- The state the C1 witness run returns. -/
def c1wState : MState := (stableMatching c1wApps c1wProgs 50).state

/-- C5 counterexample market: the withdrawal scenario of the source's
`test_withdrawal_creates_unstable_pair`, in which the repair loop resets
a rejected student's cursor back to 0. -/
def c5xApps : List Applicant :=
  [.single ⟨2, [0, 2, 1], 0⟩,
   .couple ⟨0, [0, 2, 1], 0⟩ ⟨1, [1, 2, 0], 0⟩,
   .couple ⟨3, [1, 2, 0], 0⟩ ⟨4, [2, 1, 0], 0⟩]

/-- C5 counterexample programs. -/
def c5xProgs : List ResidencyProgram :=
  [⟨0, [0, 2, 1, 3, 4], 1⟩, ⟨1, [3, 1, 2, 0, 4], 1⟩, ⟨2, [4, 1, 2, 3, 0], 4⟩]

/-- C7 witness market: one student listing a program that ranks nobody, so
`select` raises `ValueError` inside `process_one`. -/
def c7wPair : Ctx × MState := icInit [.single ⟨0, [0], 0⟩] [⟨0, [], 1⟩]

/-- C7 witness: the state carried out of the failing `process_one`. -/
def c7wRes : StepRes :=
  processOne c7wPair.1 10 (.single ⟨0, [0], 0⟩) c7wPair.2

/-- A state whose cycle log already contains the current snapshot key. -/
def c7wState : MState :=
  { matching := { matchesList := [], applicants := [], programs := [], valid := true },
    cursors := fun _ => 0,
    appStack := [], progStack := [], log := [([], [], [])] }

/-- C8 counterexample market: the single student's preference list
references program id 7, which no program has. -/
def c8xRaw : List RawApplicant := [.single ⟨0, [7], 0⟩]

/-- C8 counterexample programs. -/
def c8xProgs : List ResidencyProgram := [⟨0, [0], 1⟩]

/-- C10 witness matching: student 0 prefers program 1, which prefers
student 0 over its occupant, a genuine instability with all parties
matched. -/
def c10wM : Matching :=
  { matchesList := [(0, 0), (1, 1)],
    applicants := [.single ⟨0, [1, 0], 0⟩, .single ⟨1, [1, 0], 0⟩],
    programs := [⟨0, [0, 1], 1⟩, ⟨1, [0, 1], 1⟩],
    valid := true }

/-! ### Theorems -/

/-- Reduction of `Except` bind on an error. -/
theorem excBind_err {α β : Type} (e : PyErr) (f : α → Except PyErr β) :
    (Except.error e >>= f : Except PyErr β) = .error e := rfl

/-- Reduction of `Except` bind on a success. -/
theorem excBind_ok {α β : Type} (a : α) (f : α → Except PyErr β) :
    (Except.ok a >>= f : Except PyErr β) = f a := rfl

/-- Reduction of `Except` map on an error. -/
theorem excMap_err {α β : Type} (e : PyErr) (f : α → β) :
    (f <$> (Except.error e : Except PyErr α)) = .error e := rfl

/-- Reduction of `Except` map on a success. -/
theorem excMap_ok {α β : Type} (a : α) (f : α → β) :
    (f <$> (Except.ok a : Except PyErr α)) = .ok (f a) := rfl

/-- Any member of `insertApplicant x l` is `x` or a member of `l`. -/
theorem mem_of_mem_insertApplicant {x y : Applicant} {l : List Applicant}
    (h : y ∈ insertApplicant x l) : y = x ∨ y ∈ l := by
  induction l with
  | nil => simpa [insertApplicant] using h
  | cons z zs ih =>
    simp only [insertApplicant] at h
    split at h
    · exact Or.inr h
    · split at h
      · rcases List.mem_cons.mp h with h3 | h3
        · exact Or.inl h3
        · exact Or.inr h3
      · rcases List.mem_cons.mp h with h3 | h3
        · exact Or.inr (h3 ▸ List.mem_cons_self _ _)
        · rcases ih h3 with h4 | h4
          · exact Or.inl h4
          · exact Or.inr (List.mem_cons_of_mem _ h4)

/-- Members of a canonical applicant set come from the underlying list. -/
theorem mem_of_mem_applicantSet {y : Applicant} {l : List Applicant}
    (h : y ∈ applicantSet l) : y ∈ l := by
  suffices hgen : ∀ (l : List Applicant) (acc : List Applicant),
      y ∈ l.foldl (fun acc x => insertApplicant x acc) acc → y ∈ acc ∨ y ∈ l by
    rcases hgen l [] h with h1 | h1
    · simp at h1
    · exact h1
  intro l
  induction l with
  | nil => intro acc h1; exact Or.inl h1
  | cons z zs ih =>
    intro acc h1
    rcases ih (insertApplicant z acc) h1 with h2 | h2
    · rcases mem_of_mem_insertApplicant h2 with h3 | h3
      · exact Or.inr (by simp [h3])
      · exact Or.inl h3
    · exact Or.inr (by simp [h2])

/-- Members of a `filterUnstable` result are applicants of the list whose
test returned `True`. -/
theorem filterUnstable_mem {P : ResidencyProgram} {m : Matching}
    {idx : List ResidencyProgram} {l res : List Applicant} {y : Applicant}
    (h : filterUnstable P m idx l = .ok res) (hy : y ∈ res) :
    y ∈ l ∧ unstableWith P m idx y = .ok true := by
  induction l generalizing res with
  | nil =>
    simp only [filterUnstable] at h
    cases h
    simp at hy
  | cons z zs ih =>
    simp only [filterUnstable] at h
    cases hz : unstableWith P m idx z with
    | error e =>
      rw [hz, excBind_err] at h
      exact Except.noConfusion h
    | ok b =>
      rw [hz, excBind_ok] at h
      cases hrest : filterUnstable P m idx zs with
      | error e =>
        rw [hrest, excBind_err] at h
        exact Except.noConfusion h
      | ok rest =>
        rw [hrest] at h
        have hres : (if b = true then z :: rest else rest) = res := by
          have h2 := h
          simp only [excBind_ok, excMap_ok, pure, Except.pure] at h2
          exact Except.ok.inj h2
        cases b with
        | true =>
          rw [if_pos rfl] at hres
          subst hres
          rcases List.mem_cons.mp hy with h1 | h1
          · refine ⟨h1 ▸ List.mem_cons_self _ _, ?_⟩
            rw [h1]; exact hz
          · rcases ih hrest h1 with ⟨h2, h3⟩
            exact ⟨List.mem_cons_of_mem _ h2, h3⟩
        | false =>
          rw [if_neg (by simp)] at hres
          subst hres
          rcases ih hrest hy with ⟨h2, h3⟩
          exact ⟨List.mem_cons_of_mem _ h2, h3⟩

/-- An applicant that `unstable_pairs` reports has its first member
matched: the source skips unmatched first members. -/
theorem unstableWith_true_matched {P : ResidencyProgram} {m : Matching}
    {idx : List ResidencyProgram} {app : Applicant}
    (h : unstableWith P m idx app = .ok true) :
    (dictGet app.proposalPair.1.id m.matchesList).isSome = true := by
  cases hg : dictGet app.proposalPair.1.id m.matchesList with
  | some v => rfl
  | none =>
    exfalso
    simp only [unstableWith, hg] at h
    simp [pure, Except.pure] at h

/-- Pairs reported by `collectPairs` come from the per-program
`unstable_pairs` results. -/
theorem collectPairs_mem {m : Matching} {idx progs : List ResidencyProgram}
    {l : List (Applicant × ResidencyProgram)} {pr : Applicant × ResidencyProgram}
    (h : collectPairs m idx progs = .ok l) (hpr : pr ∈ l) :
    ∃ res, unstablePairs pr.2 m idx = .ok res ∧ pr.1 ∈ res := by
  induction progs generalizing l with
  | nil =>
    simp only [collectPairs] at h
    cases h
    simp at hpr
  | cons prog rest ih =>
    simp only [collectPairs] at h
    cases hu : unstablePairs prog m idx with
    | error e => rw [hu, excBind_err] at h; exact Except.noConfusion h
    | ok apps =>
      rw [hu, excBind_ok] at h
      cases ht : collectPairs m idx rest with
      | error e => rw [ht, excBind_err] at h; exact Except.noConfusion h
      | ok tail =>
        rw [ht] at h
        have hl : apps.map (fun app => (app, prog)) ++ tail = l := by
          have h2 := h
          simp only [excBind_ok, pure, Except.pure] at h2
          exact Except.ok.inj h2
        subst hl
        rcases List.mem_append.mp hpr with h1 | h1
        · rcases List.mem_map.mp h1 with ⟨app, happ, heq⟩
          refine ⟨apps, ?_, ?_⟩
          · rw [← heq]; exact hu
          · rw [← heq]; exact happ
        · exact ih ht h1

/-- Claim C10: every applicant returned by `unstable_pairs` has its first
member currently matched, and consequently `find_unstable_pairs` never
reports an applicant whose first member is unmatched, even when a program
would prefer that applicant over one of its occupants. -/
theorem C10_checker_reports_only_matched :
    (∀ P m idx res app, unstablePairs P m idx = .ok res → app ∈ res →
      (dictGet app.proposalPair.1.id m.matchesList).isSome = true) ∧
    (∀ m l pr, findUnstablePairs m = .ok l → pr ∈ l →
      (dictGet pr.1.proposalPair.1.id m.matchesList).isSome = true) := by
  have hfirst : ∀ P m idx res app, unstablePairs P m idx = .ok res → app ∈ res →
      (dictGet app.proposalPair.1.id m.matchesList).isSome = true := by
    intro P m idx res app h happ
    simp only [unstablePairs] at h
    cases hf : filterUnstable P m idx m.applicants with
    | error e => rw [hf, excBind_err] at h; exact Except.noConfusion h
    | ok l0 =>
      rw [hf] at h
      have hres : applicantSet l0 = res := by
        have h2 := h
        simp only [excBind_ok, pure, Except.pure] at h2
        exact Except.ok.inj h2
      subst hres
      have hmem := mem_of_mem_applicantSet happ
      exact unstableWith_true_matched (filterUnstable_mem hf hmem).2
  refine ⟨hfirst, ?_⟩
  intro m l pr h hpr
  rcases collectPairs_mem h hpr with ⟨res, hres, hmem⟩
  exact hfirst pr.2 m m.programs res pr.1 hres hmem

/-- Witness for C10 at the concrete matching `c10wM`, whose checker output
is the pair (student 0, program 1). -/
theorem C10_witness : (dictGet 0 c10wM.matchesList).isSome = true :=
  C10_checker_reports_only_matched.2 c10wM
    [(.single ⟨0, [1, 0], 0⟩, ⟨1, [0, 1], 1⟩)]
    (.single ⟨0, [1, 0], 0⟩, ⟨1, [0, 1], 1⟩)
    rfl (by decide)

/-- Claim C7: a repeated snapshot raises the cycle signal (`ValueError`)
with the state unchanged, and a `ValueError` escaping `process_one` is
caught by `run`: the remaining applicants are skipped, no exception
reaches the caller, and the returned matching is the one carried at the
raise with `valid = false` and its partial matches intact. -/
theorem C7_cycle_detected_behavior :
    (∀ σ : MState, snapKeyOf σ ∈ σ.log →
      snapshotStep σ = .err .valueError σ) ∧
    (∀ ctx fuel a rest σ σ1, processOne ctx fuel a σ = .err .valueError σ1 →
      runGo ctx fuel (a :: rest) σ = .ok (invalidate σ1) ∧
      (invalidate σ1).matching.matchesList = σ1.matching.matchesList ∧
      (invalidate σ1).matching.valid = false) := by
  constructor
  · intro σ h
    simp [snapshotStep, h]
  · intro ctx fuel a rest σ σ1 h
    refine ⟨?_, rfl, rfl⟩
    simp only [runGo, h]

/-- Witness for C7: a concrete failing `process_one` caught by the driver,
and a concrete state whose snapshot is already logged. -/
theorem C7_witness :
    runGo c7wPair.1 10 [.single ⟨0, [0], 0⟩] c7wPair.2 = .ok (invalidate c7wRes.state) ∧
    snapshotStep c7wState = .err .valueError c7wState :=
  ⟨(C7_cycle_detected_behavior.2 c7wPair.1 10 (.single ⟨0, [0], 0⟩) [] c7wPair.2
      c7wRes.state rfl).1,
    C7_cycle_detected_behavior.1 c7wState (by decide)⟩

/-- Claim C8, counterexample: a market whose student references the
unknown program id 7 — an invalid input per the claim — passes
construction (`Couple.__post_init__` is the only construction-time check
and there is no couple), and the failure instead surfaces mid-run as an
uncaught `KeyError` from the program index. -/
theorem C8_counterexample :
    constructApplicants c8xRaw = .ok [.single ⟨0, [7], 0⟩] ∧
    (∀ p ∈ c8xProgs, p.id ≠ 7) ∧
    (stableMatching [.single ⟨0, [7], 0⟩] c8xProgs 10).errKind = some .keyError :=
  ⟨rfl, by decide, rfl⟩

/-- Claim C8, amended: the only validation performed at construction time
is the `Couple.__post_init__` assertion that both members' preference
lists have equal length; such couples are rejected before the algorithm
runs. -/
theorem C8_amended_construction_checks_couple_lengths
    (a b : Student) (rest : List RawApplicant)
    (h : a.preferences.length ≠ b.preferences.length) :
    constructApplicants (.couple a b :: rest) = .error .assertionError := by
  have hmk : mkCouple a b = .error .assertionError := by
    simp only [mkCouple]
    by_cases hlt : b.id < a.id
    · rw [if_pos hlt, if_neg (Ne.symm h)]
    · rw [if_neg hlt, if_neg h]
  simp only [constructApplicants]
  rw [hmk, excBind_err]

/-- Witness for the amended C8 at a concrete unequal-length couple. -/
theorem C8_amended_witness :
    constructApplicants [.couple ⟨0, [0], 0⟩ ⟨1, [0, 1], 0⟩] = .error .assertionError :=
  C8_amended_construction_checks_couple_lengths ⟨0, [0], 0⟩ ⟨1, [0, 1], 0⟩ [] (by decide)

/-- Claim C1, counterexample: a no-couples market inside the claim's class
(single students with known program ids, complete program lists, positive
capacities) whose student carries initial cursor `best_unrejected = 1`;
the run returns normally with `valid = true`, yet `find_unstable_pairs`
is nonempty. -/
theorem C1_counterexample :
    c1Class c1xApps c1xProgs ∧
    (stableMatching c1xApps c1xProgs 50).errKind = none ∧
    c1xM.valid = true ∧
    findUnstablePairs c1xM = .ok [(.single ⟨0, [0, 1], 1⟩, ⟨0, [0], 1⟩)] :=
  ⟨by refine ⟨by decide, ?_, by decide, by decide⟩
      intro app happ l hl pid hpid
      fin_cases happ
      fin_cases hl
      fin_cases hpid
      · exact ⟨⟨0, [0], 1⟩, by decide, rfl⟩
      · exact ⟨⟨1, [0], 1⟩, by decide, rfl⟩,
    rfl, rfl, rfl⟩

/-- Claim C2, failing-input behavior: a market with a couple where the run
completes normally with `valid = true`, but `find_unstable_pairs` raises
`ValueError` (a program's preference list omits a pooled student) instead
of returning a list — so the returned matching is neither certified stable
nor marked invalid. -/
theorem C2_code_behavior :
    (stableMatching c2xApps c2xProgs 100).errKind = none ∧
    c2xM.valid = true ∧
    findUnstablePairs c2xM = .error .valueError :=
  ⟨rfl, rfl, rfl⟩

/-- Claim C3, counterexample: `find_unstable_pairs` on `c3xM` returns the
pair (student 0, program 0), but program 0 has no occupant, so the
claim's requirement that the program prefer the applicant over at least
one of its current occupants fails. -/
theorem C3_counterexample :
    findUnstablePairs c3xM = .ok [(.single ⟨0, [0, 1], 0⟩, ⟨0, [0], 1⟩)] ∧
    ¬ genuineInstabilityClaim (.single ⟨0, [0, 1], 0⟩) ⟨0, [0], 1⟩ c3xM c3xM.programs := by
  refine ⟨rfl, ?_⟩
  intro h
  rcases h with ⟨-, t, ht, -⟩
  simp [studentsMatchedTo, c3xM] at ht

/-- Claim C4, counterexample: two program records share id 0 (capacities 1
and 2); the index resolves id 0 to the larger record, two students are
matched to it, and the record with capacity 1 — a program of the returned
matching — holds 2 > 1 students. -/
theorem C4_counterexample :
    (stableMatching c4xApps c4xProgs 50).errKind = none ∧
    (⟨0, [0, 1], 1⟩ : ResidencyProgram) ∈ c4xM.programs ∧
    (studentsMatchedTo c4xM 0).length = 2 ∧
    (⟨0, [0, 1], 1⟩ : ResidencyProgram).capacity = 1 :=
  ⟨rfl, by decide, by decide, rfl⟩

/-- Claim C5, counterexample: in the withdrawal scenario of the source's
own test, the repair loop calls `reset_best` on a student whose cursor had
advanced past 0, so the cursor moves to a smaller index during the run:
the ghost monitor `anyDec` ends true. -/
theorem C5_counterexample :
    (stableMatching c5xApps c5xProgs 200).errKind = none ∧
    (stableMatching c5xApps c5xProgs 200).state.anyDec = true :=
  ⟨rfl, by decide⟩

/-- Claim C6, counterexample: a pool student absent from the program's
preference list is not placed in the returned rejected set — `select`
raises `ValueError` instead of returning a set at all. -/
theorem C6_counterexample :
    ResidencyProgram.select ⟨0, [], 1⟩ [5] = .error .valueError := rfl

/-- `reset_best` writes never touch the non-reset decrease monitor. -/
theorem nrd_writeCursor_reset (sid v : Nat) (σ : MState) :
    (writeCursor true sid v σ).nonResetDec = σ.nonResetDec := by
  simp [writeCursor]

/-- A cursor increment (`best_unrejected += 1`) never decreases, so it
leaves the non-reset decrease monitor unchanged. -/
theorem nrd_bump (sid : Nat) (σ : MState) :
    (writeCursor false sid (σ.cursors sid + 1) σ).nonResetDec = σ.nonResetDec := by
  simp [writeCursor]

/-- `Matching.reject` preserves the non-reset decrease monitor. -/
theorem nrd_reject (sid : Nat) (σ : MState) :
    (reject sid σ).nonResetDec = σ.nonResetDec := by
  simp only [reject]
  split
  · exact nrd_bump sid _
  · rfl

/-- `reset_best` preserves the non-reset decrease monitor. -/
theorem nrd_resetBest (app : Applicant) (σ : MState) :
    (resetBest app σ).nonResetDec = σ.nonResetDec := by
  cases app with
  | single s => exact nrd_writeCursor_reset _ _ _
  | couple a b =>
    simp only [resetBest]
    rw [nrd_writeCursor_reset, nrd_writeCursor_reset]

/-- `rejectSingles` preserves the non-reset decrease monitor. -/
theorem nrd_rejectSingles : ∀ (l : List Nat) (σ : MState),
    ((rejectSingles l σ).state).nonResetDec = σ.nonResetDec := by
  intro l
  induction l with
  | nil => intro σ; rfl
  | cons sid rest ih =>
    intro σ
    simp only [rejectSingles]
    split
    · rfl
    · rw [ih, nrd_reject]

/-- `displaceCouples` preserves the non-reset decrease monitor. -/
theorem nrd_displaceCouples (ctx : Ctx) : ∀ (l : List Nat)
    (dcs : List Applicant) (σ : MState),
    ((displaceCouples ctx l dcs σ).state).nonResetDec = σ.nonResetDec := by
  intro l
  induction l with
  | nil => intro dcs σ; rfl
  | cons bumped rest ih =>
    intro dcs σ
    simp only [displaceCouples]
    split
    · rfl
    · split
      · rfl
      · split
        · exact ih dcs σ
        · split
          · rfl
          · split
            · rfl
            · rw [ih]
              simp only [nrd_reject]
              rfl

/-- The state of a step result known to be an error. -/
theorem stateRes_err {r : StepRes} {e : PyErr} {σ' : MState}
    (h : r = .err e σ') : r.state = σ' := by rw [h]; rfl

/-- The state of a step result known to be a success. -/
theorem stateRes_ok {r : StepRes} {σ' : MState}
    (h : r = .ok σ') : r.state = σ' := by rw [h]; rfl

/-- The state of a displaced-couples result known to be an error. -/
theorem cstate_err {r : CRes} {e : PyErr} {σ' : MState}
    (h : r = .err e σ') : r.state = σ' := by rw [h]; rfl

/-- The state of a displaced-couples result known to be a success. -/
theorem cstate_ok {r : CRes} {dcs : List Applicant} {σ' : MState}
    (h : r = .ok dcs σ') : r.state = σ' := by rw [h]; rfl

/-- `Matching.set` does not touch the monitors. -/
theorem nrd_setMatches (ps : List (Option Nat × Option Nat)) (σ : MState) :
    (setMatches ps σ).nonResetDec = σ.nonResetDec := rfl

/-- Pushing the applicant stack does not touch the monitors. -/
theorem nrd_pushStack (items : List Applicant) (σ : MState) :
    (pushStack items σ).nonResetDec = σ.nonResetDec := rfl

/-- Adding to the program stack does not touch the monitors. -/
theorem nrd_progAdd (pid : Nat) (σ : MState) :
    (progAdd pid σ).nonResetDec = σ.nonResetDec := rfl

/-- The state of a bump-handling result known to be a continuation. -/
theorem bstate_next {r : BumpRes} {a : Applicant} {σ' : MState}
    (h : r = .next a σ') : r.state = σ' := by rw [h]; rfl

/-- The state of a bump-handling result known to be an error. -/
theorem bstate_err {r : BumpRes} {e : PyErr} {σ' : MState}
    (h : r = .err e σ') : r.state = σ' := by rw [h]; rfl

/-- `acceptMatches` does not touch the monitors. -/
theorem nrd_acceptMatches (applicant : Applicant) (program : ResidencyProgram)
    (partnerProgram : Option ResidencyProgram) (σ : MState) :
    (acceptMatches applicant program partnerProgram σ).nonResetDec = σ.nonResetDec := rfl

/-- `handleDispl` preserves the non-reset decrease monitor: its only
cursor writes are the rejection increments. -/
theorem nrd_handleDispl (ctx : Ctx) (applicant : Applicant)
    (program : ResidencyProgram) (partnerProgram : Option ResidencyProgram)
    (displ : List Nat) (σ : MState) :
    ((handleDispl ctx applicant program partnerProgram displ σ).state).nonResetDec
      = σ.nonResetDec := by
  simp only [handleDispl]
  split
  · show (match applicant.proposalPair.2 with
      | some pa => writeCursor false pa.id _ _
      | none => _ : MState).nonResetDec = σ.nonResetDec
    cases applicant.proposalPair.2 with
    | none => exact nrd_bump _ _
    | some pa => rw [nrd_bump, nrd_bump]
  · split
    · rename_i e σ4 heq
      show σ4.nonResetDec = σ.nonResetDec
      rw [← stateRes_err heq, nrd_rejectSingles, nrd_acceptMatches]
    · rename_i σ4 heq
      split
      · split
        · show σ4.nonResetDec = σ.nonResetDec
          rw [← stateRes_ok heq, nrd_rejectSingles, nrd_acceptMatches]
        · show σ4.nonResetDec = σ.nonResetDec
          rw [← stateRes_ok heq, nrd_rejectSingles, nrd_acceptMatches]
      · split
        · rename_i e2 σ5 heq2
          show σ5.nonResetDec = σ.nonResetDec
          rw [← cstate_err heq2, nrd_displaceCouples]
          show σ4.nonResetDec = σ.nonResetDec
          rw [← stateRes_ok heq, nrd_rejectSingles, nrd_acceptMatches]
        · rename_i dcs σ5 heq2
          split
          · show σ5.nonResetDec = σ.nonResetDec
            rw [← cstate_ok heq2, nrd_displaceCouples]
            show σ4.nonResetDec = σ.nonResetDec
            rw [← stateRes_ok heq, nrd_rejectSingles, nrd_acceptMatches]
          · show σ5.nonResetDec = σ.nonResetDec
            rw [← cstate_ok heq2, nrd_displaceCouples]
            show σ4.nonResetDec = σ.nonResetDec
            rw [← stateRes_ok heq, nrd_rejectSingles, nrd_acceptMatches]

/-- `applyGo` preserves the non-reset decrease monitor: the only cursor
writes it makes are increments. -/
theorem nrd_applyGo (ctx : Ctx) : ∀ (fuel : Nat) (a : Applicant) (σ : MState),
    ((applyGo ctx fuel a σ).state).nonResetDec = σ.nonResetDec := by
  intro fuel
  induction fuel with
  | zero => intro a σ; rfl
  | succ f ih =>
    intro a σ
    simp only [applyGo]
    split
    · rfl
    · split
      · rfl
      · split
        · rfl
        · split
          · rfl
          · split
            · rename_i a2 σ2 heq
              rw [ih]
              show σ2.nonResetDec = σ.nonResetDec
              rw [← bstate_next heq, nrd_handleDispl]
            · rename_i e σ2 heq
              show σ2.nonResetDec = σ.nonResetDec
              rw [← bstate_err heq, nrd_handleDispl]

/-- The inner drain loop preserves the non-reset decrease monitor. -/
theorem nrd_drainGo (ctx : Ctx) : ∀ (fuel : Nat) (σ : MState),
    ((drainGo ctx fuel σ).state).nonResetDec = σ.nonResetDec := by
  intro fuel
  induction fuel with
  | zero => intro σ; rfl
  | succ f ih =>
    intro σ
    cases hs : σ.appStack with
    | nil => simp only [drainGo, hs]; rfl
    | cons a rest =>
      cases h1 : applyGo ctx f a { σ with appStack := rest } with
      | ok σ1 =>
        simp only [drainGo, hs, h1]
        rw [ih]
        show σ1.nonResetDec = σ.nonResetDec
        rw [← stateRes_ok h1, nrd_applyGo]
      | err e σ1 =>
        simp only [drainGo, hs, h1]
        show σ1.nonResetDec = σ.nonResetDec
        rw [← stateRes_err h1, nrd_applyGo]

/-- The repair loop body preserves the non-reset decrease monitor:
`reset_best` writes are marked as resets. -/
theorem nrd_repairLoopAdds : ∀ (l : List Applicant) (σ : MState),
    ((repairLoopAdds l σ).state).nonResetDec = σ.nonResetDec := by
  intro l
  induction l with
  | nil => intro σ; rfl
  | cons app rest ih =>
    intro σ
    simp only [repairLoopAdds]
    split
    · rename_i s
      split
      · show (resetBest (.single s) σ).nonResetDec = σ.nonResetDec
        exact nrd_resetBest _ _
      · rw [ih]
        show (resetBest (.single s) σ).nonResetDec = σ.nonResetDec
        exact nrd_resetBest _ _
    · rename_i a b
      split
      · show (resetBest (.couple a b) σ).nonResetDec = σ.nonResetDec
        exact nrd_resetBest _ _
      · split
        · rw [ih]
          show (resetBest (.couple a b) σ).nonResetDec = σ.nonResetDec
          exact nrd_resetBest _ _
        · rw [ih]
          show (resetBest (.couple a b) σ).nonResetDec = σ.nonResetDec
          exact nrd_resetBest _ _

/-- The affected-program step preserves the non-reset decrease monitor. -/
theorem nrd_programStep (ctx : Ctx) (σ : MState) :
    ((programStep ctx σ).state).nonResetDec = σ.nonResetDec := by
  simp only [programStep]
  split
  · rfl
  · split
    · rfl
    · split
      · rfl
      · split
        · rename_i e σ1 heq
          show σ1.nonResetDec = σ.nonResetDec
          rw [← stateRes_err heq, nrd_repairLoopAdds]
        · rename_i σ1 heq
          show σ1.nonResetDec = σ.nonResetDec
          rw [← stateRes_ok heq, nrd_repairLoopAdds]

/-- The snapshot step preserves the non-reset decrease monitor. -/
theorem nrd_snapshotStep (σ : MState) :
    ((snapshotStep σ).state).nonResetDec = σ.nonResetDec := by
  simp only [snapshotStep]
  split <;> rfl

/-- The outer `process_one` loop preserves the non-reset decrease
monitor. -/
theorem nrd_processOneGo (ctx : Ctx) : ∀ (fuel : Nat) (σ : MState),
    ((processOneGo ctx fuel σ).state).nonResetDec = σ.nonResetDec := by
  intro fuel
  induction fuel with
  | zero => intro σ; rfl
  | succ f ih =>
    intro σ
    by_cases hs : (σ.appStack.isEmpty && σ.progStack.isEmpty) = true
    · simp only [processOneGo, hs]
      rfl
    · cases h1 : drainGo ctx f σ with
      | err e σ1 =>
        simp only [processOneGo, hs, Bool.false_eq_true, if_false, h1]
        show σ1.nonResetDec = σ.nonResetDec
        rw [← stateRes_err h1, nrd_drainGo]
      | ok σ1 =>
        cases h2 : programStep ctx σ1 with
        | err e σ2 =>
          simp only [processOneGo, hs, Bool.false_eq_true, if_false, h1, h2]
          show σ2.nonResetDec = σ.nonResetDec
          rw [← stateRes_err h2, nrd_programStep]
          show σ1.nonResetDec = σ.nonResetDec
          rw [← stateRes_ok h1, nrd_drainGo]
        | ok σ2 =>
          cases h3 : snapshotStep σ2 with
          | err e σ3 =>
            simp only [processOneGo, hs, Bool.false_eq_true, if_false, h1, h2, h3]
            show σ3.nonResetDec = σ.nonResetDec
            rw [← stateRes_err h3, nrd_snapshotStep]
            show σ2.nonResetDec = σ.nonResetDec
            rw [← stateRes_ok h2, nrd_programStep]
            show σ1.nonResetDec = σ.nonResetDec
            rw [← stateRes_ok h1, nrd_drainGo]
          | ok σ3 =>
            simp only [processOneGo, hs, Bool.false_eq_true, if_false, h1, h2, h3]
            rw [ih]
            show σ3.nonResetDec = σ.nonResetDec
            rw [← stateRes_ok h3, nrd_snapshotStep]
            show σ2.nonResetDec = σ.nonResetDec
            rw [← stateRes_ok h2, nrd_programStep]
            show σ1.nonResetDec = σ.nonResetDec
            rw [← stateRes_ok h1, nrd_drainGo]

/-- Claim C5, amended: across a single run, no cursor write other than the
`reset_best` calls of the repair loop ever moves a student's
`best_unrejected` to a smaller index: the monitor recording non-reset
decreases ends false whenever it starts false, for every market, fuel and
applicant order. -/
theorem C5_amended_cursor_decreases_only_at_reset (ctx : Ctx) :
    ∀ (fuel : Nat) (apps : List Applicant) (σ : MState),
    σ.nonResetDec = false →
    ((runGo ctx fuel apps σ).state).nonResetDec = false := by
  intro fuel apps
  induction apps with
  | nil => intro σ h; exact h
  | cons a rest ih =>
    intro σ h
    have hpre : ((processOne ctx fuel a σ).state).nonResetDec = false := by
      show ((processOneGo ctx fuel _).state).nonResetDec = false
      rw [nrd_processOneGo]
      exact h
    cases h1 : processOne ctx fuel a σ with
    | ok σ1 =>
      simp only [runGo, h1]
      refine ih σ1 ?_
      rw [h1] at hpre
      exact hpre
    | err e σ1 =>
      rw [h1] at hpre
      cases e with
      | valueError => simp only [runGo, h1]; exact hpre
      | keyError => simp only [runGo, h1]; exact hpre
      | indexError => simp only [runGo, h1]; exact hpre
      | assertionError => simp only [runGo, h1]; exact hpre
      | outOfFuel => simp only [runGo, h1]; exact hpre

/-- Witness for the amended C5 at the withdrawal market, where the overall
decrease monitor is true but the non-reset monitor stays false. -/
theorem C5_amended_witness :
    ((stableMatching c5xApps c5xProgs 200).state).nonResetDec = false := by
  have h := C5_amended_cursor_decreases_only_at_reset
    (icInit c5xApps c5xProgs).1 200
    (icInit c5xApps c5xProgs).1.applicants
    (icInit c5xApps c5xProgs).2 rfl
  exact h

/-- More fuel does not change the result of the `apply` loop, as long as
the smaller fuel did not run out. -/
theorem applyGo_mono (ctx : Ctx) : ∀ (f g : Nat), f ≤ g →
    ∀ (a : Applicant) (σ : MState),
    (applyGo ctx f a σ).isFuel = false →
    applyGo ctx g a σ = applyGo ctx f a σ := by
  intro f
  induction f with
  | zero =>
    intro g hg a σ h
    exact absurd h (by simp [applyGo, StepRes.isFuel])
  | succ f ih =>
    intro g hg a σ h
    obtain ⟨g2, rfl⟩ : ∃ g2, g = g2 + 1 := ⟨g - 1, by omega⟩
    have hfg : f ≤ g2 := by omega
    by_cases hmay : (!mayStillApply a σ) = true
    · simp only [applyGo, hmay, if_true]
    · cases hnext : nextToApply ctx a σ with
      | error e =>
        simp only [applyGo, hmay, Bool.false_eq_true, if_false, hnext]
      | ok pp =>
        obtain ⟨program, partnerProgram⟩ := pp
        cases hdis : computeDispl a.proposalPair.1 a.proposalPair.2
            program partnerProgram σ with
        | error e =>
          simp only [applyGo, hmay, Bool.false_eq_true, if_false, hnext, hdis]
        | ok displ =>
          by_cases hemp : displ.isEmpty = true
          · simp only [applyGo, hmay, Bool.false_eq_true, if_false, hnext, hdis,
              hemp, if_true]
          · cases hb : handleDispl ctx a program partnerProgram displ σ with
            | next a2 σ2 =>
              simp only [applyGo, hmay, Bool.false_eq_true, if_false, hnext,
                hdis, hemp, hb]
              refine ih g2 hfg a2 σ2 ?_
              simp only [applyGo, hmay, Bool.false_eq_true, if_false, hnext,
                hdis, hemp, hb] at h
              exact h
            | err e σ2 =>
              simp only [applyGo, hmay, Bool.false_eq_true, if_false, hnext,
                hdis, hemp, hb]

/-- More fuel does not change the result of the drain loop. -/
theorem drainGo_mono (ctx : Ctx) : ∀ (f g : Nat), f ≤ g → ∀ (σ : MState),
    (drainGo ctx f σ).isFuel = false →
    drainGo ctx g σ = drainGo ctx f σ := by
  intro f
  induction f with
  | zero =>
    intro g hg σ h
    exact absurd h (by simp [drainGo, StepRes.isFuel])
  | succ f ih =>
    intro g hg σ h
    obtain ⟨g2, rfl⟩ : ∃ g2, g = g2 + 1 := ⟨g - 1, by omega⟩
    have hfg : f ≤ g2 := by omega
    cases hs : σ.appStack with
    | nil => simp only [drainGo, hs]
    | cons a rest =>
      have hap : (applyGo ctx f a { σ with appStack := rest }).isFuel = false := by
        cases hr : applyGo ctx f a { σ with appStack := rest } with
        | ok σ1 => rfl
        | err e σ1 =>
          simp only [drainGo, hs, hr] at h
          cases e <;> first | rfl | exact h
      rw [drainGo, drainGo, hs]
      simp only
      rw [applyGo_mono ctx f g2 hfg _ _ hap]
      cases hr : applyGo ctx f a { σ with appStack := rest } with
      | ok σ1 =>
        simp only
        refine ih g2 hfg σ1 ?_
        simp only [drainGo, hs, hr] at h
        exact h
      | err e σ1 => simp only

/-- More fuel does not change the result of the `process_one` loop. -/
theorem processOneGo_mono (ctx : Ctx) : ∀ (f g : Nat), f ≤ g → ∀ (σ : MState),
    (processOneGo ctx f σ).isFuel = false →
    processOneGo ctx g σ = processOneGo ctx f σ := by
  intro f
  induction f with
  | zero =>
    intro g hg σ h
    exact absurd h (by simp [processOneGo, StepRes.isFuel])
  | succ f ih =>
    intro g hg σ h
    obtain ⟨g2, rfl⟩ : ∃ g2, g = g2 + 1 := ⟨g - 1, by omega⟩
    have hfg : f ≤ g2 := by omega
    by_cases hs : (σ.appStack.isEmpty && σ.progStack.isEmpty) = true
    · simp only [processOneGo, hs, if_true]
    · have hdr : (drainGo ctx f σ).isFuel = false := by
        cases hr : drainGo ctx f σ with
        | ok σ1 => rfl
        | err e σ1 =>
          simp only [processOneGo, hs, Bool.false_eq_true, if_false, hr] at h
          cases e <;> first | rfl | exact h
      cases hr : drainGo ctx f σ with
      | err e σ1 =>
        simp only [processOneGo, hs, Bool.false_eq_true, if_false]
        rw [drainGo_mono ctx f g2 hfg σ hdr, hr]
      | ok σ1 =>
        simp only [processOneGo, hs, Bool.false_eq_true, if_false]
        rw [drainGo_mono ctx f g2 hfg σ hdr, hr]
        cases hp : programStep ctx σ1 with
        | err e σ2 => simp only [hp]
        | ok σ2 =>
          simp only [hp]
          cases hsn : snapshotStep σ2 with
          | err e σ3 => simp only [hsn]
          | ok σ3 =>
            simp only [hsn]
            refine ih g2 hfg σ3 ?_
            simp only [processOneGo, hs, Bool.false_eq_true, if_false, hr,
              hp, hsn] at h
            exact h

/-- More fuel does not change the result of the driver. -/
theorem runGo_mono (ctx : Ctx) (f g : Nat) (hfg : f ≤ g) :
    ∀ (apps : List Applicant) (σ : MState),
    (runGo ctx f apps σ).isFuel = false →
    runGo ctx g apps σ = runGo ctx f apps σ := by
  intro apps
  induction apps with
  | nil => intro σ h; rfl
  | cons a rest ih =>
    intro σ h
    have hpm : (processOne ctx f a σ).isFuel = false := by
      cases hr : processOne ctx f a σ with
      | ok σ1 => rfl
      | err e σ1 =>
        simp only [runGo, hr] at h
        cases e <;> first | rfl | exact h
    have hpeq : processOne ctx g a σ = processOne ctx f a σ :=
      processOneGo_mono ctx f g hfg _ hpm
    cases hr : processOne ctx f a σ with
    | ok σ1 =>
      simp only [runGo, hpeq, hr]
      refine ih σ1 ?_
      simp only [runGo, hr] at h
      exact h
    | err e σ1 =>
      simp only [runGo, hpeq, hr]
      cases e <;> rfl

/-- Claim C9: determinism.  The embedded `stable_matching` is a pure
function of its inputs, so two invocations on identical inputs coincide;
the proved content is that the result is also independent of the
embedding's artificial fuel bound: any two runs that do not exhaust fuel
return the same result (same matches, same valid flag, or the same
exception). -/
theorem C9_deterministic (apps : List Applicant) (progs : List ResidencyProgram)
    (f g : Nat) (hf : (stableMatching apps progs f).isFuel = false)
    (hg : (stableMatching apps progs g).isFuel = false) :
    stableMatching apps progs f = stableMatching apps progs g := by
  rcases Nat.le_total f g with hle | hle
  · exact (runGo_mono (icInit apps progs).1 f g hle _ _ hf).symm
  · exact runGo_mono (icInit apps progs).1 g f hle _ _ hg

/-- Witness for C9 at a concrete market and two different fuels. -/
theorem C9_witness :
    stableMatching [.single ⟨0, [0], 0⟩] [⟨0, [0], 1⟩] 30 =
    stableMatching [.single ⟨0, [0], 0⟩] [⟨0, [0], 1⟩] 40 :=
  C9_deterministic [.single ⟨0, [0], 0⟩] [⟨0, [0], 1⟩] 30 40 rfl rfl

/-- A found first index points at a matching element. -/
theorem firstIdx_isSome_iff_mem (l : List Nat) (x : Nat) :
    (firstIdx l x).isSome = true ↔ x ∈ l := by
  induction l with
  | nil => simp [firstIdx]
  | cons y ys ih =>
    by_cases hy : y = x
    · simp [firstIdx, hy]
    · simp only [firstIdx, hy, if_false, List.mem_cons]
      cases h : firstIdx ys x with
      | none =>
        rw [h] at ih
        have hmap : ((Option.none : Option Nat).map fun i => i + 1).isSome = false := rfl
        rw [hmap]
        simp only [Bool.false_eq_true, false_iff]
        have hys : x ∉ ys := by
          intro hm
          have h2 : (Option.none : Option Nat).isSome = true := ih.mpr hm
          simp at h2
        rintro (h1 | h1)
        · exact hy h1.symm
        · exact hys h1
      | some i =>
        rw [h] at ih
        have hmap : ((some i).map fun j => j + 1).isSome = true := rfl
        rw [hmap]
        simp only [true_iff]
        exact Or.inr (ih.mp rfl)

/-- `list.index` is injective on present elements. -/
theorem firstIdx_inj {l : List Nat} {a b : Nat} {r : Nat}
    (ha : firstIdx l a = some r) (hb : firstIdx l b = some r) : a = b := by
  induction l generalizing r with
  | nil => simp [firstIdx] at ha
  | cons y ys ih =>
    simp only [firstIdx] at ha hb
    by_cases hya : y = a
    · by_cases hyb : y = b
      · rw [← hya, ← hyb]
      · rw [if_pos hya] at ha
        rw [if_neg hyb] at hb
        rw [← Option.some.inj ha] at hb
        rcases Option.map_eq_some.mp hb with ⟨j, _, hj⟩
        omega
    · rw [if_neg hya] at ha
      by_cases hyb : y = b
      · rw [if_pos hyb] at hb
        rw [← Option.some.inj hb] at ha
        rcases Option.map_eq_some.mp ha with ⟨j, _, hj⟩
        omega
      · rw [if_neg hyb] at hb
        rcases Option.map_eq_some.mp ha with ⟨ra, hra, hra2⟩
        rcases Option.map_eq_some.mp hb with ⟨rb, hrb, hrb2⟩
        have heq : ra = rb := by omega
        exact ih hra (heq ▸ hrb)

/-- `ranksOf` succeeds on fully listed pools, pairing each member with its
rank. -/
theorem ranksOf_ok (prefs : List Nat) : ∀ (pool : List Nat),
    (∀ sid ∈ pool, sid ∈ prefs) →
    ranksOf prefs pool = .ok (pool.map fun sid => (sid, rankIn prefs sid)) := by
  intro pool
  induction pool with
  | nil => intro h; rfl
  | cons sid rest ih =>
    intro h
    have hmem : sid ∈ prefs := h sid (by simp)
    have hsome : (firstIdx prefs sid).isSome = true :=
      (firstIdx_isSome_iff_mem prefs sid).mpr hmem
    cases hf : firstIdx prefs sid with
    | none => rw [hf] at hsome; simp at hsome
    | some r =>
      simp only [ranksOf, hf]
      rw [ih (fun t ht => h t (by simp [ht]))]
      simp only [excBind_ok, pure, Except.pure, List.map_cons]
      have hr : rankIn prefs sid = r := by simp [rankIn, hf]
      rw [hr]

/-- `ranksOf` raises `ValueError` when any pool member is unlisted. -/
theorem ranksOf_err (prefs : List Nat) : ∀ (pool : List Nat) (sid : Nat),
    sid ∈ pool → firstIdx prefs sid = none →
    ranksOf prefs pool = .error .valueError := by
  intro pool
  induction pool with
  | nil => intro sid h; simp at h
  | cons t rest ih =>
    intro sid h hnone
    rcases List.mem_cons.mp h with h1 | h1
    · subst h1
      simp only [ranksOf, hnone]
    · cases hf : firstIdx prefs t with
      | none => simp only [ranksOf, hf]
      | some r =>
        simp only [ranksOf, hf]
        rw [ih sid h1 hnone]
        rfl

/-- Insertion keeps a permutation. -/
theorem insertByRank_perm (x : Nat × Nat) : ∀ (l : List (Nat × Nat)),
    (insertByRank x l).Perm (x :: l) := by
  intro l
  induction l with
  | nil => simp [insertByRank]
  | cons y ys ih =>
    simp only [insertByRank]
    split
    · exact List.Perm.refl _
    · exact (ih.cons y).trans (List.Perm.swap x y ys)

/-- `sortByRank` permutes its input. -/
theorem sortByRank_perm : ∀ (l : List (Nat × Nat)), (sortByRank l).Perm l := by
  intro l
  induction l with
  | nil => exact List.Perm.refl _
  | cons x xs ih =>
    have h1 : (sortByRank (x :: xs)) = insertByRank x (sortByRank xs) := rfl
    rw [h1]
    exact (insertByRank_perm x (sortByRank xs)).trans (ih.cons x)

/-- Insertion preserves sortedness by rank. -/
theorem insertByRank_sorted (x : Nat × Nat) : ∀ (l : List (Nat × Nat)),
    SortedR l → SortedR (insertByRank x l) := by
  intro l
  induction l with
  | nil => intro h; simp [insertByRank, SortedR]
  | cons y ys ih =>
    intro h
    rcases List.pairwise_cons.mp h with ⟨hy, hys⟩
    simp only [insertByRank]
    split
    · rename_i hlt
      refine List.pairwise_cons.mpr ⟨?_, h⟩
      intro z hz
      rcases List.mem_cons.mp hz with h1 | h1
      · subst h1; omega
      · have := hy z h1; omega
    · rename_i hge
      refine List.pairwise_cons.mpr ⟨?_, ih hys⟩
      intro z hz
      rcases List.mem_cons.mp ((insertByRank_perm x ys).mem_iff.mp hz) with h1 | h1
      · subst h1; omega
      · exact hy z h1

/-- `sortByRank` sorts by rank. -/
theorem sortByRank_sorted : ∀ (l : List (Nat × Nat)), SortedR (sortByRank l) := by
  intro l
  induction l with
  | nil => simp [sortByRank, SortedR]
  | cons x xs ih => exact insertByRank_sorted x (sortByRank xs) ih

/-- Membership in the prefix of a rank-sorted list with distinct ranks:
an element is among the first `k` exactly when fewer than `k` elements
have a strictly smaller rank. -/
theorem mem_take_sorted : ∀ (L : List (Nat × Nat)) (k : Nat) (x : Nat × Nat),
    SortedR L → (L.map Prod.snd).Nodup →
    (x ∈ L.take k ↔ x ∈ L ∧ (L.filter (fun t => t.2 < x.2)).length < k) := by
  intro L
  induction L with
  | nil => intro k x _ _; simp
  | cons y ys ih =>
    intro k x hs hn
    rcases List.pairwise_cons.mp hs with ⟨hy, hys⟩
    rw [List.map_cons] at hn
    have hny : y.2 ∉ ys.map Prod.snd := (List.nodup_cons.mp hn).1
    have hnys : (ys.map Prod.snd).Nodup := (List.nodup_cons.mp hn).2
    cases k with
    | zero => simp
    | succ k =>
      by_cases hxy : x = y
      · subst hxy
        have hfe : ys.filter (fun t => t.2 < x.2) = [] := by
          rw [List.filter_eq_nil_iff]
          intro z hz
          have := hy z hz
          simp only [decide_eq_true_eq]
          omega
        have hfilter : (x :: ys).filter (fun t => t.2 < x.2) = [] := by
          rw [List.filter_cons, if_neg (by simp)]
          exact hfe
        constructor
        · intro _
          refine ⟨List.mem_cons_self _ _, ?_⟩
          rw [hfilter]
          simp
        · intro _
          rw [List.take_succ_cons]
          exact List.mem_cons_self _ _
      · have hxys : x ∈ ys → y.2 < x.2 := by
          intro hmem
          have hle := hy x hmem
          rcases Nat.lt_or_ge y.2 x.2 with h1 | h1
          · exact h1
          · exfalso
            have h2 : x.2 = y.2 := by omega
            exact hny (h2 ▸ List.mem_map_of_mem Prod.snd hmem)
        simp only [List.take_succ_cons, List.mem_cons]
        constructor
        · intro h
          rcases h with h1 | h1
          · exact absurd h1 hxy
          · rcases (ih k x hys hnys).mp h1 with ⟨h2, h3⟩
            refine ⟨Or.inr h2, ?_⟩
            have hlt : y.2 < x.2 := hxys h2
            have hcnt : ((y :: ys).filter (fun t => t.2 < x.2)).length =
                (ys.filter (fun t => t.2 < x.2)).length + 1 := by
              rw [List.filter_cons]
              simp [hlt]
            omega
        · rintro ⟨h1, h2⟩
          rcases h1 with h1 | h1
          · exact absurd h1 hxy
          · refine Or.inr ((ih k x hys hnys).mpr ⟨h1, ?_⟩)
            have hlt : y.2 < x.2 := hxys h1
            have hcnt : ((y :: ys).filter (fun t => t.2 < x.2)).length =
                (ys.filter (fun t => t.2 < x.2)).length + 1 := by
              rw [List.filter_cons]
              simp [hlt]
            omega

/-- `contains` on id lists is membership. -/
theorem containsNat_iff : ∀ (l : List Nat) (x : Nat),
    l.contains x = true ↔ x ∈ l := by
  intro l x
  induction l with
  | nil => simp
  | cons y ys ih =>
    simp only [List.contains_cons, Bool.or_eq_true, beq_iff_eq, List.mem_cons]
    rw [ih]

/-- Filtering a mapped list has the length of filtering the preimages. -/
theorem length_filter_map_eq (f : Nat → Nat × Nat) (p : Nat × Nat → Bool) :
    ∀ (l : List Nat),
    ((l.map f).filter p).length = (l.filter (fun x => p (f x))).length := by
  intro l
  induction l with
  | nil => rfl
  | cons x xs ih =>
    by_cases h : p (f x) = true <;> simp [List.filter_cons, h, ih]

/-- `select` raises `ValueError` whenever the pool holds a student absent
from the program's preference list. -/
theorem select_err (P : ResidencyProgram) (pool : List Nat) (sid : Nat)
    (h : sid ∈ pool) (hnot : sid ∉ P.preferences) :
    P.select pool = .error .valueError := by
  have hnone : firstIdx P.preferences sid = none := by
    cases hf : firstIdx P.preferences sid with
    | none => rfl
    | some i =>
      exact absurd ((firstIdx_isSome_iff_mem _ _).mp (by simp [hf])) hnot
  simp only [ResidencyProgram.select,
    ranksOf_err P.preferences pool sid h hnone, excBind_err]

/-- Characterization of `select` on fully listed pools: it returns exactly
the pool members with at least `capacity` strictly better-ranked pool
members, the complement of the program's top-capacity slice of the pool. -/
theorem select_spec (P : ResidencyProgram) (pool : List Nat)
    (hnd : pool.Nodup) (hall : ∀ sid ∈ pool, sid ∈ P.preferences) :
    P.select pool = .ok (pool.filter (fun sid =>
      P.capacity ≤ countBetter P.preferences pool sid)) := by
  have hrk := ranksOf_ok P.preferences pool hall
  simp only [ResidencyProgram.select, hrk, excBind_ok]
  refine congrArg (fun l => Except.ok l) (List.filter_congr ?_)
  intro sid hsid
  set f : Nat → Nat × Nat := fun t => (t, rankIn P.preferences t) with hf
  set L : List (Nat × Nat) := sortByRank (pool.map f) with hL
  have hLp : L.Perm (pool.map f) := sortByRank_perm _
  have hsorted : SortedR L := sortByRank_sorted _
  have hrinj : ∀ x ∈ pool, ∀ y ∈ pool,
      rankIn P.preferences x = rankIn P.preferences y → x = y := by
    intro x hx y hy hxy
    have hsx := (firstIdx_isSome_iff_mem P.preferences x).mpr (hall x hx)
    have hsy := (firstIdx_isSome_iff_mem P.preferences y).mpr (hall y hy)
    cases hfx : firstIdx P.preferences x with
    | none => rw [hfx] at hsx; simp at hsx
    | some rx =>
      cases hfy : firstIdx P.preferences y with
      | none => rw [hfy] at hsy; simp at hsy
      | some ry =>
        have h1 : rx = ry := by
          have e1 : rankIn P.preferences x = rx := by simp [rankIn, hfx]
          have e2 : rankIn P.preferences y = ry := by simp [rankIn, hfy]
          omega
        exact firstIdx_inj hfx (h1 ▸ hfy)
  have hsnodup : (L.map Prod.snd).Nodup := by
    refine ((hLp.map Prod.snd).nodup_iff).mpr ?_
    have hmm : (pool.map f).map Prod.snd = pool.map (fun t => rankIn P.preferences t) := by
      rw [List.map_map]; rfl
    rw [hmm]
    exact List.Nodup.map_on hrinj hnd
  have hmemL : ∀ r, ((sid, r) ∈ L ↔ (sid, r) ∈ pool.map f) := fun r => hLp.mem_iff
  have hpairmem : ((sid, rankIn P.preferences sid) ∈ pool.map f) :=
    List.mem_map_of_mem f hsid
  have hchosen : sid ∈ (L.take P.capacity).map Prod.fst ↔
      countBetter P.preferences pool sid < P.capacity := by
    constructor
    · intro h
      rcases List.mem_map.mp h with ⟨pr, hpr, hpr1⟩
      have hprL : pr ∈ L := List.mem_of_mem_take hpr
      rcases List.mem_map.mp (hLp.mem_iff.mp hprL) with ⟨t, ht, hft⟩
      have hteq : t = sid := by rw [← hpr1, ← hft]
      subst hteq
      rw [← hft] at hpr
      have := (mem_take_sorted L P.capacity (f t) hsorted hsnodup).mp hpr
      rcases this with ⟨-, hcnt⟩
      have hflen : (L.filter (fun q => q.2 < (f t).2)).length =
          (pool.filter (fun x => rankIn P.preferences x < rankIn P.preferences t)).length := by
        rw [(hLp.filter (fun q => decide (q.2 < (f t).2))).length_eq]
        exact length_filter_map_eq f (fun q => decide (q.2 < (f t).2)) pool
      rw [hflen] at hcnt
      exact hcnt
    · intro h
      have hmem : (sid, rankIn P.preferences sid) ∈ L.take P.capacity := by
        refine (mem_take_sorted L P.capacity _ hsorted hsnodup).mpr ⟨(hmemL _).mpr hpairmem, ?_⟩
        have hflen : (L.filter (fun q => q.2 < rankIn P.preferences sid)).length =
            (pool.filter (fun x => rankIn P.preferences x < rankIn P.preferences sid)).length := by
          rw [(hLp.filter (fun q => decide (q.2 < rankIn P.preferences sid))).length_eq]
          exact length_filter_map_eq f (fun q => decide (q.2 < rankIn P.preferences sid)) pool
        rw [hflen]
        exact h
      exact List.mem_map.mpr ⟨(sid, rankIn P.preferences sid), hmem, rfl⟩
  rcases Nat.lt_or_ge (countBetter P.preferences pool sid) P.capacity with hcase | hcase
  · have hc : ((L.take P.capacity).map Prod.fst).contains sid = true :=
      (containsNat_iff _ _).mpr (hchosen.mpr hcase)
    rw [hc]
    simp only [Bool.not_true]
    have : ¬ P.capacity ≤ countBetter P.preferences pool sid := by omega
    simp [this]
  · have hc : ¬ ((L.take P.capacity).map Prod.fst).contains sid = true := by
      intro hcon
      have := hchosen.mp ((containsNat_iff _ _).mp hcon)
      omega
    have hc2 : ((L.take P.capacity).map Prod.fst).contains sid = false :=
      Bool.not_eq_true _ ▸ (by simpa using hc)
    rw [hc2]
    simp only [Bool.not_false]
    simp [hcase]

/-- Claim C6, amended: on a candidate pool (a set of students) entirely on
the program's preference list, `select` returns exactly the pool minus
the program's top-capacity members of the pool in the program's order
(those with fewer than `capacity` strictly better-ranked pool members);
a pool student absent from the list makes `select` raise `ValueError`
rather than return a rejected set.  (`select` is embedded as a pure
function: neither the pool nor the program is mutated.) -/
theorem C6_amended_select_contract :
    (∀ (P : ResidencyProgram) (pool : List Nat) (sid : Nat), sid ∈ pool →
      sid ∉ P.preferences → P.select pool = .error .valueError) ∧
    (∀ (P : ResidencyProgram) (pool : List Nat), pool.Nodup →
      (∀ sid ∈ pool, sid ∈ P.preferences) →
      P.select pool = .ok (pool.filter (fun sid =>
        P.capacity ≤ countBetter P.preferences pool sid))) :=
  ⟨select_err, select_spec⟩

/-- Witness for the amended C6 at a concrete program and pools. -/
theorem C6_witness :
    ResidencyProgram.select ⟨0, [9, 5, 3], 2⟩ [3, 5, 9] = .ok [3] ∧
    ResidencyProgram.select ⟨0, [9, 5, 3], 2⟩ [3, 7] = .error .valueError := by
  constructor
  · have h := C6_amended_select_contract.2 ⟨0, [9, 5, 3], 2⟩ [3, 5, 9]
      (by decide) (by decide)
    rw [h]
    rfl
  · exact C6_amended_select_contract.1 ⟨0, [9, 5, 3], 2⟩ [3, 7] 7
      (by decide) (by decide)

/-- Membership in `insertSorted`. -/
theorem mem_insertSorted (x y : Nat) : ∀ (l : List Nat),
    (y ∈ insertSorted x l ↔ y = x ∨ y ∈ l) := by
  intro l
  induction l with
  | nil => simp [insertSorted]
  | cons z zs ih =>
    simp only [insertSorted]
    split
    · simp
    · split
      · rename_i h1 h2
        subst h2
        simp only [List.mem_cons]
        constructor
        · intro h; exact Or.inr h
        · rintro (h | h)
          · exact Or.inl h
          · exact h
      · simp only [List.mem_cons, ih]
        tauto

/-- Membership in `unionSorted`. -/
theorem mem_unionSorted (y : Nat) : ∀ (xs ys : List Nat),
    (y ∈ unionSorted xs ys ↔ y ∈ xs ∨ y ∈ ys) := by
  intro xs
  induction xs with
  | nil => intro ys; simp [unionSorted]
  | cons x rest ih =>
    intro ys
    have h1 : unionSorted (x :: rest) ys = unionSorted rest (insertSorted x ys) := rfl
    rw [h1, ih, mem_insertSorted]
    simp only [List.mem_cons]
    tauto

/-- A nonempty union has a member; the empty union has empty parts. -/
theorem unionSorted_eq_nil {xs ys : List Nat}
    (h : unionSorted xs ys = []) : xs = [] ∧ ys = [] := by
  constructor
  · rw [List.eq_nil_iff_forall_not_mem]
    intro y hy
    have := (mem_unionSorted y xs ys).mpr (Or.inl hy)
    rw [h] at this
    simp at this
  · rw [List.eq_nil_iff_forall_not_mem]
    intro y hy
    have := (mem_unionSorted y xs ys).mpr (Or.inr hy)
    rw [h] at this
    simp at this

/-- `insertSorted` preserves strict sortedness. -/
theorem insertSorted_sorted (x : Nat) : ∀ (l : List Nat),
    l.Pairwise (· < ·) → (insertSorted x l).Pairwise (· < ·) := by
  intro l
  induction l with
  | nil => intro h; simp [insertSorted]
  | cons z zs ih =>
    intro h
    rcases List.pairwise_cons.mp h with ⟨hz, hzs⟩
    simp only [insertSorted]
    split
    · rename_i hlt
      refine List.pairwise_cons.mpr ⟨?_, h⟩
      intro w hw
      rcases List.mem_cons.mp hw with h1 | h1
      · omega
      · have := hz w h1; omega
    · split
      · exact h
      · rename_i h1 h2
        refine List.pairwise_cons.mpr ⟨?_, ih hzs⟩
        intro w hw
        rcases (mem_insertSorted x w zs).mp hw with h3 | h3
        · subst h3; omega
        · exact hz w h3

/-- Membership in `dictSet` on a sorted dict: the new binding, or an old
binding with a different key. -/
theorem mem_dictSet (s p : Nat) : ∀ (m : List (Nat × Nat)), sortedKeys m →
    ∀ (kv : Nat × Nat),
    (kv ∈ dictSet s p m ↔ kv = (s, p) ∨ (kv ∈ m ∧ kv.1 ≠ s)) := by
  intro m
  induction m with
  | nil =>
    intro _ kv
    simp [dictSet]
  | cons hd tl ih =>
    intro hs kv
    obtain ⟨k, v⟩ := hd
    rcases List.pairwise_cons.mp hs with ⟨hk, htl⟩
    simp only [dictSet]
    split
    · rename_i hlt
      simp only [List.mem_cons]
      constructor
      · rintro (h | h | h)
        · exact Or.inl h
        · subst h
          exact Or.inr ⟨by simp, by simp; omega⟩
        · refine Or.inr ⟨by simp [h], ?_⟩
          have := hk kv h
          omega
      · rintro (h | ⟨h1, h2⟩)
        · exact Or.inl h
        · rcases h1 with h3 | h3
          · exact Or.inr (Or.inl h3)
          · exact Or.inr (Or.inr h3)
    · split
      · rename_i hlt heq
        subst heq
        simp only [List.mem_cons]
        constructor
        · rintro (h | h)
          · exact Or.inl h
          · refine Or.inr ⟨by simp [h], ?_⟩
            have := hk kv h
            omega
        · rintro (h | ⟨h1, h2⟩)
          · exact Or.inl h
          · rcases h1 with h3 | h3
            · exfalso; rw [h3] at h2; simp at h2
            · exact Or.inr h3
      · rename_i hlt hne
        simp only [List.mem_cons, ih htl kv]
        constructor
        · rintro (h | h | ⟨h1, h2⟩)
          · subst h
            refine Or.inr ⟨Or.inl rfl, by simp; omega⟩
          · exact Or.inl h
          · exact Or.inr ⟨Or.inr h1, h2⟩
        · rintro (h | ⟨h1, h2⟩)
          · exact Or.inr (Or.inl h)
          · rcases h1 with h3 | h3
            · exact Or.inl h3
            · exact Or.inr (Or.inr ⟨h3, h2⟩)

/-- `dictSet` preserves sorted keys. -/
theorem dictSet_sorted (s p : Nat) : ∀ (m : List (Nat × Nat)),
    sortedKeys m → sortedKeys (dictSet s p m) := by
  intro m
  induction m with
  | nil => intro h; simp [dictSet, sortedKeys]
  | cons hd tl ih =>
    intro hs
    obtain ⟨k, v⟩ := hd
    rcases List.pairwise_cons.mp hs with ⟨hk, htl⟩
    simp only [dictSet]
    split
    · rename_i hlt
      refine List.pairwise_cons.mpr ⟨?_, hs⟩
      intro w hw
      rcases List.mem_cons.mp hw with h1 | h1
      · subst h1; simpa using hlt
      · have := hk w h1; simp; omega
    · split
      · rename_i hlt heq
        subst heq
        exact List.pairwise_cons.mpr ⟨by simpa using hk, htl⟩
      · rename_i hlt hne
        refine List.pairwise_cons.mpr ⟨?_, ih htl⟩
        intro w hw
        rcases (mem_dictSet s p tl htl w).mp hw with h1 | ⟨h1, h2⟩
        · subst h1; simp; omega
        · exact hk w h1

/-- Membership in `dictDel`: old bindings with a different key (sorted
dict). -/
theorem mem_dictDel (s : Nat) : ∀ (m : List (Nat × Nat)), sortedKeys m →
    ∀ (kv : Nat × Nat),
    (kv ∈ dictDel s m ↔ kv ∈ m ∧ kv.1 ≠ s) := by
  intro m
  induction m with
  | nil => intro _ kv; simp [dictDel]
  | cons hd tl ih =>
    intro hs kv
    obtain ⟨k, v⟩ := hd
    rcases List.pairwise_cons.mp hs with ⟨hk, htl⟩
    simp only [dictDel]
    split
    · rename_i heq
      subst heq
      constructor
      · intro h
        refine ⟨List.mem_cons_of_mem _ h, ?_⟩
        have := hk kv h
        omega
      · rintro ⟨h1, h2⟩
        rcases List.mem_cons.mp h1 with h3 | h3
        · exfalso; rw [h3] at h2; simp at h2
        · exact h3
    · rename_i hne
      simp only [List.mem_cons, ih htl kv]
      constructor
      · rintro (h | ⟨h1, h2⟩)
        · subst h
          exact ⟨Or.inl rfl, by simpa using fun he => hne he.symm⟩
        · exact ⟨Or.inr h1, h2⟩
      · rintro ⟨h1, h2⟩
        rcases h1 with h3 | h3
        · exact Or.inl h3
        · exact Or.inr ⟨h3, h2⟩

/-- `dictDel` preserves sorted keys. -/
theorem dictDel_sorted (s : Nat) : ∀ (m : List (Nat × Nat)),
    sortedKeys m → sortedKeys (dictDel s m) := by
  intro m
  induction m with
  | nil => intro h; exact h
  | cons hd tl ih =>
    intro hs
    obtain ⟨k, v⟩ := hd
    rcases List.pairwise_cons.mp hs with ⟨hk, htl⟩
    simp only [dictDel]
    split
    · exact htl
    · refine List.pairwise_cons.mpr ⟨?_, ih htl⟩
      intro w hw
      exact hk w ((mem_dictDel s tl htl w).mp hw).1

/-- A key is absent from the dict exactly when no binding carries it. -/
theorem dictGet_none_iff (sid : Nat) : ∀ (m : List (Nat × Nat)),
    (dictGet sid m = none ↔ ∀ v, (sid, v) ∉ m) := by
  intro m
  induction m with
  | nil => simp [dictGet]
  | cons hd tl ih =>
    obtain ⟨k, w⟩ := hd
    simp only [dictGet]
    split
    · rename_i heq
      subst heq
      constructor
      · intro h; simp at h
      · intro h
        exact absurd (List.mem_cons_self (sid, w) tl) (h w)
    · rename_i hne
      rw [ih]
      constructor
      · intro h v hv
        rcases List.mem_cons.mp hv with h1 | h1
        · exact hne (congrArg Prod.fst h1)
        · exact h v h1
      · intro h v hv
        exact h v (List.mem_cons_of_mem _ hv)

/-- Absence of a key survives shrinking the dict. -/
theorem dictGet_none_of_sub {m mB : List (Nat × Nat)}
    (hsub : ∀ kv ∈ mB, kv ∈ m) {sid : Nat} (h : dictGet sid m = none) :
    dictGet sid mB = none := by
  rw [dictGet_none_iff] at h ⊢
  intro v hv
  exact h v (hsub _ hv)

/-- Occupancy membership: the students the dict maps to `pid`. -/
theorem mem_occL (sid pid : Nat) (m : List (Nat × Nat)) :
    (sid ∈ occL m pid ↔ (sid, pid) ∈ m) := by
  constructor
  · intro h
    rcases List.mem_map.mp h with ⟨kv, hkv, hfst⟩
    rcases List.mem_filter.mp hkv with ⟨hm, hsnd⟩
    have h2 : kv.2 = pid := by simpa using hsnd
    have h3 : kv = (sid, pid) := by
      obtain ⟨a, b⟩ := kv
      simp only at hfst h2
      rw [hfst, h2]
    rw [← h3]
    exact hm
  · intro h
    exact List.mem_map.mpr ⟨(sid, pid), List.mem_filter.mpr ⟨h, by simp⟩, rfl⟩

/-- Occupancy lists of a sorted dict are strictly increasing. -/
theorem occL_pairwise (pid : Nat) {m : List (Nat × Nat)} (h : sortedKeys m) :
    (occL m pid).Pairwise (· < ·) := by
  have h1 : (m.filter (fun kv => kv.2 = pid)).Pairwise (fun a b => a.1 < b.1) :=
    List.Pairwise.filter _ h
  exact (List.pairwise_map).mpr h1

/-- A strictly increasing id list has no duplicates. -/
theorem nodup_of_pairwise_lt {l : List Nat} (h : l.Pairwise (· < ·)) :
    l.Nodup :=
  h.imp (fun hlt => Nat.ne_of_lt hlt)

/-- Occupancy lists of a sorted dict have no duplicates. -/
theorem occL_nodup (pid : Nat) {m : List (Nat × Nat)} (h : sortedKeys m) :
    (occL m pid).Nodup :=
  nodup_of_pairwise_lt (occL_pairwise pid h)

/-- A duplicate-free list contained in another is no longer than it. -/
theorem nodupSubsetLen {l1 l2 : List Nat} (hnd : l1.Nodup)
    (hsub : ∀ x ∈ l1, x ∈ l2) : l1.length ≤ l2.length :=
  (List.subperm_of_subset hnd hsub).length_le

/-- The capacity invariant transfers to any sorted sub-dict. -/
theorem minvL_of_sub {progs : List ResidencyProgram} {m mB : List (Nat × Nat)}
    (h : minvL progs m) (hs : sortedKeys mB) (hsub : ∀ kv ∈ mB, kv ∈ m) :
    minvL progs mB := by
  refine ⟨hs, fun pid P hP => ?_⟩
  refine Nat.le_trans (nodupSubsetLen (occL_nodup pid hs) ?_) (h.2 pid P hP)
  intro sid hsid
  exact (mem_occL sid pid m).mpr (hsub _ ((mem_occL sid pid mB).mp hsid))

/-- The index only resolves an id to a program carrying that id. -/
theorem indexGet_ok_id {progs : List ResidencyProgram} {pid : Nat}
    {P : ResidencyProgram} (h : indexGet progs pid = .ok P) : P.id = pid := by
  unfold indexGet at h
  cases hf : progs.reverse.find? (fun p => p.id = pid) with
  | none => rw [hf] at h; cases h
  | some q =>
    rw [hf] at h
    cases h
    have := List.find?_some hf
    simpa using this

/-- `studentOf` always yields a student carrying the requested id. -/
theorem studentOf_id (ctx : Ctx) (sid : Nat) : (studentOf ctx sid).id = sid := by
  unfold studentOf
  cases hf : ctx.students.find? (fun s => s.id = sid) with
  | none => rfl
  | some s =>
    have := List.find?_some hf
    simpa using this

/-- `students_matched_to` is the occupancy list of the raw dict. -/
theorem studentsMatchedTo_eq (m : Matching) (pid : Nat) :
    studentsMatchedTo m pid = occL m.matchesList pid := rfl

/-- A full-length filter accepts every element. -/
theorem len_filter_all (p : Nat → Bool) : ∀ (l : List Nat),
    (l.filter p).length = l.length → ∀ x ∈ l, p x = true := by
  intro l
  induction l with
  | nil => intro _ x hx; cases hx
  | cons y ys ih =>
    intro h x hx
    by_cases hy : p y = true
    · have hf : (y :: ys).filter p = y :: ys.filter p :=
        List.filter_cons_of_pos hy
      rw [hf, List.length_cons, List.length_cons] at h
      rcases List.mem_cons.mp hx with h1 | h1
      · subst h1; exact hy
      · exact ih (by omega) x h1
    · have hf : (y :: ys).filter p = ys.filter p :=
        List.filter_cons_of_neg hy
      rw [hf, List.length_cons] at h
      have := List.length_filter_le p ys
      omega

/-- Whatever `select` keeps (the pool minus its returned rejections) fits
in the program's capacity: every kept student is among the
`heapq.nsmallest` choice, which holds at most `capacity` entries. -/
theorem select_keep_le_cap (P : ResidencyProgram) (pool displ : List Nat)
    (h : P.select pool = .ok displ) (hnd : pool.Nodup) :
    (pool.filter (fun sid => !displ.contains sid)).length ≤ P.capacity := by
  unfold ResidencyProgram.select at h
  cases hr : ranksOf P.preferences pool with
  | error e => rw [hr] at h; simp only [excBind_err] at h; cases h
  | ok ranked =>
    rw [hr] at h
    simp only [excBind_ok] at h
    cases h
    set chosen := ((sortByRank ranked).take P.capacity).map (fun xr => xr.1)
      with hchosen
    set dREJ := pool.filter (fun sid => !chosen.contains sid) with hdREJ
    have hsubset : ∀ x ∈ pool.filter (fun sid => !dREJ.contains sid),
        x ∈ chosen := by
      intro x hx
      rcases List.mem_filter.mp hx with ⟨hx1, hx2⟩
      have hx3 : dREJ.contains x = false := by
        cases hcc : dREJ.contains x with
        | false => rfl
        | true => rw [hcc] at hx2; simp at hx2
      by_cases hc : chosen.contains x = true
      · exact (containsNat_iff _ _).mp hc
      · exfalso
        have hc2 : chosen.contains x = false := by
          cases hcc : chosen.contains x with
          | false => rfl
          | true => exact absurd hcc hc
        have hxd : x ∈ dREJ := by
          rw [hdREJ]
          refine List.mem_filter.mpr ⟨hx1, ?_⟩
          rw [hc2]
          rfl
        rw [← containsNat_iff] at hxd
        rw [hxd] at hx3
        cases hx3
    have hlen : chosen.length ≤ P.capacity := by
      rw [hchosen, List.length_map, List.length_take]
      exact Nat.min_le_left _ _
    exact Nat.le_trans
      (nodupSubsetLen (List.Nodup.filter _ hnd) hsubset) hlen

/-- Cursor writes leave the matching alone. -/
theorem writeCursor_matching (b : Bool) (s v : Nat) (σ : MState) :
    (writeCursor b s v σ).matching = σ.matching := rfl

/-- `reject` only shrinks the dict, and never keeps the rejected key. -/
theorem reject_m (sid : Nat) (σ : MState)
    (hs : sortedKeys σ.matching.matchesList) :
    sortedKeys (reject sid σ).matching.matchesList ∧
    ∀ kv ∈ (reject sid σ).matching.matchesList,
      kv ∈ σ.matching.matchesList ∧ kv.1 ≠ sid := by
  unfold reject
  split
  · rename_i hsome
    rw [writeCursor_matching]
    exact ⟨dictDel_sorted sid _ hs,
      fun kv hkv => (mem_dictDel sid _ hs kv).mp hkv⟩
  · rename_i hnone
    refine ⟨hs, fun kv hkv => ⟨hkv, ?_⟩⟩
    have h0 : dictGet sid σ.matching.matchesList = none := by
      cases hd : dictGet sid σ.matching.matchesList with
      | none => rfl
      | some v => rw [hd] at hnone; simp at hnone
    intro he
    have h1 := (dictGet_none_iff sid _).mp h0 kv.2
    rw [← he] at h1
    exact h1 (by simpa using hkv)

/-- After `reject sid`, the key `sid` is gone (or was already absent). -/
theorem reject_absent (sid : Nat) (σ : MState)
    (hs : sortedKeys σ.matching.matchesList) :
    dictGet sid (reject sid σ).matching.matchesList = none := by
  rw [dictGet_none_iff]
  intro v hv
  exact ((reject_m sid σ hs).2 _ hv).2 rfl

/-- The displaced-singles loop only shrinks the dict; on success every
processed student's key is gone. -/
theorem rejectSingles_m : ∀ (l : List Nat) (σ : MState),
    sortedKeys σ.matching.matchesList →
    (sortedKeys (rejectSingles l σ).state.matching.matchesList ∧
      ∀ kv ∈ (rejectSingles l σ).state.matching.matchesList,
        kv ∈ σ.matching.matchesList) ∧
    ∀ σf, rejectSingles l σ = .ok σf →
      ∀ sid ∈ l, dictGet sid σf.matching.matchesList = none := by
  intro l
  induction l with
  | nil =>
    intro σ hs
    exact ⟨⟨hs, fun kv h => h⟩, fun σf hf sid hsid => absurd hsid (by simp)⟩
  | cons t rest ih =>
    intro σ hs
    simp only [rejectSingles]
    cases hd : dictGet t σ.matching.matchesList with
    | none =>
      refine ⟨⟨hs, fun kv h => h⟩, ?_⟩
      intro σf hf
      cases hf
    | some v =>
      have hr := reject_m t σ hs
      have hih := ih (reject t σ) hr.1
      refine ⟨⟨hih.1.1, fun kv h => (hr.2 _ (hih.1.2 _ h)).1⟩, ?_⟩
      intro σf hf sid hsid
      rcases List.mem_cons.mp hsid with h1 | h1
      · subst h1
        have hstate : (rejectSingles rest (reject sid σ)).state = σf :=
          stateRes_ok hf
        have hsub : ∀ kv ∈ σf.matching.matchesList,
            kv ∈ (reject sid σ).matching.matchesList := by
          rw [← hstate]
          exact hih.1.2
        exact dictGet_none_of_sub hsub (reject_absent sid σ hs)
      · exact hih.2 σf hf sid h1

/-- The displaced-singles loop only raises `KeyError` (the eager logging
lookup). -/
theorem rejectSingles_err_kind : ∀ (l : List Nat) (σ : MState) (e : PyErr)
    (σf : MState), rejectSingles l σ = .err e σf → e = .keyError := by
  intro l
  induction l with
  | nil => intro σ e σf h; cases h
  | cons t rest ih =>
    intro σ e σf h
    simp only [rejectSingles] at h
    cases hd : dictGet t σ.matching.matchesList with
    | none => rw [hd] at h; cases h; rfl
    | some v => rw [hd] at h; exact ih _ _ _ h

/-- `Couple.__post_init__` raises only its `AssertionError`. -/
theorem mkCouple_err {a b : Student} {e : PyErr}
    (h : mkCouple a b = .error e) : e = .assertionError := by
  unfold mkCouple at h
  dsimp only at h
  by_cases hba : b.id < a.id
  · rw [if_pos hba] at h
    split at h
    · cases h
    · cases h; rfl
  · rw [if_neg hba] at h
    split at h
    · cases h
    · cases h; rfl

/-- The members of a constructed couple are the two students, sorted by
id. -/
theorem mkCouple_memberIds {a b : Student} {c : Applicant}
    (h : mkCouple a b = .ok c) :
    c.memberIds = [a.id, b.id] ∨ c.memberIds = [b.id, a.id] := by
  unfold mkCouple at h
  dsimp only at h
  by_cases hba : b.id < a.id
  · rw [if_pos hba] at h
    split at h
    · cases h
      exact Or.inr rfl
    · cases h
  · rw [if_neg hba] at h
    split at h
    · cases h
      exact Or.inl rfl
    · cases h

/-- Applicants equal under Python `==` have the same member ids. -/
theorem aeq_memberIds {x y : Applicant} (h : aeq x y = true) :
    x.memberIds = y.memberIds := by
  cases x with
  | single s =>
    cases y with
    | single t =>
      have h2 : (s.id, s.id, false) = (t.id, t.id, false) := by
        simpa [aeq, Applicant.key] using h
      have h3 : s.id = t.id := congrArg (fun z => z.1) h2
      simp [Applicant.memberIds, h3]
    | couple a b =>
      simp [aeq, Applicant.key] at h
  | couple a b =>
    cases y with
    | single t =>
      simp [aeq, Applicant.key] at h
    | couple a2 b2 =>
      have h2 : ((a.id, b.id, true) : Nat × Nat × Bool) = (a2.id, b2.id, true) := by
        simpa [aeq, Applicant.key] using h
      have h3 : a.id = a2.id := congrArg (fun z => z.1) h2
      have h4 : b.id = b2.id := congrArg (fun z => z.2.1) h2
      simp [Applicant.memberIds, h3, h4]

/-- The displaced-couples loop raises only `KeyError` or the couple
reconstruction `AssertionError`. -/
theorem displaceCouples_err_kind (ctx : Ctx) : ∀ (l : List Nat)
    (dcs : List Applicant) (σ : MState) (e : PyErr) (σf : MState),
    displaceCouples ctx l dcs σ = .err e σf →
    e = .keyError ∨ e = .assertionError := by
  intro l
  induction l with
  | nil => intro dcs σ e σf h; cases h
  | cons t rest ih =>
    intro dcs σ e σf h
    cases hp : partnerGet ctx t with
    | none =>
      simp only [displaceCouples, hp] at h
      cases h; exact Or.inl rfl
    | some w =>
      cases hc : mkCouple (studentOf ctx t) w with
      | error e2 =>
        simp only [displaceCouples, hp, hc] at h
        cases h
        exact Or.inr (mkCouple_err hc)
      | ok c =>
        cases hdup : dcs.any fun x => aeq x c with
        | true =>
          simp only [displaceCouples, hp, hc, hdup, if_true] at h
          exact ih _ _ _ _ h
        | false =>
          cases hd1 : dictGet t σ.matching.matchesList with
          | none =>
            simp only [displaceCouples, hp, hc, hdup, Bool.false_eq_true,
              if_false, hd1] at h
            cases h; exact Or.inl rfl
          | some v1 =>
            cases hd2 : dictGet w.id σ.matching.matchesList with
            | none =>
              simp only [displaceCouples, hp, hc, hdup, Bool.false_eq_true,
                if_false, hd1, hd2] at h
              cases h; exact Or.inl rfl
            | some v2 =>
              simp only [displaceCouples, hp, hc, hdup, Bool.false_eq_true,
                if_false, hd1, hd2] at h
              exact ih _ _ _ _ h

/-- The displaced-couples loop only shrinks the dict; on success every
processed member's key is gone (a deduplicated member was already
withdrawn by its partner's earlier processing). -/
theorem displaceCouples_m (ctx : Ctx) : ∀ (l : List Nat) (dcs : List Applicant)
    (σ : MState), sortedKeys σ.matching.matchesList →
    (∀ c2 ∈ dcs, ∀ sid ∈ c2.memberIds,
      dictGet sid σ.matching.matchesList = none) →
    (sortedKeys (displaceCouples ctx l dcs σ).state.matching.matchesList ∧
      ∀ kv ∈ (displaceCouples ctx l dcs σ).state.matching.matchesList,
        kv ∈ σ.matching.matchesList) ∧
    ∀ dcsf σf, displaceCouples ctx l dcs σ = .ok dcsf σf →
      ∀ sid ∈ l, dictGet sid σf.matching.matchesList = none := by
  intro l
  induction l with
  | nil =>
    intro dcs σ hs hdcs
    exact ⟨⟨hs, fun kv h => h⟩, fun dcsf σf hf sid hsid => absurd hsid (by simp)⟩
  | cons t rest ih =>
    intro dcs σ hs hdcs
    cases hp : partnerGet ctx t with
    | none =>
      simp only [displaceCouples, hp]
      exact ⟨⟨hs, fun kv h => h⟩, fun dcsf σf hf => by cases hf⟩
    | some w =>
      cases hc : mkCouple (studentOf ctx t) w with
      | error e2 =>
        simp only [displaceCouples, hp, hc]
        exact ⟨⟨hs, fun kv h => h⟩, fun dcsf σf hf => by cases hf⟩
      | ok c =>
        cases hdup : dcs.any fun x => aeq x c with
        | true =>
          simp only [displaceCouples, hp, hc, hdup, if_true]
          have hih := ih dcs σ hs hdcs
          refine ⟨hih.1, ?_⟩
          intro dcsf σf hf sid hsid
          rcases List.mem_cons.mp hsid with h1 | h1
          · subst h1
            rcases List.any_eq_true.mp hdup with ⟨c2, hc2mem, hc2aeq⟩
            have hmm : c2.memberIds = c.memberIds := aeq_memberIds hc2aeq
            have htmem : sid ∈ c.memberIds := by
              rcases mkCouple_memberIds hc with he | he <;>
                rw [he] <;> simp [studentOf_id]
            have habs : dictGet sid σ.matching.matchesList = none := by
              apply hdcs c2 hc2mem
              rw [hmm]
              exact htmem
            have hsub : ∀ kv ∈ σf.matching.matchesList,
                kv ∈ σ.matching.matchesList := by
              have hstate : (displaceCouples ctx rest dcs σ).state = σf :=
                cstate_ok hf
              rw [← hstate]
              exact hih.1.2
            exact dictGet_none_of_sub hsub habs
          · exact hih.2 dcsf σf hf sid h1
        | false =>
          cases hd1 : dictGet t σ.matching.matchesList with
          | none =>
            simp only [displaceCouples, hp, hc, hdup, Bool.false_eq_true,
              if_false, hd1]
            exact ⟨⟨hs, fun kv h => h⟩, fun dcsf σf hf => by cases hf⟩
          | some v1 =>
            cases hd2 : dictGet w.id σ.matching.matchesList with
            | none =>
              simp only [displaceCouples, hp, hc, hdup, Bool.false_eq_true,
                if_false, hd1, hd2]
              exact ⟨⟨hs, fun kv h => h⟩, fun dcsf σf hf => by cases hf⟩
            | some v2 =>
              simp only [displaceCouples, hp, hc, hdup, Bool.false_eq_true,
                if_false, hd1, hd2]
              have hs0 : sortedKeys (progAdd v2 σ).matching.matchesList := hs
              have hr1 := reject_m t (progAdd v2 σ) hs0
              have hr2 := reject_m w.id (reject t (progAdd v2 σ)) hr1.1
              have hsub2 : ∀ kv ∈
                  (reject w.id (reject t (progAdd v2 σ))).matching.matchesList,
                  kv ∈ σ.matching.matchesList := by
                intro kv h
                exact (hr1.2 _ (hr2.2 _ h).1).1
              have htabs : dictGet t
                  (reject w.id (reject t (progAdd v2 σ))).matching.matchesList
                  = none := by
                refine dictGet_none_of_sub (fun kv h => (hr2.2 _ h).1) ?_
                exact reject_absent t (progAdd v2 σ) hs0
              have hwabs : dictGet w.id
                  (reject w.id (reject t (progAdd v2 σ))).matching.matchesList
                  = none := reject_absent w.id _ hr1.1
              have hinv2 : ∀ c2 ∈ insertApplicant c dcs, ∀ sid ∈ c2.memberIds,
                  dictGet sid
                    (reject w.id (reject t (progAdd v2 σ))).matching.matchesList
                    = none := by
                intro c2 hc2 sid hsid
                rcases mem_of_mem_insertApplicant hc2 with h1 | h1
                · subst h1
                  have h2 : sid = t ∨ sid = w.id := by
                    rcases mkCouple_memberIds hc with he | he <;>
                      rw [he] at hsid <;> simp [studentOf_id] at hsid <;>
                      tauto
                  rcases h2 with h3 | h3
                  · subst h3; exact htabs
                  · subst h3; exact hwabs
                · exact dictGet_none_of_sub hsub2 (hdcs c2 h1 sid hsid)
              have hih := ih (insertApplicant c dcs)
                (reject w.id (reject t (progAdd v2 σ))) hr2.1 hinv2
              refine ⟨⟨hih.1.1, fun kv h => hsub2 _ (hih.1.2 _ h)⟩, ?_⟩
              intro dcsf σf hf sid hsid
              rcases List.mem_cons.mp hsid with h1 | h1
              · rw [h1]
                have hstate : (displaceCouples ctx rest (insertApplicant c dcs)
                    (reject w.id (reject t (progAdd v2 σ)))).state = σf :=
                  cstate_ok hf
                have hsubf : ∀ kv ∈ σf.matching.matchesList, kv ∈
                    (reject w.id (reject t (progAdd v2 σ))).matching.matchesList
                  := by
                  rw [← hstate]
                  exact hih.1.2
                exact dictGet_none_of_sub hsubf htabs
              · exact hih.2 dcsf σf hf sid h1

/-- Reduction of `Except` pure. -/
theorem excPure_eq {α : Type} (a : α) :
    (pure a : Except PyErr α) = Except.ok a := rfl

/-- The dict writes of one accepted proposal, by applicant shape. -/
theorem acceptMatches_m (applicant : Applicant) (program : ResidencyProgram)
    (partnerProgram : Option ResidencyProgram) (σ : MState) :
    (acceptMatches applicant program partnerProgram σ).matching.matchesList =
      match applicant, partnerProgram with
      | .single s, _ => dictSet s.id program.id σ.matching.matchesList
      | .couple a _, none => dictSet a.id program.id σ.matching.matchesList
      | .couple a b, some pp =>
        dictSet b.id pp.id
          (dictSet a.id program.id σ.matching.matchesList) := by
  cases applicant <;> cases partnerProgram <;> rfl

/-- Accepting keeps the dict sorted. -/
theorem acceptMatches_sorted (applicant : Applicant)
    (program : ResidencyProgram) (partnerProgram : Option ResidencyProgram)
    (σ : MState) (hs : sortedKeys σ.matching.matchesList) :
    sortedKeys
      (acceptMatches applicant program partnerProgram σ).matching.matchesList
    := by
  rw [acceptMatches_m]
  cases applicant with
  | single s => cases partnerProgram <;> exact dictSet_sorted _ _ _ hs
  | couple a b =>
    cases partnerProgram with
    | none => exact dictSet_sorted _ _ _ hs
    | some pp => exact dictSet_sorted _ _ _ (dictSet_sorted _ _ _ hs)

/-- A binding present after accepting is an old binding, the proposer's
write, or the partner's write. -/
theorem mem_acceptMatches {applicant : Applicant} {program : ResidencyProgram}
    {partnerProgram : Option ResidencyProgram} {σ : MState}
    (hs : sortedKeys σ.matching.matchesList) {sid pid : Nat}
    (h : (sid, pid) ∈
      (acceptMatches applicant program partnerProgram σ).matching.matchesList) :
    (sid, pid) ∈ σ.matching.matchesList ∨
    (sid = applicant.proposalPair.1.id ∧ pid = program.id) ∨
    (∃ pa pp, applicant.proposalPair.2 = some pa ∧ partnerProgram = some pp ∧
      sid = pa.id ∧ pid = pp.id) := by
  rw [acceptMatches_m] at h
  cases applicant with
  | single s =>
    cases partnerProgram with
    | none =>
      rcases (mem_dictSet _ _ _ hs _).mp h with h1 | ⟨h1, _⟩
      · exact Or.inr (Or.inl ⟨congrArg Prod.fst h1, congrArg Prod.snd h1⟩)
      · exact Or.inl h1
    | some pp =>
      rcases (mem_dictSet _ _ _ hs _).mp h with h1 | ⟨h1, _⟩
      · exact Or.inr (Or.inl ⟨congrArg Prod.fst h1, congrArg Prod.snd h1⟩)
      · exact Or.inl h1
  | couple a b =>
    cases partnerProgram with
    | none =>
      rcases (mem_dictSet _ _ _ hs _).mp h with h1 | ⟨h1, _⟩
      · exact Or.inr (Or.inl ⟨congrArg Prod.fst h1, congrArg Prod.snd h1⟩)
      · exact Or.inl h1
    | some pp =>
      rcases (mem_dictSet _ _ _ (dictSet_sorted _ _ _ hs) _).mp h
        with h1 | ⟨h1, _⟩
      · exact Or.inr (Or.inr ⟨b, pp, rfl, rfl,
          congrArg Prod.fst h1, congrArg Prod.snd h1⟩)
      · rcases (mem_dictSet _ _ _ hs _).mp h1 with h2 | ⟨h2, _⟩
        · exact Or.inr (Or.inl ⟨congrArg Prod.fst h2, congrArg Prod.snd h2⟩)
        · exact Or.inl h2

/-- The proposer is always in its proposal pool. -/
theorem mem_proposePool_self (proposer : Student) (partner : Option Student)
    (program : ResidencyProgram) (pprog : Option ResidencyProgram)
    (σ : MState) :
    proposer.id ∈ proposePool proposer partner program pprog σ := by
  simp only [proposePool]
  have h0 : proposer.id ∈ insertSorted proposer.id
      (studentsMatchedTo σ.matching program.id) :=
    (mem_insertSorted _ _ _).mpr (Or.inl rfl)
  cases partner with
  | none => exact h0
  | some pa =>
    cases pprog with
    | none => exact h0
    | some pp =>
      dsimp only
      by_cases hid : program.id = pp.id
      · rw [if_pos hid]
        exact (mem_insertSorted _ _ _).mpr (Or.inr h0)
      · rw [if_neg hid]
        exact h0

/-- The program's current occupants are in the proposal pool. -/
theorem mem_proposePool_occ (proposer : Student) (partner : Option Student)
    (program : ResidencyProgram) (pprog : Option ResidencyProgram)
    (σ : MState) {sid : Nat}
    (h : sid ∈ occL σ.matching.matchesList program.id) :
    sid ∈ proposePool proposer partner program pprog σ := by
  simp only [proposePool]
  have h0 : sid ∈ insertSorted proposer.id
      (studentsMatchedTo σ.matching program.id) :=
    (mem_insertSorted _ _ _).mpr (Or.inr h)
  cases partner with
  | none => exact h0
  | some pa =>
    cases pprog with
    | none => exact h0
    | some pp =>
      dsimp only
      by_cases hid : program.id = pp.id
      · rw [if_pos hid]
        exact (mem_insertSorted _ _ _).mpr (Or.inr h0)
      · rw [if_neg hid]
        exact h0

/-- When both coordinates name the same program the partner joins the
pool. -/
theorem mem_proposePool_partner (proposer pa : Student)
    (program pp : ResidencyProgram) (σ : MState)
    (hid : program.id = pp.id) :
    pa.id ∈ proposePool proposer (some pa) program (some pp) σ := by
  simp only [proposePool]
  rw [if_pos hid]
  exact (mem_insertSorted _ _ _).mpr (Or.inl rfl)

/-- Proposal pools hold no duplicate ids. -/
theorem proposePool_nodup (proposer : Student) (partner : Option Student)
    (program : ResidencyProgram) (pprog : Option ResidencyProgram)
    (σ : MState) (hs : sortedKeys σ.matching.matchesList) :
    (proposePool proposer partner program pprog σ).Nodup := by
  simp only [proposePool]
  have h0 : (insertSorted proposer.id
      (studentsMatchedTo σ.matching program.id)).Pairwise (· < ·) :=
    insertSorted_sorted _ _ (occL_pairwise program.id hs)
  cases partner with
  | none => exact nodup_of_pairwise_lt h0
  | some pa =>
    cases pprog with
    | none => exact nodup_of_pairwise_lt h0
    | some pp =>
      dsimp only
      by_cases hid : program.id = pp.id
      · rw [if_pos hid]
        exact nodup_of_pairwise_lt (insertSorted_sorted _ _ h0)
      · rw [if_neg hid]
        exact nodup_of_pairwise_lt h0

/-- Decomposition of a successful `computeDispl`: the proposing program's
own rejection set, and (for a couple across two programs) the partner
program's, are both contained in the returned union. -/
theorem computeDispl_ok_parts {proposer : Student} {partner : Option Student}
    {program : ResidencyProgram} {pprog : Option ResidencyProgram}
    {σ : MState} {displ : List Nat}
    (h : computeDispl proposer partner program pprog σ = .ok displ) :
    (∃ displ1, program.select (proposePool proposer partner program pprog σ) =
        .ok displ1 ∧ ∀ x ∈ displ1, x ∈ displ) ∧
    (∀ pa pp, partner = some pa → pprog = some pp → program.id ≠ pp.id →
      ∃ displ2, pp.select (insertSorted pa.id
          (studentsMatchedTo σ.matching pp.id)) = .ok displ2 ∧
        ∀ x ∈ displ2, x ∈ displ) := by
  unfold computeDispl at h
  cases h1 : program.select (proposePool proposer partner program pprog σ) with
  | error e => rw [h1] at h; simp only [excBind_err] at h; cases h
  | ok displ1 =>
    rw [h1] at h
    simp only [excBind_ok] at h
    cases partner with
    | none =>
      simp only [excBind_ok, excPure_eq] at h
      cases h
      exact ⟨⟨displ1, rfl, fun x hx =>
          (mem_unionSorted x [] displ1).mpr (Or.inr hx)⟩,
        fun pa pp hpa => by cases hpa⟩
    | some pa =>
      cases pprog with
      | none =>
        simp only [excBind_ok, excPure_eq] at h
        cases h
        exact ⟨⟨displ1, rfl, fun x hx =>
            (mem_unionSorted x [] displ1).mpr (Or.inr hx)⟩,
          fun pa2 pp hpa hpp => by cases hpp⟩
      | some pp =>
        dsimp only at h
        by_cases hne : program.id ≠ pp.id
        · rw [if_pos hne] at h
          cases h2 : pp.select (insertSorted pa.id
              (studentsMatchedTo σ.matching pp.id)) with
          | error e => rw [h2] at h; simp only [excBind_err] at h; cases h
          | ok displ2 =>
            rw [h2] at h
            simp only [excBind_ok, excPure_eq] at h
            cases h
            refine ⟨⟨displ1, rfl, fun x hx =>
                (mem_unionSorted x displ2 displ1).mpr (Or.inr hx)⟩, ?_⟩
            intro pa2 pp2 hpa hpp hne2
            cases hpa
            cases hpp
            exact ⟨displ2, h2, fun x hx =>
              (mem_unionSorted x displ2 displ1).mpr (Or.inl hx)⟩
        · rw [if_neg hne] at h
          simp only [excBind_ok, excPure_eq] at h
          cases h
          refine ⟨⟨displ1, rfl, fun x hx =>
              (mem_unionSorted x [] displ1).mpr (Or.inr hx)⟩, ?_⟩
          intro pa2 pp2 hpa hpp hne2
          cases hpp
          exact absurd (of_not_not hne) hne2

/-- Capacity after an accepted proposal: any sorted sub-dict of the
post-accept dict from which every displaced student's key is gone
satisfies the capacity invariant.  (With an empty displaced set this is
the post-accept dict itself; after the rejection loops it is the final
dict of the bump handling.) -/
theorem accept_bound (progs : List ResidencyProgram) (applicant : Applicant)
    (program : ResidencyProgram) (partnerProgram : Option ResidencyProgram)
    (σ : MState) (displ : List Nat)
    (hinv : minv progs σ)
    (hP : indexGet progs program.id = .ok program)
    (hPP : ∀ pp, partnerProgram = some pp → indexGet progs pp.id = .ok pp)
    (hdispl : computeDispl applicant.proposalPair.1 applicant.proposalPair.2
      program partnerProgram σ = .ok displ)
    (mB : List (Nat × Nat)) (hsB : sortedKeys mB)
    (hsub : ∀ kv ∈ mB, kv ∈
      (acceptMatches applicant program partnerProgram σ).matching.matchesList)
    (habs : ∀ sid ∈ displ, dictGet sid mB = none) :
    minvL progs mB := by
  obtain ⟨hs, hcap⟩ := hinv
  refine ⟨hsB, fun pid P hPid => ?_⟩
  obtain ⟨⟨displ1, hsel1, hd1⟩, hpart2⟩ := computeDispl_ok_parts hdispl
  have hnodupB := occL_nodup pid hsB
  have hmemB : ∀ sid ∈ occL mB pid, (sid, pid) ∈
      (acceptMatches applicant program partnerProgram σ).matching.matchesList :=
    fun sid hsid => hsub _ ((mem_occL sid pid mB).mp hsid)
  have hnotdispl : ∀ sid ∈ occL mB pid, sid ∉ displ := by
    intro sid hsid hmem
    have h0 := habs sid hmem
    have h1 := (dictGet_none_iff sid mB).mp h0 pid
    exact h1 ((mem_occL sid pid mB).mp hsid)
  by_cases hpid1 : pid = program.id
  · subst hpid1
    have hPeq : P = program := by
      rw [hPid] at hP
      exact Except.ok.inj hP
    rw [hPeq]
    have hkept := select_keep_le_cap program _ displ1 hsel1
      (proposePool_nodup _ _ _ _ _ hs)
    refine Nat.le_trans (nodupSubsetLen hnodupB ?_) hkept
    intro sid hsid
    have hcontains : displ1.contains sid = false := by
      cases hcc : displ1.contains sid with
      | false => rfl
      | true =>
        exact absurd (hd1 sid ((containsNat_iff _ _).mp hcc))
          (hnotdispl sid hsid)
    refine List.mem_filter.mpr ⟨?_, by
      show (!displ1.contains sid) = true
      rw [hcontains]
      rfl⟩
    rcases mem_acceptMatches hs (hmemB sid hsid) with h1 | h1 | h1
    · exact mem_proposePool_occ _ _ _ _ _ ((mem_occL _ _ _).mpr h1)
    · rw [h1.1]
      exact mem_proposePool_self _ _ _ _ _
    · obtain ⟨pa, pp, hpa, hpp, hsid2, hpid2⟩ := h1
      rw [hsid2, hpa, hpp]
      exact mem_proposePool_partner _ _ _ _ _ hpid2
  · cases partnerProgram with
    | none =>
      refine Nat.le_trans (nodupSubsetLen hnodupB ?_) (hcap pid P hPid)
      intro sid hsid
      rcases mem_acceptMatches hs (hmemB sid hsid) with h1 | h1 | h1
      · exact (mem_occL _ _ _).mpr h1
      · exact absurd h1.2 hpid1
      · obtain ⟨pa, pp, hpa, hpp, _, _⟩ := h1
        cases hpp
    | some pp =>
      by_cases hpid2 : pid = pp.id
      · subst hpid2
        have hPeq : P = pp := by
          have h2 := hPP pp rfl
          rw [hPid] at h2
          exact Except.ok.inj h2
        cases applicant with
        | single s =>
          refine Nat.le_trans (nodupSubsetLen hnodupB ?_) (hcap _ _ hPid)
          intro sid hsid
          rcases mem_acceptMatches hs (hmemB sid hsid) with h1 | h1 | h1
          · exact (mem_occL _ _ _).mpr h1
          · exact absurd h1.2 hpid1
          · obtain ⟨pa, pp2, hpa, _, _, _⟩ := h1
            cases hpa
        | couple a b =>
          rw [hPeq]
          obtain ⟨displ2, hsel2, hd2⟩ := hpart2 b pp rfl rfl
            (fun he => hpid1 he.symm)
          have hkept2 := select_keep_le_cap pp _ displ2 hsel2
            (nodup_of_pairwise_lt
              (insertSorted_sorted _ _ (occL_pairwise pp.id hs)))
          refine Nat.le_trans (nodupSubsetLen hnodupB ?_) hkept2
          intro sid hsid
          have hcontains : displ2.contains sid = false := by
            cases hcc : displ2.contains sid with
            | false => rfl
            | true =>
              exact absurd (hd2 sid ((containsNat_iff _ _).mp hcc))
                (hnotdispl sid hsid)
          refine List.mem_filter.mpr ⟨?_, by
            show (!displ2.contains sid) = true
            rw [hcontains]
            rfl⟩
          rcases mem_acceptMatches hs (hmemB sid hsid) with h1 | h1 | h1
          · exact (mem_insertSorted _ _ _).mpr
              (Or.inr ((mem_occL _ _ _).mpr h1))
          · exact absurd h1.2 hpid1
          · obtain ⟨pa, pp2, hpa, hpp2, hsid2, _⟩ := h1
            cases hpa
            rw [hsid2]
            exact (mem_insertSorted _ _ _).mpr (Or.inl rfl)
      · refine Nat.le_trans (nodupSubsetLen hnodupB ?_) (hcap pid P hPid)
        intro sid hsid
        rcases mem_acceptMatches hs (hmemB sid hsid) with h1 | h1 | h1
        · exact (mem_occL _ _ _).mpr h1
        · exact absurd h1.2 hpid1
        · obtain ⟨pa, pp2, hpa, hpp2, hsid2, hpid3⟩ := h1
          cases hpp2
          exact absurd hpid3 hpid2

/-- The capacity invariant survives one bump handling, at every outcome
the run can keep (the continuation state, or a caught cycle state). -/
theorem minv_handleDispl (ctx : Ctx) (applicant : Applicant)
    (program : ResidencyProgram) (partnerProgram : Option ResidencyProgram)
    (displ : List Nat) (σ : MState)
    (hinv : minv ctx.programs σ)
    (hP : indexGet ctx.programs program.id = .ok program)
    (hPP : ∀ pp, partnerProgram = some pp →
      indexGet ctx.programs pp.id = .ok pp)
    (hdispl : computeDispl applicant.proposalPair.1 applicant.proposalPair.2
      program partnerProgram σ = .ok displ) :
    BumpInv ctx.programs
      (handleDispl ctx applicant program partnerProgram displ σ) := by
  have hs : sortedKeys σ.matching.matchesList := hinv.1
  have hs3 : sortedKeys
      (acceptMatches applicant program partnerProgram σ).matching.matchesList :=
    acceptMatches_sorted _ _ _ _ hs
  simp only [handleDispl]
  split
  · cases hpp2 : applicant.proposalPair.2 with
    | none => exact hinv
    | some pa => exact hinv
  · have hrs := rejectSingles_m
      (displ.filter (fun sid => !inPartnerMap ctx sid))
      (acceptMatches applicant program partnerProgram σ) hs3
    split
    · rename_i e σ4 heq
      have he := rejectSingles_err_kind _ _ _ _ heq
      subst he
      exact trivial
    · rename_i σ4 heq
      have hst := stateRes_ok heq
      have hs4 : sortedKeys σ4.matching.matchesList := by
        rw [← hst]
        exact hrs.1.1
      have hsub43 : ∀ kv ∈ σ4.matching.matchesList, kv ∈
          (acceptMatches applicant program partnerProgram σ).matching.matchesList
        := by
        rw [← hst]
        exact hrs.1.2
      have hsingles : ∀ sid ∈ displ.filter (fun sid => !inPartnerMap ctx sid),
          dictGet sid σ4.matching.matchesList = none := hrs.2 σ4 heq
      split
      · rename_i hlen
        split
        · exact trivial
        · rename_i d drest hnotrej
          have hall : ∀ sid ∈ d :: drest,
              dictGet sid σ4.matching.matchesList = none := by
            intro sid hsid
            refine hsingles sid (List.mem_filter.mpr ⟨hsid, ?_⟩)
            exact len_filter_all _ (d :: drest) hlen sid hsid
          exact accept_bound ctx.programs applicant program partnerProgram σ
            (d :: drest) hinv hP hPP hdispl σ4.matching.matchesList hs4
            hsub43 hall
      · rename_i hlen
        have hdc := displaceCouples_m ctx
          (displ.filter (fun sid => inPartnerMap ctx sid)) [] σ4 hs4
          (fun c2 hc2 => absurd hc2 (by simp))
        split
        · rename_i e2 σ5 heq2
          rcases displaceCouples_err_kind ctx _ _ _ _ _ heq2 with h | h <;>
            subst h <;> exact trivial
        · rename_i dcs σ5 heq2
          have hst2 := cstate_ok heq2
          have hs5 : sortedKeys σ5.matching.matchesList := by
            rw [← hst2]
            exact hdc.1.1
          have hsub54 : ∀ kv ∈ σ5.matching.matchesList,
              kv ∈ σ4.matching.matchesList := by
            rw [← hst2]
            exact hdc.1.2
          have hcouples : ∀ sid ∈
              displ.filter (fun sid => inPartnerMap ctx sid),
              dictGet sid σ5.matching.matchesList = none := hdc.2 dcs σ5 heq2
          split
          · exact trivial
          · rename_i c crest
            have hall : ∀ sid ∈ displ, dictGet sid σ5.matching.matchesList
                = none := by
              intro sid hsid
              cases hpm : inPartnerMap ctx sid with
              | true =>
                exact hcouples sid (List.mem_filter.mpr ⟨hsid, hpm⟩)
              | false =>
                refine dictGet_none_of_sub hsub54 ?_
                refine hsingles sid (List.mem_filter.mpr ⟨hsid, ?_⟩)
                show (!inPartnerMap ctx sid) = true
                rw [hpm]
                rfl
            exact accept_bound ctx.programs applicant program partnerProgram σ
              displ hinv hP hPP hdispl σ5.matching.matchesList hs5
              (fun kv h => hsub43 _ (hsub54 _ h)) hall

/-- A resolved proposal target self-indexes: the index maps the returned
program's id back to the program itself, likewise for the partner
program. -/
theorem nextToApply_spec {ctx : Ctx} {applicant : Applicant} {σ : MState}
    {program : ResidencyProgram} {partnerProgram : Option ResidencyProgram}
    (h : nextToApply ctx applicant σ = .ok (program, partnerProgram)) :
    indexGet ctx.programs program.id = .ok program ∧
    ∀ pp, partnerProgram = some pp → indexGet ctx.programs pp.id = .ok pp := by
  cases applicant with
  | single s =>
    unfold nextToApply at h
    dsimp only at h
    cases ht : toApply s σ with
    | error e => rw [ht] at h; simp only [excBind_err] at h; cases h
    | ok pid =>
      rw [ht] at h
      simp only [excBind_ok] at h
      cases hg : indexGet ctx.programs pid with
      | error e => rw [hg] at h; simp only [excBind_err] at h; cases h
      | ok p =>
        rw [hg] at h
        simp only [excBind_ok, excPure_eq] at h
        cases h
        refine ⟨?_, fun pp hpp => by cases hpp⟩
        rw [indexGet_ok_id hg]
        exact hg
  | couple a b =>
    unfold nextToApply at h
    dsimp only at h
    cases ht1 : toApply a σ with
    | error e => rw [ht1] at h; simp only [excBind_err] at h; cases h
    | ok pid1 =>
      rw [ht1] at h
      simp only [excBind_ok] at h
      cases hg1 : indexGet ctx.programs pid1 with
      | error e => rw [hg1] at h; simp only [excBind_err] at h; cases h
      | ok p1 =>
        rw [hg1] at h
        simp only [excBind_ok] at h
        cases ht2 : toApply b σ with
        | error e => rw [ht2] at h; simp only [excBind_err] at h; cases h
        | ok pid2 =>
          rw [ht2] at h
          simp only [excBind_ok] at h
          cases hg2 : indexGet ctx.programs pid2 with
          | error e => rw [hg2] at h; simp only [excBind_err] at h; cases h
          | ok p2 =>
            rw [hg2] at h
            simp only [excBind_ok, excPure_eq] at h
            cases h
            constructor
            · rw [indexGet_ok_id hg1]
              exact hg1
            · intro pp hpp
              cases hpp
              rw [indexGet_ok_id hg2]
              exact hg2

/-- An exception raised with the state unchanged keeps the step
invariant. -/
theorem StepInv_err_self {progs : List ResidencyProgram} {σ : MState}
    (h : minv progs σ) (e : PyErr) : StepInv progs (.err e σ) := by
  cases e with
  | valueError => exact h
  | keyError => exact trivial
  | indexError => exact trivial
  | assertionError => exact trivial
  | outOfFuel => exact trivial

/-- The capacity invariant is maintained by the proposal loop. -/
theorem minv_applyGo (ctx : Ctx) : ∀ (fuel : Nat) (a : Applicant) (σ : MState),
    minv ctx.programs σ → StepInv ctx.programs (applyGo ctx fuel a σ) := by
  intro fuel
  induction fuel with
  | zero => intro a σ hinv; exact trivial
  | succ f ih =>
    intro a σ hinv
    simp only [applyGo]
    split
    · exact hinv
    · split
      · rename_i e heq
        exact StepInv_err_self hinv e
      · rename_i program partnerProgram heq
        split
        · rename_i e heq2
          exact StepInv_err_self hinv e
        · rename_i displ heq2
          split
          · rename_i hemp
            have hspec := nextToApply_spec heq
            have hnil : displ = [] := by
              cases displ with
              | nil => rfl
              | cons x xs => simp [List.isEmpty] at hemp
            subst hnil
            exact accept_bound ctx.programs a program partnerProgram σ []
              hinv hspec.1 hspec.2 heq2 _
              (acceptMatches_sorted _ _ _ _ hinv.1)
              (fun kv h => h) (fun sid hsid => absurd hsid (by simp))
          · split
            · rename_i a2 σ2 heq3
              have hspec := nextToApply_spec heq
              have hb := minv_handleDispl ctx a program partnerProgram displ σ
                hinv hspec.1 hspec.2 heq2
              rw [heq3] at hb
              exact ih a2 σ2 hb
            · rename_i e σ2 heq3
              have hspec := nextToApply_spec heq
              have hb := minv_handleDispl ctx a program partnerProgram displ σ
                hinv hspec.1 hspec.2 heq2
              rw [heq3] at hb
              cases e with
              | valueError => exact hb
              | keyError => exact trivial
              | indexError => exact trivial
              | assertionError => exact trivial
              | outOfFuel => exact trivial

/-- The capacity invariant is maintained by the stack-draining loop. -/
theorem minv_drainGo (ctx : Ctx) : ∀ (fuel : Nat) (σ : MState),
    minv ctx.programs σ → StepInv ctx.programs (drainGo ctx fuel σ) := by
  intro fuel
  induction fuel with
  | zero => intro σ hinv; exact trivial
  | succ f ih =>
    intro σ hinv
    cases hs : σ.appStack with
    | nil =>
      simp only [drainGo, hs]
      exact hinv
    | cons a rest =>
      cases h1 : applyGo ctx f a { σ with appStack := rest } with
      | ok σ1 =>
        simp only [drainGo, hs, h1]
        have hstep := minv_applyGo ctx f a { σ with appStack := rest } hinv
        rw [h1] at hstep
        exact ih σ1 hstep
      | err e σ1 =>
        simp only [drainGo, hs, h1]
        have hstep := minv_applyGo ctx f a { σ with appStack := rest } hinv
        rw [h1] at hstep
        exact hstep

/-- `resetBest` leaves the matching alone. -/
theorem resetBest_matching (app : Applicant) (σ : MState) :
    (resetBest app σ).matching = σ.matching := by
  cases app <;> rfl

/-- The repair loop leaves the matching alone: it only resets cursors and
pushes affected programs. -/
theorem repairLoopAdds_matching : ∀ (l : List Applicant) (σ : MState),
    (repairLoopAdds l σ).state.matching = σ.matching := by
  intro l
  induction l with
  | nil => intro σ; rfl
  | cons app rest ih =>
    intro σ
    simp only [repairLoopAdds]
    split
    · rename_i s
      split
      · exact resetBest_matching (.single s) σ
      · rw [ih]
        exact resetBest_matching (.single s) σ
    · rename_i a b
      split
      · exact resetBest_matching (.couple a b) σ
      · split
        · rw [ih]
          exact resetBest_matching (.couple a b) σ
        · rw [ih]
          exact resetBest_matching (.couple a b) σ

/-- The capacity invariant is maintained by the affected-program step. -/
theorem minv_programStep (ctx : Ctx) (σ : MState)
    (hinv : minv ctx.programs σ) :
    StepInv ctx.programs (programStep ctx σ) := by
  simp only [programStep]
  split
  · exact hinv
  · split
    · rename_i e heq
      refine StepInv_err_self ?_ e
      exact hinv
    · rename_i prog heq
      split
      · rename_i e heq2
        refine StepInv_err_self ?_ e
        exact hinv
      · rename_i us heq2
        split
        · rename_i e σ1 heq3
          have hm : σ1.matching = σ.matching := by
            rw [← stateRes_err heq3, repairLoopAdds_matching]
          have hinv1 : minv ctx.programs σ1 := by
            show minvL ctx.programs σ1.matching.matchesList
            rw [hm]
            exact hinv
          exact StepInv_err_self hinv1 e
        · rename_i σ1 heq3
          have hm : σ1.matching = σ.matching := by
            rw [← stateRes_ok heq3, repairLoopAdds_matching]
          show minvL ctx.programs σ1.matching.matchesList
          rw [hm]
          exact hinv

/-- The snapshot step never changes the matching. -/
theorem minv_snapshotStep (σ : MState) (progs : List ResidencyProgram)
    (hinv : minv progs σ) : StepInv progs (snapshotStep σ) := by
  simp only [snapshotStep]
  split
  · exact hinv
  · exact hinv

/-- The capacity invariant is maintained by the outer `process_one`
loop. -/
theorem minv_processOneGo (ctx : Ctx) : ∀ (fuel : Nat) (σ : MState),
    minv ctx.programs σ → StepInv ctx.programs (processOneGo ctx fuel σ) := by
  intro fuel
  induction fuel with
  | zero => intro σ hinv; exact trivial
  | succ f ih =>
    intro σ hinv
    by_cases hs : (σ.appStack.isEmpty && σ.progStack.isEmpty) = true
    · simp only [processOneGo, hs]
      exact hinv
    · cases h1 : drainGo ctx f σ with
      | err e σ1 =>
        simp only [processOneGo, hs, Bool.false_eq_true, if_false, h1]
        have hd := minv_drainGo ctx f σ hinv
        rw [h1] at hd
        exact hd
      | ok σ1 =>
        have hd := minv_drainGo ctx f σ hinv
        rw [h1] at hd
        cases h2 : programStep ctx σ1 with
        | err e σ2 =>
          simp only [processOneGo, hs, Bool.false_eq_true, if_false, h1, h2]
          have hp := minv_programStep ctx σ1 hd
          rw [h2] at hp
          exact hp
        | ok σ2 =>
          have hp := minv_programStep ctx σ1 hd
          rw [h2] at hp
          cases h3 : snapshotStep σ2 with
          | err e σ3 =>
            simp only [processOneGo, hs, Bool.false_eq_true, if_false,
              h1, h2, h3]
            have hsn := minv_snapshotStep σ2 ctx.programs hp
            rw [h3] at hsn
            exact hsn
          | ok σ3 =>
            simp only [processOneGo, hs, Bool.false_eq_true, if_false,
              h1, h2, h3]
            have hsn := minv_snapshotStep σ2 ctx.programs hp
            rw [h3] at hsn
            exact ih σ3 hsn

/-- The capacity invariant is maintained by the driver loop, through the
caught cycle signal included. -/
theorem minv_runGo (ctx : Ctx) (fuel : Nat) : ∀ (l : List Applicant)
    (σ : MState), minv ctx.programs σ →
    StepInv ctx.programs (runGo ctx fuel l σ) := by
  intro l
  induction l with
  | nil => intro σ hinv; exact hinv
  | cons a rest ih =>
    intro σ hinv
    have hp : StepInv ctx.programs (processOne ctx fuel a σ) :=
      minv_processOneGo ctx fuel
        { σ with appStack := [a], progStack := [], log := [] } hinv
    cases h1 : processOne ctx fuel a σ with
    | ok σ1 =>
      simp only [runGo, h1]
      rw [h1] at hp
      exact ih σ1 hp
    | err e σ1 =>
      rw [h1] at hp
      cases e with
      | valueError =>
        simp only [runGo, h1]
        show minvL ctx.programs σ1.matching.matchesList
        exact hp
      | keyError => simp only [runGo, h1]; exact trivial
      | indexError => simp only [runGo, h1]; exact trivial
      | assertionError => simp only [runGo, h1]; exact trivial
      | outOfFuel => simp only [runGo, h1]; exact trivial

/-- In a list of pairwise-distinct ids, `find?` by a member's id returns
that member. -/
theorem find?_unique_id {l : List ResidencyProgram} {p : ResidencyProgram}
    (hp : l.Pairwise (fun a b => a.id ≠ b.id)) (hmem : p ∈ l) :
    l.find? (fun q => q.id = p.id) = some p := by
  induction l with
  | nil => cases hmem
  | cons a tl ih =>
    rcases List.pairwise_cons.mp hp with ⟨ha, htl⟩
    rcases List.mem_cons.mp hmem with h1 | h1
    · subst h1
      exact List.find?_cons_of_pos _ (by simp)
    · have hne : ¬(a.id = p.id) := ha p h1
      rw [List.find?_cons_of_neg _ (by simp [hne])]
      exact ih htl h1

/-- With pairwise-distinct program ids the index resolves each program's
id to that very program. -/
theorem indexGet_self {progs : List ResidencyProgram} {p : ResidencyProgram}
    (hd : progs.Pairwise (fun a b => a.id ≠ b.id)) (hmem : p ∈ progs) :
    indexGet progs p.id = .ok p := by
  unfold indexGet
  have hrev : progs.reverse.Pairwise (fun a b => a.id ≠ b.id) :=
    (List.pairwise_reverse).mpr (hd.imp fun h => Ne.symm h)
  rw [find?_unique_id hrev (List.mem_reverse.mpr hmem)]

/-- The empty initial matching satisfies the capacity invariant. -/
theorem minv_init (apps : List Applicant) (progs : List ResidencyProgram) :
    minv (icInit apps progs).1.programs (icInit apps progs).2 :=
  ⟨List.Pairwise.nil, fun _ P _ => Nat.zero_le P.capacity⟩

/-- Claim C4, amended: on a market whose program ids are pairwise
distinct, every `Matching` that `stable_matching` returns (normal return
or cycle-invalidated return) maps at most `capacity p` students to each
program `p` of the market. -/
theorem C4_amended_capacity (apps : List Applicant)
    (progs : List ResidencyProgram) (fuel : Nat) (σf : MState)
    (hdistinct : progs.Pairwise (fun a b => a.id ≠ b.id))
    (hrun : stableMatching apps progs fuel = .ok σf) :
    ∀ p ∈ progs, (studentsMatchedTo σf.matching p.id).length ≤ p.capacity := by
  intro p hp
  have hrg : StepInv progs (stableMatching apps progs fuel) :=
    minv_runGo (icInit apps progs).1 fuel
      (icInit apps progs).1.applicants (icInit apps progs).2
      (minv_init apps progs)
  rw [hrun] at hrg
  have hm : minv progs σf := hrg
  exact hm.2 p.id p (indexGet_self hdistinct hp)

/-- Witness for the amended C4: on the concrete market the run returns
normally, the program ids are distinct, and the returned matching
respects every capacity. -/
theorem C4_amended_witness :
    c4wProgs.Pairwise (fun a b => a.id ≠ b.id) ∧
    stableMatching c4wApps c4wProgs 50 = .ok c4wState ∧
    ∀ p ∈ c4wProgs,
      (studentsMatchedTo c4wState.matching p.id).length ≤ p.capacity := by
  refine ⟨by decide, rfl, ?_⟩
  exact C4_amended_capacity c4wApps c4wProgs 50 c4wState (by decide) rfl

/-- The index only returns programs of the market. -/
theorem indexGet_mem {progs : List ResidencyProgram} {pid : Nat}
    {P : ResidencyProgram} (h : indexGet progs pid = .ok P) : P ∈ progs := by
  unfold indexGet at h
  cases hf : progs.reverse.find? (fun p => p.id = pid) with
  | none => rw [hf] at h; cases h
  | some q =>
    rw [hf] at h
    cases h
    exact List.mem_reverse.mp (List.mem_of_find?_eq_some hf)

/-- An id carried by some market program resolves in the index. -/
theorem indexGet_isOk_of_mem {progs : List ResidencyProgram} {pid : Nat}
    {P : ResidencyProgram} (hmem : P ∈ progs) (hid : P.id = pid) :
    ∃ Q, indexGet progs pid = .ok Q := by
  unfold indexGet
  cases hf : progs.reverse.find? (fun p => p.id = pid) with
  | none =>
    exfalso
    have := List.find?_eq_none.mp hf P (List.mem_reverse.mpr hmem)
    simp [hid] at this
  | some q => exact ⟨q, rfl⟩

/-- A sorted dict binds each key at most once. -/
theorem dict_functional {m : List (Nat × Nat)} (hs : sortedKeys m)
    {k v1 v2 : Nat} (h1 : (k, v1) ∈ m) (h2 : (k, v2) ∈ m) : v1 = v2 := by
  induction m with
  | nil => cases h1
  | cons hd tl ih =>
    rcases List.pairwise_cons.mp hs with ⟨hk, htl⟩
    rcases List.mem_cons.mp h1 with ha | ha
    · rcases List.mem_cons.mp h2 with hb | hb
      · rw [← ha] at hb
        exact (congrArg Prod.snd hb).symm
      · exfalso
        have := hk _ hb
        rw [← ha] at this
        simp at this
    · rcases List.mem_cons.mp h2 with hb | hb
      · exfalso
        have := hk _ ha
        rw [← hb] at this
        simp at this
      · exact ih htl ha hb

/-- The first occurrence of a listed value is at or before any
occurrence. -/
theorem firstIdx_le_of_get? : ∀ (l : List Nat) (j : Nat) (x : Nat),
    l.get? j = some x → ∃ i, firstIdx l x = some i ∧ i ≤ j := by
  intro l
  induction l with
  | nil => intro j x h; cases j <;> cases h
  | cons y ys ih =>
    intro j x h
    cases j with
    | zero =>
      have hx : y = x := by
        have : some y = some x := h
        exact Option.some.inj this
      refine ⟨0, ?_, Nat.le_refl 0⟩
      simp [firstIdx, hx]
    | succ j2 =>
      have h2 : ys.get? j2 = some x := h
      by_cases hyx : y = x
      · exact ⟨0, by simp [firstIdx, hyx], Nat.zero_le _⟩
      · obtain ⟨i, hi, hle⟩ := ih j2 x h2
        refine ⟨i + 1, ?_, Nat.succ_le_succ hle⟩
        simp [firstIdx, hyx, hi]

/-- `firstIdx` indeed indexes its value. -/
theorem firstIdx_get? : ∀ (l : List Nat) (x i : Nat),
    firstIdx l x = some i → l.get? i = some x := by
  intro l
  induction l with
  | nil => intro x i h; cases h
  | cons y ys ih =>
    intro x i h
    simp only [firstIdx] at h
    split at h
    · rename_i hyx
      cases h
      exact congrArg some hyx
    · cases hf : firstIdx ys x with
      | none => rw [hf] at h; cases h
      | some i2 =>
        rw [hf] at h
        have : i = i2 + 1 := by
          cases h
          rfl
        subst this
        exact ih x i2 hf

/-- Inserting a member of a strictly sorted list is the identity. -/
theorem insertSorted_mem_eq (x : Nat) : ∀ (l : List Nat),
    l.Pairwise (· < ·) → x ∈ l → insertSorted x l = l := by
  intro l
  induction l with
  | nil => intro _ h; cases h
  | cons y ys ih =>
    intro hp hx
    rcases List.pairwise_cons.mp hp with ⟨hy, hys⟩
    rcases List.mem_cons.mp hx with h1 | h1
    · subst h1
      simp [insertSorted]
    · have hlt : y < x := hy x h1
      have h2 : ¬(x < y) := by omega
      have h3 : ¬(x = y) := by omega
      simp only [insertSorted, if_neg h2, if_neg h3]
      rw [ih hys h1]

/-- Dropping an element that fails the predicate makes the filter
strictly shorter. -/
theorem length_filter_lt (p : Nat → Bool) : ∀ (l : List Nat) (x : Nat),
    x ∈ l → p x = false → (l.filter p).length < l.length := by
  intro l
  induction l with
  | nil => intro x h; cases h
  | cons y ys ih =>
    intro x hx hpx
    rcases List.mem_cons.mp hx with h1 | h1
    · subst h1
      have hf : (x :: ys).filter p = ys.filter p :=
        List.filter_cons_of_neg (by simp [hpx])
      rw [hf, List.length_cons]
      have := List.length_filter_le p ys
      omega
    · by_cases hy : p y = true
      · have hf : (y :: ys).filter p = y :: ys.filter p :=
          List.filter_cons_of_pos hy
        rw [hf, List.length_cons, List.length_cons]
        have := ih x h1 hpx
        omega
      · have hf : (y :: ys).filter p = ys.filter p :=
          List.filter_cons_of_neg hy
        rw [hf, List.length_cons]
        have := ih x h1 hpx
        omega

/-- Everything `select` keeps is ranked strictly better than any student
the pool rejects at full count. -/
theorem kept_all_better (prefs : List Nat) (pool : List Nat) (cap : Nat)
    (hnd : pool.Nodup) (x : Nat) (hx : cap ≤ countBetter prefs pool x) :
    ∀ t ∈ pool, countBetter prefs pool t < cap →
      rankIn prefs t < rankIn prefs x := by
  intro t ht hlt
  by_contra hge
  push_neg at hge
  have hsub : ∀ r ∈ pool.filter (fun r => rankIn prefs r < rankIn prefs x),
      r ∈ pool.filter (fun r => rankIn prefs r < rankIn prefs t) := by
    intro r hr
    rcases List.mem_filter.mp hr with ⟨hr1, hr2⟩
    have hr3 : rankIn prefs r < rankIn prefs x := by simpa using hr2
    refine List.mem_filter.mpr ⟨hr1, ?_⟩
    simp only [decide_eq_true_eq]
    omega
  have hlen := nodupSubsetLen (List.Nodup.filter _ hnd) hsub
  simp only [countBetter] at hx hlt
  omega

/-- Membership in the chosen slice: exactly the pool members with fewer
than `capacity` better-ranked pool members. -/
theorem mem_chosenOf_iff (P : ResidencyProgram) (pool : List Nat)
    (hnd : pool.Nodup) (hall : ∀ sid ∈ pool, sid ∈ P.preferences)
    (sid : Nat) (hsid : sid ∈ pool) :
    (sid ∈ chosenOf P pool ↔
      countBetter P.preferences pool sid < P.capacity) := by
  unfold chosenOf
  set f : Nat → Nat × Nat := fun t => (t, rankIn P.preferences t) with hf
  set L : List (Nat × Nat) := sortByRank (pool.map f) with hL
  have hLp : L.Perm (pool.map f) := sortByRank_perm _
  have hsorted : SortedR L := sortByRank_sorted _
  have hrinj : ∀ x ∈ pool, ∀ y ∈ pool,
      rankIn P.preferences x = rankIn P.preferences y → x = y := by
    intro x hx y hy hxy
    have hsx := (firstIdx_isSome_iff_mem P.preferences x).mpr (hall x hx)
    have hsy := (firstIdx_isSome_iff_mem P.preferences y).mpr (hall y hy)
    cases hfx : firstIdx P.preferences x with
    | none => rw [hfx] at hsx; simp at hsx
    | some rx =>
      cases hfy : firstIdx P.preferences y with
      | none => rw [hfy] at hsy; simp at hsy
      | some ry =>
        have h1 : rx = ry := by
          have e1 : rankIn P.preferences x = rx := by simp [rankIn, hfx]
          have e2 : rankIn P.preferences y = ry := by simp [rankIn, hfy]
          omega
        exact firstIdx_inj hfx (h1 ▸ hfy)
  have hsnodup : (L.map Prod.snd).Nodup := by
    refine ((hLp.map Prod.snd).nodup_iff).mpr ?_
    have hmm : (pool.map f).map Prod.snd =
        pool.map (fun t => rankIn P.preferences t) := by
      rw [List.map_map]
      rfl
    rw [hmm]
    exact List.Nodup.map_on hrinj hnd
  have hpairmem : ((sid, rankIn P.preferences sid) ∈ pool.map f) :=
    List.mem_map_of_mem f hsid
  have hmemL : ∀ r, ((sid, r) ∈ L ↔ (sid, r) ∈ pool.map f) :=
    fun r => hLp.mem_iff
  constructor
  · intro h
    rcases List.mem_map.mp h with ⟨pr, hpr, hpr1⟩
    have hprL : pr ∈ L := List.mem_of_mem_take hpr
    rcases List.mem_map.mp (hLp.mem_iff.mp hprL) with ⟨t, ht, hft⟩
    have hteq : t = sid := by rw [← hpr1, ← hft]
    subst hteq
    rw [← hft] at hpr
    have hmt := (mem_take_sorted L P.capacity (f t) hsorted hsnodup).mp hpr
    rcases hmt with ⟨-, hcnt⟩
    have hflen : (L.filter (fun q => q.2 < (f t).2)).length =
        (pool.filter (fun x =>
          rankIn P.preferences x < rankIn P.preferences t)).length := by
      rw [(hLp.filter (fun q => decide (q.2 < (f t).2))).length_eq]
      exact length_filter_map_eq f (fun q => decide (q.2 < (f t).2)) pool
    rw [hflen] at hcnt
    exact hcnt
  · intro h
    have hmem : (sid, rankIn P.preferences sid) ∈ L.take P.capacity := by
      refine (mem_take_sorted L P.capacity _ hsorted hsnodup).mpr
        ⟨(hmemL _).mpr hpairmem, ?_⟩
      have hflen : (L.filter (fun q => q.2 < rankIn P.preferences sid)).length =
          (pool.filter (fun x =>
            rankIn P.preferences x < rankIn P.preferences sid)).length := by
        rw [(hLp.filter
          (fun q => decide (q.2 < rankIn P.preferences sid))).length_eq]
        exact length_filter_map_eq f
          (fun q => decide (q.2 < rankIn P.preferences sid)) pool
      rw [hflen]
      exact h
    exact List.mem_map.mpr ⟨(sid, rankIn P.preferences sid), hmem, rfl⟩

/-- The chosen slice has `min capacity |pool|` entries. -/
theorem chosenOf_length (P : ResidencyProgram) (pool : List Nat) :
    (chosenOf P pool).length = min P.capacity pool.length := by
  unfold chosenOf
  rw [List.length_map, List.length_take,
    (sortByRank_perm _).length_eq, List.length_map]

/-- The chosen slice draws from the pool. -/
theorem chosenOf_sub_pool (P : ResidencyProgram) (pool : List Nat)
    {sid : Nat} (h : sid ∈ chosenOf P pool) : sid ∈ pool := by
  unfold chosenOf at h
  rcases List.mem_map.mp h with ⟨pr, hpr, hpr1⟩
  have hprL := List.mem_of_mem_take hpr
  rcases List.mem_map.mp ((sortByRank_perm _).mem_iff.mp hprL) with ⟨t, ht, hft⟩
  rw [← hpr1, ← hft]
  exact ht

/-- Mapping first projections over an id-pairing is the identity. -/
theorem map_fst_pairing (g : Nat → Nat) : ∀ (l : List Nat),
    (l.map (fun t => (t, g t))).map (fun xr : Nat × Nat => xr.1) = l := by
  intro l
  induction l with
  | nil => rfl
  | cons a tl ih => simp only [List.map_cons, ih]

/-- The chosen slice of a duplicate-free pool is duplicate-free. -/
theorem chosenOf_nodup (P : ResidencyProgram) (pool : List Nat)
    (hnd : pool.Nodup) : (chosenOf P pool).Nodup := by
  unfold chosenOf
  have h1 := (sortByRank_perm
    (pool.map (fun t => (t, rankIn P.preferences t)))).map
    (fun xr : Nat × Nat => xr.1)
  have h2 := map_fst_pairing (fun t => rankIn P.preferences t) pool
  rw [h2] at h1
  have hn2 := h1.nodup_iff.mpr hnd
  rw [List.map_take]
  exact List.Nodup.sublist (List.take_sublist _ _) hn2

/-- Exactly `min capacity |pool|` pool members beat the cut. -/
theorem kept_length_eq (P : ResidencyProgram) (pool : List Nat)
    (hnd : pool.Nodup) (hall : ∀ sid ∈ pool, sid ∈ P.preferences) :
    (pool.filter (fun t =>
      countBetter P.preferences pool t < P.capacity)).length =
    min P.capacity pool.length := by
  have hsub1 : ∀ x ∈ pool.filter (fun t =>
      countBetter P.preferences pool t < P.capacity), x ∈ chosenOf P pool := by
    intro x hx
    rcases List.mem_filter.mp hx with ⟨h1, h2⟩
    exact (mem_chosenOf_iff P pool hnd hall x h1).mpr (by simpa using h2)
  have hsub2 : ∀ x ∈ chosenOf P pool, x ∈ pool.filter (fun t =>
      countBetter P.preferences pool t < P.capacity) := by
    intro x hx
    have h1 := chosenOf_sub_pool P pool hx
    refine List.mem_filter.mpr ⟨h1, ?_⟩
    simp only [decide_eq_true_eq]
    exact (mem_chosenOf_iff P pool hnd hall x h1).mp hx
  have hle1 := nodupSubsetLen (List.Nodup.filter _ hnd) hsub1
  have hle2 := nodupSubsetLen (chosenOf_nodup P pool hnd) hsub2
  have hcl := chosenOf_length P pool
  omega

/-- Students of single applicants are collected. -/
theorem mem_collectStudents {s : Student} : ∀ {apps : List Applicant},
    Applicant.single s ∈ apps → s ∈ collectStudents apps := by
  intro apps
  induction apps with
  | nil => intro h; cases h
  | cons a rest ih =>
    intro h
    rcases List.mem_cons.mp h with h1 | h1
    · rw [← h1]
      simp [collectStudents]
    · cases a with
      | single t => exact List.mem_cons_of_mem _ (ih h1)
      | couple t u =>
        simp only [collectStudents]
        exact List.mem_cons_of_mem _ (List.mem_cons_of_mem _ (ih h1))

/-- Two students of a duplicate-free roster with equal ids coincide. -/
theorem student_unique : ∀ {l : List Student},
    l.Pairwise (fun a b => a.id ≠ b.id) → ∀ {s t : Student}, s ∈ l → t ∈ l →
    s.id = t.id → s = t := by
  intro l
  induction l with
  | nil => intro _ s t h; cases h
  | cons a rest ih =>
    intro hp s t hs ht hid
    rcases List.pairwise_cons.mp hp with ⟨ha, hrest⟩
    rcases List.mem_cons.mp hs with h1 | h1
    · rcases List.mem_cons.mp ht with h2 | h2
      · rw [h1, h2]
      · exact absurd (h1 ▸ hid) (ha t h2)
    · rcases List.mem_cons.mp ht with h2 | h2
      · exact absurd (h2 ▸ hid).symm (ha s h1)
      · exact ih hrest h1 h2 hid

/-- In an all-singles market the couples filter is empty. -/
theorem c1_couples_nil (apps : List Applicant)
    (hsingle : ∀ a ∈ apps, a.isSingle = true) :
    apps.filter (fun a => !a.isSingle) = [] := by
  rw [List.filter_eq_nil_iff]
  intro a ha
  simp [hsingle a ha]

/-- In an all-singles market `__init__` builds no partner mapping. -/
theorem icInit_partnerMap (apps : List Applicant)
    (progs : List ResidencyProgram)
    (hsingle : ∀ a ∈ apps, a.isSingle = true) :
    (icInit apps progs).1.partnerMap = [] := by
  simp only [icInit, c1_couples_nil apps hsingle]
  rfl

/-- In an all-singles market the work list is the given applicant list. -/
theorem icInit_applicants (apps : List Applicant)
    (progs : List ResidencyProgram)
    (hsingle : ∀ a ∈ apps, a.isSingle = true) :
    (icInit apps progs).1.applicants = apps := by
  simp only [icInit, c1_couples_nil apps hsingle]
  have h0 : applicantSet [] = ([] : List Applicant) := rfl
  rw [h0, List.append_nil]
  rw [List.filter_eq_self]
  intro a ha
  cases a with
  | single s => rfl
  | couple x y =>
    have := hsingle _ ha
    simp [Applicant.isSingle] at this

/-- With dataclass-default cursors every initial cursor is 0. -/
theorem icInit_cursors (apps : List Applicant) (progs : List ResidencyProgram)
    (hzero : ∀ s ∈ collectStudents apps, s.best_unrejected = 0) :
    ∀ sid, (icInit apps progs).2.cursors sid = 0 := by
  intro sid
  show (studentOf (icInit apps progs).1 sid).best_unrejected = 0
  unfold studentOf
  cases hf : (icInit apps progs).1.students.find? (fun s => s.id = sid) with
  | none => rfl
  | some s =>
    have hmem := List.mem_of_find?_eq_some hf
    have hst : (icInit apps progs).1.students = collectStudents apps := rfl
    rw [hst] at hmem
    exact hzero s hmem

/-- The single-market static facts hold at initialization for any market
of claim C1's class with duplicate-free student ids. -/
theorem icInit_SM (apps : List Applicant) (progs : List ResidencyProgram)
    (hclass : c1Class apps progs)
    (hdids : (collectStudents apps).Pairwise (fun a b => a.id ≠ b.id)) :
    SM (icInit apps progs).1 := by
  have happs := icInit_applicants apps progs hclass.1
  have hprogs : (icInit apps progs).1.programs = progs := rfl
  have hstud : (icInit apps progs).1.students = collectStudents apps := rfl
  have hshape : ∀ a ∈ apps, ∃ s, a = Applicant.single s := by
    intro a ha
    cases a with
    | single s => exact ⟨s, rfl⟩
    | couple x y =>
      have := hclass.1 _ ha
      simp [Applicant.isSingle] at this
  refine ⟨?_, icInit_partnerMap apps progs hclass.1, ?_, ?_, ?_⟩
  · rw [happs]
    exact hshape
  · rw [happs, hprogs]
    intro a ha s hs pid hpid
    subst hs
    obtain ⟨P, hP, hPid⟩ := hclass.2.1 _ ha s.preferences
      (by simp [Applicant.prefLists]) pid hpid
    exact indexGet_isOk_of_mem hP hPid
  · rw [happs, hprogs]
    intro P hP a ha s hs
    subst hs
    exact hclass.2.2.1 P hP _ ha s.id (by simp [Applicant.memberIds])
  · rw [happs]
    intro a ha s hs
    subst hs
    unfold studentOf
    rw [hstud]
    cases hf : (collectStudents apps).find? (fun t => t.id = s.id) with
    | none =>
      exfalso
      have := List.find?_eq_none.mp hf s (mem_collectStudents ha)
      simp at this
    | some t =>
      have hmem := List.mem_of_find?_eq_some hf
      have hid : t.id = s.id := by
        have := List.find?_some hf
        simpa using this
      have : t = s := student_unique hdids hmem (mem_collectStudents ha) hid
      rw [this]
      rfl

/-- The single-market invariant holds at initialization when every cursor
starts at 0. -/
theorem icInit_C1Inv (apps : List Applicant) (progs : List ResidencyProgram)
    (hzero : ∀ s ∈ collectStudents apps, s.best_unrejected = 0) :
    C1Inv (icInit apps progs).1 (icInit apps progs).2 := by
  refine ⟨⟨List.Pairwise.nil, fun _ P _ => Nat.zero_le P.capacity⟩,
    ?_, ?_, rfl, ?_, rfl, rfl⟩
  · intro sid pid h
    cases h
  · intro a ha s hs i hi
    rw [icInit_cursors apps progs hzero s.id] at hi
    omega
  · intro a ha
    cases ha

/-- Rejection leaves the cycle log alone. -/
theorem log_reject (sid : Nat) (σ : MState) : (reject sid σ).log = σ.log := by
  unfold reject
  split <;> rfl

/-- The displaced-singles loop leaves the cycle log alone. -/
theorem log_rejectSingles : ∀ (l : List Nat) (σ : MState),
    ((rejectSingles l σ).state).log = σ.log := by
  intro l
  induction l with
  | nil => intro σ; rfl
  | cons t rest ih =>
    intro σ
    simp only [rejectSingles]
    cases hd : dictGet t σ.matching.matchesList with
    | none => rfl
    | some v =>
      rw [ih]
      exact log_reject t σ

/-- The displaced-couples loop leaves the cycle log alone. -/
theorem log_displaceCouples (ctx : Ctx) : ∀ (l : List Nat)
    (dcs : List Applicant) (σ : MState),
    ((displaceCouples ctx l dcs σ).state).log = σ.log := by
  intro l
  induction l with
  | nil => intro dcs σ; rfl
  | cons t rest ih =>
    intro dcs σ
    cases hp : partnerGet ctx t with
    | none => simp only [displaceCouples, hp]; rfl
    | some w =>
      cases hc : mkCouple (studentOf ctx t) w with
      | error e => simp only [displaceCouples, hp, hc]; rfl
      | ok c =>
        cases hdup : dcs.any fun x => aeq x c with
        | true =>
          simp only [displaceCouples, hp, hc, hdup, if_true]
          exact ih dcs σ
        | false =>
          cases hd1 : dictGet t σ.matching.matchesList with
          | none =>
            simp only [displaceCouples, hp, hc, hdup, Bool.false_eq_true,
              if_false, hd1]
            rfl
          | some v1 =>
            cases hd2 : dictGet w.id σ.matching.matchesList with
            | none =>
              simp only [displaceCouples, hp, hc, hdup, Bool.false_eq_true,
                if_false, hd1, hd2]
              rfl
            | some v2 =>
              simp only [displaceCouples, hp, hc, hdup, Bool.false_eq_true,
                if_false, hd1, hd2]
              rw [ih, log_reject, log_reject]
              rfl

/-- Accepting leaves the cycle log alone. -/
theorem log_acceptMatches (applicant : Applicant) (program : ResidencyProgram)
    (partnerProgram : Option ResidencyProgram) (σ : MState) :
    (acceptMatches applicant program partnerProgram σ).log = σ.log := rfl

/-- Bump handling leaves the cycle log alone. -/
theorem log_handleDispl (ctx : Ctx) (applicant : Applicant)
    (program : ResidencyProgram) (partnerProgram : Option ResidencyProgram)
    (displ : List Nat) (σ : MState) :
    ((handleDispl ctx applicant program partnerProgram displ σ).state).log
      = σ.log := by
  simp only [handleDispl]
  split
  · cases applicant.proposalPair.2 with
    | none => rfl
    | some pa => rfl
  · split
    · rename_i e σ4 heq
      show σ4.log = σ.log
      rw [← stateRes_err heq, log_rejectSingles, log_acceptMatches]
    · rename_i σ4 heq
      split
      · split
        · show σ4.log = σ.log
          rw [← stateRes_ok heq, log_rejectSingles, log_acceptMatches]
        · show σ4.log = σ.log
          rw [← stateRes_ok heq, log_rejectSingles, log_acceptMatches]
      · split
        · rename_i e2 σ5 heq2
          show σ5.log = σ.log
          rw [← cstate_err heq2, log_displaceCouples]
          show σ4.log = σ.log
          rw [← stateRes_ok heq, log_rejectSingles, log_acceptMatches]
        · rename_i dcs σ5 heq2
          split
          · show σ5.log = σ.log
            rw [← cstate_ok heq2, log_displaceCouples]
            show σ4.log = σ.log
            rw [← stateRes_ok heq, log_rejectSingles, log_acceptMatches]
          · show σ5.log = σ.log
            rw [← cstate_ok heq2, log_displaceCouples]
            show σ4.log = σ.log
            rw [← stateRes_ok heq, log_rejectSingles, log_acceptMatches]

/-- The proposal loop leaves the cycle log alone. -/
theorem log_applyGo (ctx : Ctx) : ∀ (fuel : Nat) (a : Applicant) (σ : MState),
    ((applyGo ctx fuel a σ).state).log = σ.log := by
  intro fuel
  induction fuel with
  | zero => intro a σ; rfl
  | succ f ih =>
    intro a σ
    simp only [applyGo]
    split
    · rfl
    · split
      · rfl
      · split
        · rfl
        · split
          · rfl
          · split
            · rename_i a2 σ2 heq
              rw [ih]
              show σ2.log = σ.log
              rw [← bstate_next heq, log_handleDispl]
            · rename_i e σ2 heq
              show σ2.log = σ.log
              rw [← bstate_err heq, log_handleDispl]

/-- The drain loop leaves the cycle log alone. -/
theorem log_drainGo (ctx : Ctx) : ∀ (fuel : Nat) (σ : MState),
    ((drainGo ctx fuel σ).state).log = σ.log := by
  intro fuel
  induction fuel with
  | zero => intro σ; rfl
  | succ f ih =>
    intro σ
    cases hs : σ.appStack with
    | nil => simp only [drainGo, hs]; rfl
    | cons a rest =>
      cases h1 : applyGo ctx f a { σ with appStack := rest } with
      | ok σ1 =>
        simp only [drainGo, hs, h1]
        rw [ih]
        show σ1.log = σ.log
        rw [← stateRes_ok h1, log_applyGo]
      | err e σ1 =>
        simp only [drainGo, hs, h1]
        show σ1.log = σ.log
        rw [← stateRes_err h1, log_applyGo]

/-- A present key has a binding. -/
theorem dictGet_some_mem : ∀ (m : List (Nat × Nat)) (sid v : Nat),
    dictGet sid m = some v → (sid, v) ∈ m := by
  intro m
  induction m with
  | nil => intro sid v h; cases h
  | cons hd tl ih =>
    intro sid v h
    obtain ⟨k, w⟩ := hd
    simp only [dictGet] at h
    split at h
    · rename_i heq
      subst heq
      cases h
      exact List.mem_cons_self _ _
    · exact List.mem_cons_of_mem _ (ih sid v h)

/-- With a partner-free context no student is a couple member. -/
theorem c1_inPm_false {ctx : Ctx} (hpm : ctx.partnerMap = []) :
    ∀ t, inPartnerMap ctx t = false := by
  intro t
  unfold inPartnerMap partnerGet
  rw [hpm]
  rfl

/-- What one rejection of a present key does: the binding is removed, its
cursor advances by 1, everything else is untouched. -/
theorem reject_spec (sid : Nat) (σ : MState)
    (hs : sortedKeys σ.matching.matchesList)
    (hm : dictGet sid σ.matching.matchesList ≠ none) :
    (∀ kv, kv ∈ (reject sid σ).matching.matchesList ↔
      kv ∈ σ.matching.matchesList ∧ kv.1 ≠ sid) ∧
    (reject sid σ).cursors sid = σ.cursors sid + 1 ∧
    (∀ t, t ≠ sid → (reject sid σ).cursors t = σ.cursors t) ∧
    (reject sid σ).progStack = σ.progStack ∧
    (reject sid σ).appStack = σ.appStack ∧
    (reject sid σ).matching.applicants = σ.matching.applicants ∧
    (reject sid σ).matching.programs = σ.matching.programs := by
  have hsome : (dictGet sid σ.matching.matchesList).isSome = true := by
    cases hd : dictGet sid σ.matching.matchesList with
    | none => exact absurd hd hm
    | some v => rfl
  unfold reject
  rw [if_pos hsome]
  refine ⟨fun kv => mem_dictDel sid _ hs kv, ?_, ?_, rfl, rfl, rfl, rfl⟩
  · show (if sid = sid then σ.cursors sid + 1 else _) = σ.cursors sid + 1
    rw [if_pos rfl]
  · intro t ht
    show (if t = sid then _ else σ.cursors t) = σ.cursors t
    rw [if_neg ht]

/-- The displaced-singles loop on a duplicate-free list of present keys:
it succeeds, removes exactly those bindings, advances exactly those
cursors, and touches nothing else. -/
theorem rejectSingles_ok_spec : ∀ (l : List Nat) (σ : MState),
    sortedKeys σ.matching.matchesList → l.Nodup →
    (∀ t ∈ l, dictGet t σ.matching.matchesList ≠ none) →
    ∃ σf, rejectSingles l σ = .ok σf ∧
      (∀ kv, kv ∈ σf.matching.matchesList ↔
        kv ∈ σ.matching.matchesList ∧ kv.1 ∉ l) ∧
      (∀ t, t ∉ l → σf.cursors t = σ.cursors t) ∧
      (∀ t ∈ l, σf.cursors t = σ.cursors t + 1) ∧
      σf.progStack = σ.progStack ∧
      σf.appStack = σ.appStack ∧
      σf.matching.applicants = σ.matching.applicants ∧
      σf.matching.programs = σ.matching.programs := by
  intro l
  induction l with
  | nil =>
    intro σ hs _ _
    exact ⟨σ, rfl, fun kv => by simp, fun t _ => rfl, fun t ht => absurd ht
      (by simp), rfl, rfl, rfl, rfl⟩
  | cons u rest ih =>
    intro σ hs hnd hpres
    rcases List.pairwise_cons.mp hnd with ⟨hu, hrest⟩
    have hmu : dictGet u σ.matching.matchesList ≠ none :=
      hpres u (List.mem_cons_self _ _)
    have hr := reject_spec u σ hs hmu
    have hs1 : sortedKeys (reject u σ).matching.matchesList :=
      (reject_m u σ hs).1
    have hpres1 : ∀ t ∈ rest,
        dictGet t (reject u σ).matching.matchesList ≠ none := by
      intro t ht hnone
      have hmt := hpres t (List.mem_cons_of_mem _ ht)
      cases hd : dictGet t σ.matching.matchesList with
      | none => exact hmt hd
      | some v =>
        have hmem := dictGet_some_mem _ _ _ hd
        have htu : t ≠ u := fun he => (hu t ht) he.symm
        have hin : (t, v) ∈ (reject u σ).matching.matchesList :=
          (hr.1 (t, v)).mpr ⟨hmem, htu⟩
        exact (dictGet_none_iff t _).mp hnone v hin
    obtain ⟨σf, hok, hmem, hcur1, hcur2, hps, has, hma, hmp⟩ :=
      ih (reject u σ) hs1 hrest hpres1
    refine ⟨σf, ?_, ?_, ?_, ?_, ?_, ?_, ?_, ?_⟩
    · simp only [rejectSingles]
      cases hd : dictGet u σ.matching.matchesList with
      | none => exact absurd hd hmu
      | some v => exact hok
    · intro kv
      rw [hmem kv, hr.1 kv]
      constructor
      · rintro ⟨⟨h1, h2⟩, h3⟩
        exact ⟨h1, by simp [h2, h3]⟩
      · rintro ⟨h1, h2⟩
        simp only [List.mem_cons, not_or] at h2
        exact ⟨⟨h1, h2.1⟩, h2.2⟩
    · intro t ht
      simp only [List.mem_cons, not_or] at ht
      rw [hcur1 t ht.2, hr.2.2.1 t ht.1]
    · intro t ht
      rcases List.mem_cons.mp ht with h1 | h1
      · subst h1
        have htr : t ∉ rest := fun hc => (hu t hc) rfl
        rw [hcur1 t htr, hr.2.1]
      · have htu : t ≠ u := fun he => (hu t h1) he.symm
        rw [hcur2 t h1, hr.2.2.1 t htu]
    · rw [hps, hr.2.2.2.1]
    · rw [has, hr.2.2.2.2.1]
    · rw [hma, hr.2.2.2.2.2.1]
    · rw [hmp, hr.2.2.2.2.2.2]

/-- Full-with-better survives growing the dict. -/
theorem FWB_mono {ctx : Ctx} {σ σ2 : MState}
    (hs : sortedKeys σ.matching.matchesList)
    (hsub : ∀ kv ∈ σ.matching.matchesList, kv ∈ σ2.matching.matchesList)
    {s : Student} {i : Nat} (h : FWB ctx σ s i) : FWB ctx σ2 s i := by
  intro pid hget P hP
  refine Nat.le_trans (h pid hget P hP) (nodupSubsetLen ?_ ?_)
  · exact List.Nodup.filter _ (occL_nodup _ hs)
  · intro x hx
    rcases List.mem_filter.mp hx with ⟨h1, h2⟩
    refine List.mem_filter.mpr ⟨?_, h2⟩
    exact (mem_occL _ _ _).mpr (hsub _ ((mem_occL _ _ _).mp h1))

/-- On a fully listed single proposal the displaced set computes to the
over-capacity filter of the proposer's pool. -/
theorem c1_computeDispl (s : Student) (P : ResidencyProgram) (σ : MState)
    (hs : sortedKeys σ.matching.matchesList)
    (hallpool : ∀ t ∈ insertSorted s.id (occL σ.matching.matchesList P.id),
      t ∈ P.preferences) :
    computeDispl s none P none σ = .ok
      ((insertSorted s.id (occL σ.matching.matchesList P.id)).filter
        (fun t => P.capacity ≤ countBetter P.preferences
          (insertSorted s.id (occL σ.matching.matchesList P.id)) t)) := by
  have hnd : (insertSorted s.id (occL σ.matching.matchesList P.id)).Nodup :=
    nodup_of_pairwise_lt (insertSorted_sorted _ _ (occL_pairwise _ hs))
  have hpool : proposePool s none P none σ =
      insertSorted s.id (occL σ.matching.matchesList P.id) := rfl
  have hsel := select_spec P
    (insertSorted s.id (occL σ.matching.matchesList P.id)) hnd hallpool
  unfold computeDispl
  dsimp only
  rw [hpool, hsel]
  simp only [excBind_ok, excPure_eq]
  rfl

/-- In a duplicate-free single market, ids determine students. -/
theorem SM_uniq {ctx : Ctx} (hSM : SM ctx) {s1 s2 : Student}
    (h1 : Applicant.single s1 ∈ ctx.applicants)
    (h2 : Applicant.single s2 ∈ ctx.applicants) (hid : s1.id = s2.id) :
    s1 = s2 := by
  have e1 := hSM.2.2.2.2 _ h1 s1 rfl
  have e2 := hSM.2.2.2.2 _ h2 s2 rfl
  rw [hid] at e1
  exact e1.symm.trans e2

/-- Full-with-better only reads the match dict. -/
theorem FWB_congr {ctx : Ctx} {σ σ2 : MState} {s : Student} {i : Nat}
    (h : σ.matching.matchesList = σ2.matching.matchesList)
    (hf : FWB ctx σ s i) : FWB ctx σ2 s i := by
  intro pid hg P hP
  rw [← h]
  exact hf pid hg P hP

/-- The key capacity fact at the proposed program: after the pool is cut
to its `capacity` best, any student the full pool already beat at count
`capacity` sees a full house of better-ranked occupants. -/
theorem c1_keyP (P : ResidencyProgram) (σm m4 : List (Nat × Nat))
    (sidS : Nat) (hs : sortedKeys σm)
    (hoccP : ∀ x, x ∈ occL m4 P.id ↔
      x ∈ insertSorted sidS (occL σm P.id) ∧
      countBetter P.preferences (insertSorted sidS (occL σm P.id)) x
        < P.capacity)
    (hallpool : ∀ t ∈ insertSorted sidS (occL σm P.id), t ∈ P.preferences)
    (x : Nat)
    (hx : P.capacity ≤ countBetter P.preferences
      (insertSorted sidS (occL σm P.id)) x) :
    P.capacity ≤ ((occL m4 P.id).filter
      (fun t => rankIn P.preferences t < rankIn P.preferences x)).length := by
  have hpoolnd : (insertSorted sidS (occL σm P.id)).Nodup :=
    nodup_of_pairwise_lt (insertSorted_sorted _ _ (occL_pairwise _ hs))
  have hK := kept_length_eq P (insertSorted sidS (occL σm P.id)) hpoolnd hallpool
  have hpoolge : P.capacity ≤ (insertSorted sidS (occL σm P.id)).length := by
    have h1 : countBetter P.preferences (insertSorted sidS (occL σm P.id)) x ≤
        (insertSorted sidS (occL σm P.id)).length := by
      simp only [countBetter]
      exact List.length_filter_le _ _
    omega
  have hsub : ∀ t ∈ (insertSorted sidS (occL σm P.id)).filter (fun t =>
      countBetter P.preferences (insertSorted sidS (occL σm P.id)) t
        < P.capacity),
      t ∈ (occL m4 P.id).filter
        (fun t => rankIn P.preferences t < rankIn P.preferences x) := by
    intro t ht
    rcases List.mem_filter.mp ht with ⟨ht1, ht2⟩
    have ht3 : countBetter P.preferences (insertSorted sidS (occL σm P.id)) t
        < P.capacity := by simpa using ht2
    refine List.mem_filter.mpr ⟨(hoccP t).mpr ⟨ht1, ht3⟩, ?_⟩
    simp only [decide_eq_true_eq]
    exact kept_all_better P.preferences _ P.capacity hpoolnd x hx t ht1 ht3
  have hlen := nodupSubsetLen (List.Nodup.filter _ hpoolnd) hsub
  rw [hK, Nat.min_eq_left hpoolge] at hlen
  exact hlen

/-- Full houses at untouched programs carry over to the new dict. -/
theorem c1_keyNe (Q : ResidencyProgram) (σm m4 : List (Nat × Nat))
    (hs : sortedKeys σm)
    (hocc : ∀ x, x ∈ occL m4 Q.id ↔ x ∈ occL σm Q.id)
    (x : Nat)
    (hx : Q.capacity ≤ ((occL σm Q.id).filter
      (fun t => rankIn Q.preferences t < rankIn Q.preferences x)).length) :
    Q.capacity ≤ ((occL m4 Q.id).filter
      (fun t => rankIn Q.preferences t < rankIn Q.preferences x)).length := by
  refine Nat.le_trans hx
    (nodupSubsetLen (List.Nodup.filter _ (occL_nodup _ hs)) ?_)
  intro t ht
  rcases List.mem_filter.mp ht with ⟨h1, h2⟩
  exact List.mem_filter.mpr ⟨(hocc t).mpr h1, h2⟩

/-- The invariant after a rejected proposal: only the proposer's cursor
moves, and the skipped position is full with better. -/
theorem c1_rejected_inv (ctx : Ctx) (hSM : SM ctx) (s : Student)
    (P : ResidencyProgram) (pid : Nat) (σ : MState)
    (ha : Applicant.single s ∈ ctx.applicants)
    (hinv : C1Inv ctx σ)
    (hget : s.preferences.get? (σ.cursors s.id) = some pid)
    (hP : indexGet ctx.programs pid = Except.ok P)
    (hunm : ∀ v, (s.id, v) ∉ σ.matching.matchesList)
    (hscb : P.capacity ≤ countBetter P.preferences
      (insertSorted s.id (occL σ.matching.matchesList P.id)) s.id) :
    C1Inv ctx (writeCursor false s.id (σ.cursors s.id + 1) σ) := by
  obtain ⟨hminv, hMATCH, hFWB, hprog, happ, hmapp, hmprog⟩ := hinv
  have hs : sortedKeys σ.matching.matchesList := hminv.1
  refine ⟨hminv, ?_, ?_, hprog, happ, hmapp, hmprog⟩
  · intro sid pid' hmem'
    obtain ⟨s'', h1, h2, h3⟩ := hMATCH sid pid' hmem'
    refine ⟨s'', h1, h2, ?_⟩
    have hne2 : sid ≠ s.id := fun he => hunm pid' (he ▸ hmem')
    show s''.preferences.get? (if sid = s.id then _ else σ.cursors sid)
      = some pid'
    rw [if_neg hne2]
    exact h3
  · intro a' ha' s' hs' i hi
    subst hs'
    by_cases hid : s'.id = s.id
    · have hse : s' = s := SM_uniq hSM ha' ha hid
      rw [hse] at hi ⊢
      have hcur : (writeCursor false s.id (σ.cursors s.id + 1) σ).cursors s.id
          = σ.cursors s.id + 1 := by
        show (if s.id = s.id then _ else _) = _
        rw [if_pos rfl]
      rw [hcur] at hi
      rcases Nat.lt_or_ge i (σ.cursors s.id) with h4 | h4
      · exact FWB_congr rfl (hFWB _ ha s rfl i h4)
      · have hieq : i = σ.cursors s.id := by omega
        subst hieq
        intro pid'' hg'' P'' hP''
        rw [hget] at hg''
        have hpe : pid = pid'' := Option.some.inj hg''
        rw [← hpe] at hP''
        rw [hP] at hP''
        have hPe : P = P'' := Except.ok.inj hP''
        rw [← hPe]
        show P.capacity ≤ ((occL σ.matching.matchesList P.id).filter
          (fun t => rankIn P.preferences t < rankIn P.preferences s.id)).length
        have hsub : ∀ x ∈ (insertSorted s.id
            (occL σ.matching.matchesList P.id)).filter
            (fun t => rankIn P.preferences t < rankIn P.preferences s.id),
            x ∈ (occL σ.matching.matchesList P.id).filter
            (fun t => rankIn P.preferences t < rankIn P.preferences s.id) := by
          intro x hx
          rcases List.mem_filter.mp hx with ⟨hx1, hx2⟩
          rcases (mem_insertSorted _ _ _).mp hx1 with h5 | h5
          · exfalso
            rw [h5] at hx2
            simp at hx2
          · exact List.mem_filter.mpr ⟨h5, hx2⟩
        have hnd2 := List.Nodup.filter
          (fun t => decide (rankIn P.preferences t < rankIn P.preferences s.id))
          (nodup_of_pairwise_lt
            (insertSorted_sorted s.id _ (occL_pairwise P.id hs)))
        have hlen := nodupSubsetLen hnd2 hsub
        simp only [countBetter] at hscb
        omega
    · have hcur : (writeCursor false s.id (σ.cursors s.id + 1) σ).cursors s'.id
          = σ.cursors s'.id := by
        show (if s'.id = s.id then _ else _) = _
        rw [if_neg hid]
      rw [hcur] at hi
      exact FWB_congr rfl (hFWB _ ha' s' rfl i hi)

/-- A displacing proposal only comes from an unmatched proposer: a matched
student re-proposes to its own program, whose pool fits its capacity. -/
theorem c1_unmatched (ctx : Ctx) (hSM : SM ctx) (s : Student)
    (P : ResidencyProgram) (pid : Nat) (σ : MState)
    (ha : Applicant.single s ∈ ctx.applicants)
    (hinv : C1Inv ctx σ)
    (hget : s.preferences.get? (σ.cursors s.id) = some pid)
    (hP : indexGet ctx.programs pid = Except.ok P)
    (hne : (insertSorted s.id (occL σ.matching.matchesList P.id)).filter
        (fun t => P.capacity ≤ countBetter P.preferences
          (insertSorted s.id (occL σ.matching.matchesList P.id)) t) ≠ []) :
    ∀ v, (s.id, v) ∉ σ.matching.matchesList := by
  obtain ⟨hminv, hMATCH, hFWB, _, _, _, _⟩ := hinv
  have hs : sortedKeys σ.matching.matchesList := hminv.1
  intro v hv
  obtain ⟨s'', h1, h2, h3⟩ := hMATCH s.id v hv
  have hse : s'' = s := SM_uniq hSM h1 ha h2
  rw [hse] at h3
  rw [hget] at h3
  have hvp : pid = v := Option.some.inj h3
  have hocc : s.id ∈ occL σ.matching.matchesList P.id := by
    refine (mem_occL _ _ _).mpr ?_
    rw [indexGet_ok_id hP, hvp]
    exact hv
  have hpool_eq : insertSorted s.id (occL σ.matching.matchesList P.id) =
      occL σ.matching.matchesList P.id :=
    insertSorted_mem_eq _ _ (occL_pairwise _ hs) hocc
  have hcap : (occL σ.matching.matchesList P.id).length ≤ P.capacity := by
    refine hminv.2 P.id P ?_
    rw [indexGet_ok_id hP]
    exact hP
  obtain ⟨t, ht⟩ := List.exists_mem_of_ne_nil _ hne
  rcases List.mem_filter.mp ht with ⟨ht1, ht2⟩
  rw [hpool_eq] at ht1
  have ht3 : P.capacity ≤ countBetter P.preferences
      (occL σ.matching.matchesList P.id) t := by
    rw [hpool_eq] at ht2
    simpa using ht2
  have hlt := length_filter_lt
    (fun r => decide (rankIn P.preferences r < rankIn P.preferences t))
    (occL σ.matching.matchesList P.id) t ht1 (by simp)
  simp only [countBetter] at ht3
  omega

/-- Pushing market applicants preserves the single-market invariant. -/
theorem C1Inv_pushStack {ctx : Ctx} {σ : MState} (L : List Applicant)
    (hL : ∀ a ∈ L, a ∈ ctx.applicants) (h : C1Inv ctx σ) :
    C1Inv ctx (pushStack L σ) := by
  obtain ⟨h1, h2, h3, h4, h5, h6, h7⟩ := h
  refine ⟨h1, h2, ?_, h4, ?_, h6, h7⟩
  · intro a ha s hs i hi
    exact FWB_congr rfl (h3 a ha s hs i hi)
  · intro a hamem
    rcases List.mem_append.mp hamem with hx | hx
    · exact hL a (List.mem_reverse.mp hx)
    · exact h5 a hx

/-- The invariant after an accepted displacing proposal: the dict is the
accepted dict minus the displaced students, whose cursors advanced. -/
theorem c1_accepted_inv (ctx : Ctx) (hSM : SM ctx) (s : Student)
    (P : ResidencyProgram) (pid : Nat) (σ σ4 : MState) (displ : List Nat)
    (ha : Applicant.single s ∈ ctx.applicants)
    (hinv : C1Inv ctx σ)
    (hget : s.preferences.get? (σ.cursors s.id) = some pid)
    (hP : indexGet ctx.programs pid = Except.ok P)
    (hdeq : displ =
      (insertSorted s.id (occL σ.matching.matchesList P.id)).filter
        (fun t => P.capacity ≤ countBetter P.preferences
          (insertSorted s.id (occL σ.matching.matchesList P.id)) t))
    (hunm : ∀ v, (s.id, v) ∉ σ.matching.matchesList)
    (hsid_not : s.id ∉ displ)
    (hcd : computeDispl s none P none σ = .ok displ)
    (hmem4 : ∀ kv, kv ∈ σ4.matching.matchesList ↔
      kv ∈ dictSet s.id P.id σ.matching.matchesList ∧ kv.1 ∉ displ)
    (hcur41 : ∀ t, t ∉ displ → σ4.cursors t = σ.cursors t)
    (hcur42 : ∀ t ∈ displ, σ4.cursors t = σ.cursors t + 1)
    (hps4 : σ4.progStack = σ.progStack)
    (happ4 : σ4.appStack = σ.appStack)
    (hma4 : σ4.matching.applicants = σ.matching.applicants)
    (hmp4 : σ4.matching.programs = σ.matching.programs)
    (hs4 : sortedKeys σ4.matching.matchesList) :
    C1Inv ctx σ4 := by
  obtain ⟨hminv, hMATCH, hFWB, hprog, happ, hmapp, hmprog⟩ := hinv
  have hs : sortedKeys σ.matching.matchesList := hminv.1
  have hPid : P.id = pid := indexGet_ok_id hP
  have hallpool : ∀ t ∈ insertSorted s.id
      (occL σ.matching.matchesList P.id), t ∈ P.preferences := by
    intro t ht
    rcases (mem_insertSorted _ _ _).mp ht with h1 | h1
    · rw [h1]
      exact hSM.2.2.2.1 P (indexGet_mem hP) _ ha s rfl
    · obtain ⟨st, hstmem, hstid, _⟩ := hMATCH t P.id ((mem_occL _ _ _).mp h1)
      rw [← hstid]
      exact hSM.2.2.2.1 P (indexGet_mem hP) _ hstmem st rfl
  have hoccP : ∀ x, x ∈ occL σ4.matching.matchesList P.id ↔
      x ∈ insertSorted s.id (occL σ.matching.matchesList P.id) ∧
      countBetter P.preferences
        (insertSorted s.id (occL σ.matching.matchesList P.id)) x
        < P.capacity := by
    intro x
    rw [mem_occL, hmem4 (x, P.id)]
    constructor
    · rintro ⟨h1, h2⟩
      rcases (mem_dictSet _ _ _ hs _).mp h1 with h3 | ⟨h3, h4⟩
      · have hx : x = s.id := congrArg Prod.fst h3
        have hp1 : x ∈ insertSorted s.id
            (occL σ.matching.matchesList P.id) := by
          rw [hx]
          exact (mem_insertSorted _ _ _).mpr (Or.inl rfl)
        refine ⟨hp1, ?_⟩
        by_contra hge
        push_neg at hge
        exact h2 (by
          rw [hdeq]
          exact List.mem_filter.mpr ⟨hp1, by simpa using hge⟩)
      · have hp1 : x ∈ insertSorted s.id
            (occL σ.matching.matchesList P.id) :=
          (mem_insertSorted _ _ _).mpr (Or.inr ((mem_occL _ _ _).mpr h3))
        refine ⟨hp1, ?_⟩
        by_contra hge
        push_neg at hge
        exact h2 (by
          rw [hdeq]
          exact List.mem_filter.mpr ⟨hp1, by simpa using hge⟩)
    · rintro ⟨h1, h2⟩
      have hnotd : x ∉ displ := by
        rw [hdeq]
        intro hc
        rcases List.mem_filter.mp hc with ⟨_, hc2⟩
        have hc3 : P.capacity ≤ countBetter P.preferences
            (insertSorted s.id (occL σ.matching.matchesList P.id)) x := by
          simpa using hc2
        omega
      refine ⟨?_, hnotd⟩
      rcases (mem_insertSorted _ _ _).mp h1 with h3 | h3
      · exact (mem_dictSet _ _ _ hs _).mpr (Or.inl (by rw [h3]))
      · have hxm := (mem_occL _ _ _).mp h3
        refine (mem_dictSet _ _ _ hs _).mpr (Or.inr ⟨hxm, ?_⟩)
        intro he
        exact hunm P.id (he ▸ hxm)
  have hoccNe : ∀ q, q ≠ P.id → ∀ x,
      (x ∈ occL σ4.matching.matchesList q ↔
        x ∈ occL σ.matching.matchesList q) := by
    intro q hq x
    rw [mem_occL, mem_occL, hmem4 (x, q)]
    constructor
    · rintro ⟨h1, h2⟩
      rcases (mem_dictSet _ _ _ hs _).mp h1 with h3 | ⟨h3, h4⟩
      · exact absurd (congrArg Prod.snd h3) hq
      · exact h3
    · intro h1
      have hxne : x ≠ s.id := fun he => hunm q (he ▸ h1)
      refine ⟨(mem_dictSet _ _ _ hs _).mpr (Or.inr ⟨h1, hxne⟩), ?_⟩
      intro hc
      have hxo : (x, P.id) ∈ σ.matching.matchesList := by
        rw [hdeq] at hc
        rcases List.mem_filter.mp hc with ⟨hc1, _⟩
        rcases (mem_insertSorted _ _ _).mp hc1 with h5 | h5
        · exact absurd h5 hxne
        · exact (mem_occL _ _ _).mp h5
      exact hq (dict_functional hs h1 hxo)
  have hdispl_occ : ∀ t ∈ displ,
      (t, P.id) ∈ σ.matching.matchesList := by
    intro t ht
    have htne : t ≠ s.id := fun he => hsid_not (he ▸ ht)
    rw [hdeq] at ht
    rcases List.mem_filter.mp ht with ⟨ht1, _⟩
    rcases (mem_insertSorted _ _ _).mp ht1 with h5 | h5
    · exact absurd h5 htne
    · exact (mem_occL _ _ _).mp h5
  have hdispl_cb : ∀ t ∈ displ, P.capacity ≤ countBetter P.preferences
      (insertSorted s.id (occL σ.matching.matchesList P.id)) t := by
    intro t ht
    rw [hdeq] at ht
    rcases List.mem_filter.mp ht with ⟨_, ht2⟩
    simpa using ht2
  have htrans : ∀ (s2 : Student) (i : Nat), FWB ctx σ s2 i →
      FWB ctx σ4 s2 i := by
    intro s2 i h pid'' hg'' P'' hP''
    by_cases hq : P''.id = P.id
    · have hP2 : indexGet ctx.programs P''.id = Except.ok P'' := by
        rw [indexGet_ok_id hP'']
        exact hP''
      rw [hq, hPid, hP] at hP2
      have hPe : P = P'' := Except.ok.inj hP2
      have hold := h pid'' hg'' P'' hP''
      rw [← hPe] at hold ⊢
      have hx : P.capacity ≤ countBetter P.preferences
          (insertSorted s.id (occL σ.matching.matchesList P.id)) s2.id := by
        have hsub : ∀ r ∈ (occL σ.matching.matchesList P.id).filter
            (fun t => rankIn P.preferences t < rankIn P.preferences s2.id),
            r ∈ (insertSorted s.id (occL σ.matching.matchesList P.id)).filter
            (fun t => rankIn P.preferences t < rankIn P.preferences s2.id) := by
          intro r hr
          rcases List.mem_filter.mp hr with ⟨hr1, hr2⟩
          exact List.mem_filter.mpr
            ⟨(mem_insertSorted _ _ _).mpr (Or.inr hr1), hr2⟩
        have hlen := nodupSubsetLen
          (List.Nodup.filter _ (occL_nodup _ hs)) hsub
        simp only [countBetter]
        omega
      exact c1_keyP P σ.matching.matchesList σ4.matching.matchesList s.id hs
        hoccP hallpool s2.id hx
    · have hold := h pid'' hg'' P'' hP''
      exact c1_keyNe P'' σ.matching.matchesList σ4.matching.matchesList hs
        (hoccNe P''.id hq) s2.id hold
  refine ⟨?_, ?_, ?_, ?_, ?_, ?_, ?_⟩
  · refine accept_bound ctx.programs (Applicant.single s) P none σ displ
      hminv ?_ ?_ ?_ σ4.matching.matchesList hs4 ?_ ?_
    · rw [hPid]
      exact hP
    · intro pp h
      cases h
    · exact hcd
    · intro kv hkv
      exact ((hmem4 kv).mp hkv).1
    · intro t ht
      rw [dictGet_none_iff]
      intro v hv
      exact ((hmem4 (t, v)).mp hv).2 ht
  · intro sid pid' hmem'
    have h0 := (hmem4 (sid, pid')).mp hmem'
    rcases (mem_dictSet _ _ _ hs _).mp h0.1 with h3 | ⟨h3, h4⟩
    · have e1 : sid = s.id := congrArg Prod.fst h3
      have e2 : pid' = P.id := congrArg Prod.snd h3
      refine ⟨s, ha, e1.symm, ?_⟩
      rw [e1, hcur41 s.id hsid_not, hget, e2, hPid]
    · obtain ⟨s'', hm1, hm2, hm3⟩ := hMATCH sid pid' h3
      refine ⟨s'', hm1, hm2, ?_⟩
      rw [hcur41 sid h0.2]
      exact hm3
  · intro a' ha' s' hs' i hi
    subst hs'
    by_cases hd : s'.id ∈ displ
    · rw [hcur42 s'.id hd] at hi
      rcases Nat.lt_or_ge i (σ.cursors s'.id) with h4 | h4
      · exact htrans s' i (hFWB _ ha' s' rfl i h4)
      · have hieq : i = σ.cursors s'.id := by omega
        subst hieq
        intro pid'' hg'' P'' hP''
        obtain ⟨st, hst1, hst2, hst3⟩ := hMATCH s'.id P.id (hdispl_occ s'.id hd)
        have hsts : st = s' := SM_uniq hSM hst1 ha' hst2
        rw [hsts] at hst3
        rw [hst3] at hg''
        have hpe : P.id = pid'' := Option.some.inj hg''
        rw [← hpe] at hP''
        have hPP2 : indexGet ctx.programs P.id = Except.ok P := by
          rw [hPid]
          exact hP
        rw [hPP2] at hP''
        have hPe : P = P'' := Except.ok.inj hP''
        rw [← hPe]
        exact c1_keyP P σ.matching.matchesList σ4.matching.matchesList s.id hs
          hoccP hallpool s'.id (hdispl_cb s'.id hd)
    · rw [hcur41 s'.id hd] at hi
      exact htrans s' i (hFWB _ ha' s' rfl i hi)
  · rw [hps4]
    exact hprog
  · intro a h
    rw [happ4] at h
    exact happ a h
  · rw [hma4]
    exact hmapp
  · rw [hmp4]
    exact hmprog

/-- Handling a nonempty displaced set in a single market preserves the
invariant and continues with a market applicant. -/
theorem c1_handleDispl (ctx : Ctx) (hSM : SM ctx) (s : Student)
    (P : ResidencyProgram) (pid : Nat) (displ : List Nat) (σ : MState)
    (ha : Applicant.single s ∈ ctx.applicants)
    (hinv : C1Inv ctx σ)
    (hget : s.preferences.get? (σ.cursors s.id) = some pid)
    (hP : indexGet ctx.programs pid = Except.ok P)
    (hdeq : displ =
      (insertSorted s.id (occL σ.matching.matchesList P.id)).filter
        (fun t => P.capacity ≤ countBetter P.preferences
          (insertSorted s.id (occL σ.matching.matchesList P.id)) t))
    (hne : displ ≠ []) :
    C1Bump ctx (handleDispl ctx (Applicant.single s) P none displ σ) := by
  have hs : sortedKeys σ.matching.matchesList := hinv.1.1
  have hunm : ∀ v, (s.id, v) ∉ σ.matching.matchesList :=
    c1_unmatched ctx hSM s P pid σ ha hinv hget hP (by rw [← hdeq]; exact hne)
  have hMATCH := hinv.2.1
  have hallpool : ∀ t ∈ insertSorted s.id
      (occL σ.matching.matchesList P.id), t ∈ P.preferences := by
    intro t ht
    rcases (mem_insertSorted _ _ _).mp ht with h1 | h1
    · rw [h1]
      exact hSM.2.2.2.1 P (indexGet_mem hP) _ ha s rfl
    · obtain ⟨st, hstmem, hstid, _⟩ := hMATCH t P.id ((mem_occL _ _ _).mp h1)
      rw [← hstid]
      exact hSM.2.2.2.1 P (indexGet_mem hP) _ hstmem st rfl
  have hcd : computeDispl s none P none σ = .ok displ := by
    rw [hdeq]
    exact c1_computeDispl s P σ hs hallpool
  simp only [handleDispl]
  dsimp only [Applicant.proposalPair]
  simp only [Bool.or_false]
  by_cases hc : displ.contains s.id = true
  · rw [if_pos hc]
    have hsmem : s.id ∈ displ := by simpa using hc
    have hscb : P.capacity ≤ countBetter P.preferences
        (insertSorted s.id (occL σ.matching.matchesList P.id)) s.id := by
      rw [hdeq] at hsmem
      rcases List.mem_filter.mp hsmem with ⟨_, h2⟩
      simpa using h2
    exact ⟨ha, c1_rejected_inv ctx hSM s P pid σ ha hinv hget hP hunm hscb⟩
  · rw [if_neg hc]
    have hsid_not : s.id ∉ displ := by simpa using hc
    have hsingL : displ.filter (fun sid => !inPartnerMap ctx sid) = displ := by
      refine List.filter_eq_self.mpr ?_
      intro a _
      rw [c1_inPm_false hSM.2.1 a]
      rfl
    have hnd : displ.Nodup := by
      rw [hdeq]
      exact List.Nodup.filter _
        (nodup_of_pairwise_lt (insertSorted_sorted _ _ (occL_pairwise _ hs)))
    have hdispl_occ : ∀ t ∈ displ, (t, P.id) ∈ σ.matching.matchesList := by
      intro t ht
      have htne : t ≠ s.id := fun he => hsid_not (he ▸ ht)
      rw [hdeq] at ht
      rcases List.mem_filter.mp ht with ⟨ht1, _⟩
      rcases (mem_insertSorted _ _ _).mp ht1 with h5 | h5
      · exact absurd h5 htne
      · exact (mem_occL _ _ _).mp h5
    have happ_of_displ : ∀ t ∈ displ,
        Applicant.single (studentOf ctx t) ∈ ctx.applicants := by
      intro t ht
      obtain ⟨s'', hm1, hm2, _⟩ := hMATCH t P.id (hdispl_occ t ht)
      have hso : studentOf ctx s''.id = s'' := hSM.2.2.2.2 _ hm1 s'' rfl
      rw [hm2] at hso
      rw [hso]
      exact hm1
    have hs3 : sortedKeys (acceptMatches (Applicant.single s) P none
        σ).matching.matchesList := acceptMatches_sorted _ _ _ _ hs
    have hget3 : ∀ t ∈ displ, dictGet t (acceptMatches (Applicant.single s) P
        none σ).matching.matchesList ≠ none := by
      intro t ht hnone
      rw [dictGet_none_iff] at hnone
      refine hnone P.id ?_
      rw [acceptMatches_m]
      exact (mem_dictSet _ _ _ hs _).mpr
        (Or.inr ⟨hdispl_occ t ht, fun he => hsid_not (he ▸ ht)⟩)
    obtain ⟨σ4, hok, hmem4, hcur41, hcur42, hps4, has4, hma4, hmp4⟩ :=
      rejectSingles_ok_spec displ (acceptMatches (Applicant.single s) P none σ)
        hs3 hnd hget3
    have hs4 : sortedKeys σ4.matching.matchesList := by
      have h := (rejectSingles_m displ
        (acceptMatches (Applicant.single s) P none σ) hs3).1.1
      rw [stateRes_ok hok] at h
      exact h
    simp only [acceptMatches_m] at hmem4
    have hinv4 : C1Inv ctx σ4 :=
      c1_accepted_inv ctx hSM s P pid σ σ4 displ ha hinv hget hP hdeq hunm
        hsid_not hcd hmem4 hcur41 hcur42 hps4 has4 hma4 hmp4 hs4
    rw [hsingL]
    rw [hok]
    dsimp only
    rw [if_pos rfl]
    cases displ with
    | nil => exact absurd rfl hne
    | cons d drest =>
      refine ⟨happ_of_displ d (List.mem_cons_self _ _), ?_⟩
      refine C1Inv_pushStack _ ?_ hinv4
      intro a hamem
      rcases List.mem_map.mp hamem with ⟨t, ht, hteq⟩
      rw [← hteq]
      exact happ_of_displ t (List.mem_cons_of_mem _ ht)

/-- Rewriting a binding already present leaves the dict unchanged. -/
theorem dictSet_self (s p : Nat) : ∀ (m : List (Nat × Nat)), sortedKeys m →
    (s, p) ∈ m → dictSet s p m = m := by
  intro m
  induction m with
  | nil =>
    intro _ h
    cases h
  | cons kv rest ih =>
    intro hs hmem
    obtain ⟨k, v⟩ := kv
    rcases List.mem_cons.mp hmem with h1 | h1
    · have hsk : s = k := congrArg Prod.fst h1
      have hpv : p = v := congrArg Prod.snd h1
      simp only [dictSet]
      rw [if_neg (by omega : ¬ s < k), if_pos hsk, hsk, hpv]
    · have hlt : k < s := (List.pairwise_cons.mp hs).1 (s, p) h1
      simp only [dictSet]
      rw [if_neg (by omega : ¬ s < k), if_neg (by omega : ¬ s = k),
        ih (List.pairwise_cons.mp hs).2 h1]

/-- In a single market, every member of a proposal pool is on the
program's list. -/
theorem c1_allpool {ctx : Ctx} (hSM : SM ctx) {s : Student}
    {P : ResidencyProgram} {pid : Nat} {σ : MState}
    (ha : Applicant.single s ∈ ctx.applicants)
    (hM : ∀ sid pid2, (sid, pid2) ∈ σ.matching.matchesList →
      ∃ s2, Applicant.single s2 ∈ ctx.applicants ∧ s2.id = sid ∧
        s2.preferences.get? (σ.cursors sid) = some pid2)
    (hP : indexGet ctx.programs pid = Except.ok P) :
    ∀ t ∈ insertSorted s.id (occL σ.matching.matchesList P.id),
      t ∈ P.preferences := by
  intro t ht
  rcases (mem_insertSorted _ _ _).mp ht with h1 | h1
  · rw [h1]
    exact hSM.2.2.2.1 P (indexGet_mem hP) _ ha s rfl
  · obtain ⟨st, hstmem, hstid, _⟩ := hM t P.id ((mem_occL _ _ _).mp h1)
    rw [← hstid]
    exact hSM.2.2.2.1 P (indexGet_mem hP) _ hstmem st rfl

/-- An accepted proposal displacing nobody preserves the single-market
invariant. -/
theorem c1_accept_empty (ctx : Ctx) (hSM : SM ctx) (s : Student)
    (P : ResidencyProgram) (pid : Nat) (σ : MState)
    (ha : Applicant.single s ∈ ctx.applicants)
    (hinv : C1Inv ctx σ)
    (hget : s.preferences.get? (σ.cursors s.id) = some pid)
    (hP : indexGet ctx.programs pid = Except.ok P)
    (hfe : (insertSorted s.id (occL σ.matching.matchesList P.id)).filter
        (fun t => P.capacity ≤ countBetter P.preferences
          (insertSorted s.id (occL σ.matching.matchesList P.id)) t) = []) :
    C1Inv ctx (acceptMatches (Applicant.single s) P none σ) := by
  have hs : sortedKeys σ.matching.matchesList := hinv.1.1
  by_cases hm : ∃ v, (s.id, v) ∈ σ.matching.matchesList
  · obtain ⟨v, hv⟩ := hm
    obtain ⟨s'', h1, h2, h3⟩ := hinv.2.1 s.id v hv
    have hse : s'' = s := SM_uniq hSM h1 ha h2
    rw [hse, hget] at h3
    have hvp : v = P.id := by
      rw [indexGet_ok_id hP]
      exact (Option.some.inj h3).symm
    rw [hvp] at hv
    have hmeq : (acceptMatches (Applicant.single s) P none
        σ).matching.matchesList = σ.matching.matchesList := by
      rw [acceptMatches_m]
      exact dictSet_self _ _ _ hs hv
    obtain ⟨hminv, hMATCH, hFWB, hprog, happ, hmapp, hmprog⟩ := hinv
    refine ⟨?_, ?_, ?_, hprog, happ, hmapp, hmprog⟩
    · rw [hmeq]
      exact hminv
    · intro sid pid' h
      rw [hmeq] at h
      exact hMATCH sid pid' h
    · intro a' ha' s' hs' i hi
      exact FWB_congr hmeq.symm (hFWB a' ha' s' hs' i hi)
  · push_neg at hm
    refine c1_accepted_inv ctx hSM s P pid σ
      (acceptMatches (Applicant.single s) P none σ) [] ha hinv hget hP
      hfe.symm hm (by simp) ?_ ?_ (fun t _ => rfl) (by simp) rfl rfl rfl rfl
      (acceptMatches_sorted _ _ _ _ hs)
    · rw [← hfe]
      exact c1_computeDispl s P σ hs (c1_allpool hSM ha hinv.2.1 hP)
    · intro kv
      rw [acceptMatches_m]
      simp

/-- The proposal loop of `apply` preserves the single-market invariant:
it ends in a normal state or a non-cycle exception. -/
theorem c1_applyGo (ctx : Ctx) (hSM : SM ctx) :
    ∀ (fuel : Nat) (a : Applicant) (σ : MState),
    a ∈ ctx.applicants → C1Inv ctx σ →
    C1Res ctx (applyGo ctx fuel a σ) := by
  intro fuel
  induction fuel with
  | zero =>
    intro a σ _ _
    show PyErr.outOfFuel ≠ PyErr.valueError
    intro h
    cases h
  | succ fuel ih =>
    intro a σ ha hinv
    obtain ⟨s, hse⟩ := hSM.1 a ha
    subst hse
    have hs : sortedKeys σ.matching.matchesList := hinv.1.1
    simp only [applyGo, mayStillApply]
    by_cases hmay : σ.cursors s.id < s.preferences.length
    · rw [if_neg (by simp [hmay])]
      obtain ⟨pid, hget⟩ : ∃ pid,
          s.preferences.get? (σ.cursors s.id) = some pid :=
        ⟨_, List.get?_eq_get hmay⟩
      have hpidmem : pid ∈ s.preferences := List.get?_mem hget
      obtain ⟨P, hP⟩ := hSM.2.2.1 _ ha s rfl pid hpidmem
      have hnta : nextToApply ctx (Applicant.single s) σ =
          Except.ok (P, none) := by
        simp only [nextToApply, toApply, hget, hP, excBind_ok, excPure_eq]
      rw [hnta]
      dsimp only [Applicant.proposalPair]
      rw [c1_computeDispl s P σ hs (c1_allpool hSM ha hinv.2.1 hP)]
      dsimp only
      generalize hD : (insertSorted s.id
          (occL σ.matching.matchesList P.id)).filter
          (fun t => P.capacity ≤ countBetter P.preferences
            (insertSorted s.id (occL σ.matching.matchesList P.id)) t) = D
      by_cases hemp : D.isEmpty = true
      · rw [if_pos hemp]
        have hDe : D = [] := by simpa using hemp
        exact c1_accept_empty ctx hSM s P pid σ ha hinv hget hP
          (hD.trans hDe)
      · rw [if_neg hemp]
        have hne : D ≠ [] := by
          intro h
          exact hemp (by simp [h])
        have hhd := c1_handleDispl ctx hSM s P pid D σ ha hinv hget hP
          hD.symm hne
        cases hh : handleDispl ctx (Applicant.single s) P none D σ with
        | next a2 σ2 =>
          rw [hh] at hhd
          exact ih a2 σ2 hhd.1 hhd.2
        | err e σ2 =>
          rw [hh] at hhd
          exact hhd
    · rw [if_pos (by simp [hmay])]
      exact hinv

/-- The applicant-stack drain loop preserves the single-market invariant
and empties the stack. -/
theorem c1_drainGo (ctx : Ctx) (hSM : SM ctx) :
    ∀ (fuel : Nat) (σ : MState), C1Inv ctx σ →
    C1Res ctx (drainGo ctx fuel σ) ∧
    ∀ σf, drainGo ctx fuel σ = .ok σf → σf.appStack = [] := by
  intro fuel
  induction fuel with
  | zero =>
    intro σ hinv
    refine ⟨?_, ?_⟩
    · show PyErr.outOfFuel ≠ PyErr.valueError
      intro h
      cases h
    · intro σf hf
      cases hf
  | succ fuel ih =>
    intro σ hinv
    cases hstk : σ.appStack with
    | nil =>
      have hgoal : drainGo ctx (fuel + 1) σ = .ok σ := by
        simp only [drainGo, hstk]
      rw [hgoal]
      refine ⟨hinv, ?_⟩
      intro σf hf
      injection hf with h
      rw [← h]
      exact hstk
    | cons a rest =>
      have hA : a ∈ ctx.applicants := hinv.2.2.2.2.1 a
        (by rw [hstk]; exact List.mem_cons_self _ _)
      have hinv' : C1Inv ctx { σ with appStack := rest } := by
        obtain ⟨h1, h2, h3, h4, h5, h6, h7⟩ := hinv
        refine ⟨h1, h2, ?_, h4, ?_, h6, h7⟩
        · intro a2 ha2 s2 hs2 i hi
          exact FWB_congr rfl (h3 a2 ha2 s2 hs2 i hi)
        · intro x hx
          refine h5 x ?_
          rw [hstk]
          exact List.mem_cons_of_mem _ hx
      have hres := c1_applyGo ctx hSM fuel a { σ with appStack := rest }
        hA hinv'
      cases hap : applyGo ctx fuel a { σ with appStack := rest } with
      | ok σ1 =>
        rw [hap] at hres
        have hgoal : drainGo ctx (fuel + 1) σ = drainGo ctx fuel σ1 := by
          simp only [drainGo, hstk, hap]
        rw [hgoal]
        exact ih σ1 hres
      | err e σ1 =>
        rw [hap] at hres
        have hgoal : drainGo ctx (fuel + 1) σ = .err e σ1 := by
          simp only [drainGo, hstk, hap]
        rw [hgoal]
        exact ⟨hres, fun σf hf => by cases hf⟩

/-- The cycle log does not enter the single-market invariant. -/
theorem C1Inv_log {ctx : Ctx} {σ : MState} (L : List SnapKey)
    (h : C1Inv ctx σ) : C1Inv ctx { σ with log := L } := by
  obtain ⟨h1, h2, h3, h4, h5, h6, h7⟩ := h
  exact ⟨h1, h2, fun a ha s hs i hi => FWB_congr rfl (h3 a ha s hs i hi),
    h4, h5, h6, h7⟩

/-- The outer `process_one` loop preserves the single-market invariant:
with a fresh log (or already-drained stacks) the single snapshot it takes
never repeats, so no cycle signal arises. -/
theorem c1_processOneGo (ctx : Ctx) (hSM : SM ctx) :
    ∀ (fuel : Nat) (σ : MState), C1Inv ctx σ →
    (σ.log = [] ∨ (σ.appStack = [] ∧ σ.progStack = [])) →
    C1Res ctx (processOneGo ctx fuel σ) := by
  intro fuel
  induction fuel with
  | zero =>
    intro σ _ _
    show PyErr.outOfFuel ≠ PyErr.valueError
    intro h
    cases h
  | succ fuel ih =>
    intro σ hinv hlog
    simp only [processOneGo]
    by_cases hst : (σ.appStack.isEmpty && σ.progStack.isEmpty) = true
    · rw [if_pos hst]
      exact hinv
    · rw [if_neg hst]
      have hlnil : σ.log = [] := by
        rcases hlog with h | ⟨h1, h2⟩
        · exact h
        · exact absurd (by rw [h1, h2]; rfl) hst
      have hdr := c1_drainGo ctx hSM fuel σ hinv
      cases hd : drainGo ctx fuel σ with
      | ok σ1 =>
        rw [hd] at hdr
        have hinv1 : C1Inv ctx σ1 := hdr.1
        have hstk1 : σ1.appStack = [] := hdr.2 σ1 rfl
        have hl1 : σ1.log = σ.log := by
          have hl := log_drainGo ctx fuel σ
          rw [stateRes_ok hd] at hl
          exact hl
        have hps1 : σ1.progStack = [] := hinv1.2.2.2.1
        have hpg : programStep ctx σ1 = .ok σ1 := by
          simp only [programStep, hps1]
        have hsn : snapshotStep σ1 =
            .ok { σ1 with log := snapKeyOf σ1 :: σ1.log } := by
          simp only [snapshotStep]
          rw [if_neg (by rw [hl1, hlnil]; exact List.not_mem_nil _)]
        dsimp only
        rw [hpg]
        dsimp only
        rw [hsn]
        dsimp only
        refine ih _ (C1Inv_log _ hinv1) (Or.inr ⟨hstk1, hps1⟩)
      | err e σ1 =>
        rw [hd] at hdr
        exact hdr.1

/-- `process_one` on a market applicant preserves the invariant. -/
theorem c1_processOne (ctx : Ctx) (hSM : SM ctx) (fuel : Nat)
    (app : Applicant) (σ : MState) (happ : app ∈ ctx.applicants)
    (hinv : C1Inv ctx σ) : C1Res ctx (processOne ctx fuel app σ) := by
  refine c1_processOneGo ctx hSM fuel _ ?_ (Or.inl rfl)
  obtain ⟨h1, h2, h3, h4, h5, h6, h7⟩ := hinv
  refine ⟨h1, h2, ?_, rfl, ?_, h6, h7⟩
  · intro a2 ha2 s2 hs2 i hi
    exact FWB_congr rfl (h3 a2 ha2 s2 hs2 i hi)
  · intro x hx
    rw [List.mem_singleton] at hx
    rw [hx]
    exact happ

/-- The per-applicant driver loop preserves the invariant; in a single
market the cycle signal never fires, so no `invalidate` happens. -/
theorem c1_runGo (ctx : Ctx) (hSM : SM ctx) (fuel : Nat) :
    ∀ (l : List Applicant) (σ : MState), (∀ a ∈ l, a ∈ ctx.applicants) →
    C1Inv ctx σ → C1Res ctx (runGo ctx fuel l σ) := by
  intro l
  induction l with
  | nil =>
    intro σ _ hinv
    exact hinv
  | cons a rest ih =>
    intro σ hl hinv
    have hpo := c1_processOne ctx hSM fuel a σ (hl a (List.mem_cons_self _ _))
      hinv
    simp only [runGo]
    cases hp : processOne ctx fuel a σ with
    | ok σ1 =>
      rw [hp] at hpo
      exact ih σ1 (fun x hx => hl x (List.mem_cons_of_mem _ hx)) hpo
    | err e σ1 =>
      rw [hp] at hpo
      cases e with
      | valueError => exact absurd rfl hpo
      | keyError => exact hpo
      | indexError => exact hpo
      | assertionError => exact hpo
      | outOfFuel => exact hpo

/-- Members of the id-dedup fold come from the accumulator or the list. -/
theorem dedup_fold_mem : ∀ (l acc : List ResidencyProgram)
    (x : ResidencyProgram),
    x ∈ l.foldl (fun acc p =>
      if acc.any (fun q => q.id = p.id) then acc else acc ++ [p]) acc →
    x ∈ acc ∨ x ∈ l := by
  intro l
  induction l with
  | nil =>
    intro acc x h
    exact Or.inl h
  | cons p rest ih =>
    intro acc x h
    simp only [List.foldl_cons] at h
    rcases ih _ x h with h1 | h1
    · by_cases hc : acc.any (fun q => q.id = p.id) = true
      · rw [if_pos hc] at h1
        exact Or.inl h1
      · rw [if_neg hc] at h1
        rcases List.mem_append.mp h1 with h2 | h2
        · exact Or.inl h2
        · rw [List.mem_singleton] at h2
          exact Or.inr (h2 ▸ List.mem_cons_self _ _)
    · exact Or.inr (List.mem_cons_of_mem _ h1)

/-- Every program the checker iterates over is its own resolution in the
index: `dict.values()` yields exactly the stored (last-written) records. -/
theorem mem_indexValues {progs : List ResidencyProgram}
    {prog : ResidencyProgram} (h : prog ∈ indexValues progs) :
    indexGet progs prog.id = .ok prog := by
  unfold indexValues at h
  rcases List.mem_map.mp h with ⟨p, hp, hpe⟩
  have hpmem : p ∈ progs := by
    rcases dedup_fold_mem progs [] p hp with h1 | h1
    · cases h1
    · exact h1
  obtain ⟨q, hq⟩ := indexGet_isOk_of_mem hpmem rfl
  rw [hq] at hpe
  have hqe : q = prog := hpe
  rw [← hqe]
  rw [indexGet_ok_id hq]
  exact hq

/-- In a single market satisfying the invariant, the pairwise checker
test comes back false for every applicant. -/
theorem c1_unstableWith (ctx : Ctx) (hSM : SM ctx) (σ : MState)
    (hinv : C1Inv ctx σ) (prog : ResidencyProgram)
    (hpr : indexGet ctx.programs prog.id = Except.ok prog)
    (idx : List ResidencyProgram) (a : Applicant) (ha : a ∈ ctx.applicants) :
    unstableWith prog σ.matching idx a = .ok false := by
  obtain ⟨s, hse⟩ := hSM.1 a ha
  subst hse
  have hs : sortedKeys σ.matching.matchesList := hinv.1.1
  simp only [unstableWith]
  dsimp only [Applicant.proposalPair]
  by_cases hm2 : (dictGet s.id σ.matching.matchesList).isNone = true
  · rw [if_pos hm2]
    rfl
  · rw [if_neg hm2]
    have hpool : unionSorted [s.id] (studentsMatchedTo σ.matching prog.id) =
        insertSorted s.id (occL σ.matching.matchesList prog.id) := rfl
    have hnd : (insertSorted s.id
        (occL σ.matching.matchesList prog.id)).Nodup :=
      nodup_of_pairwise_lt (insertSorted_sorted _ _ (occL_pairwise _ hs))
    have hallp := c1_allpool hSM ha hinv.2.1 hpr
    have hsel := select_spec prog
      (insertSorted s.id (occL σ.matching.matchesList prog.id)) hnd hallp
    have hpref : prog.prefers σ.matching [s.id] = .ok
        (!((insertSorted s.id (occL σ.matching.matchesList prog.id)).filter
          (fun t => prog.capacity ≤ countBetter prog.preferences
            (insertSorted s.id (occL σ.matching.matchesList prog.id)) t)
          ).contains s.id) := by
      simp only [ResidencyProgram.prefers]
      rw [hpool, hsel]
      simp only [excBind_ok, excPure_eq, List.all_cons, List.all_nil,
        Bool.and_true]
    rw [hpref]
    simp only [excBind_ok]
    by_cases hcont : ((insertSorted s.id
        (occL σ.matching.matchesList prog.id)).filter
        (fun t => prog.capacity ≤ countBetter prog.preferences
          (insertSorted s.id (occL σ.matching.matchesList prog.id)) t)
        ).contains s.id = true
    · rw [if_neg (by rw [hcont]; decide)]
      rfl
    · rw [if_pos (by rw [Bool.not_eq_true] at hcont; rw [hcont]; decide)]
      suffices hsp : s.prefers prog.id σ.matching = false by
        rw [hsp]
        rfl
      cases hdg : dictGet s.id σ.matching.matchesList with
      | none =>
        rw [hdg] at hm2
        exact absurd rfl hm2
      | some mid =>
        have hmem : (s.id, mid) ∈ σ.matching.matchesList :=
          dictGet_some_mem _ _ _ hdg
        obtain ⟨s'', h1, h2, h3⟩ := hinv.2.1 s.id mid hmem
        have hse2 : s'' = s := SM_uniq hSM h1 ha h2
        rw [hse2] at h3
        have hcontm : s.preferences.contains mid = true :=
          List.elem_eq_true_of_mem (List.get?_mem h3)
        simp only [Student.prefers, hdg]
        rw [if_neg (by rw [hcontm]; decide)]
        obtain ⟨j, hj, hjle⟩ :=
          firstIdx_le_of_get? s.preferences (σ.cursors s.id) mid h3
        rw [hj]
        cases hfi : firstIdx s.preferences prog.id with
        | none => rfl
        | some i =>
          by_cases hij : i < j
          · exfalso
            have hicur : i < σ.cursors s.id := lt_of_lt_of_le hij hjle
            have hfwb := hinv.2.2.1 _ ha s rfl i hicur
            have hgi : s.preferences.get? i = some prog.id :=
              firstIdx_get? _ _ _ hfi
            have hocc := hfwb prog.id hgi prog hpr
            have hsub : ∀ r ∈ (occL σ.matching.matchesList prog.id).filter
                (fun t => rankIn prog.preferences t
                  < rankIn prog.preferences s.id),
                r ∈ (insertSorted s.id
                  (occL σ.matching.matchesList prog.id)).filter
                (fun t => rankIn prog.preferences t
                  < rankIn prog.preferences s.id) := by
              intro r hr
              rcases List.mem_filter.mp hr with ⟨hr1, hr2⟩
              exact List.mem_filter.mpr
                ⟨(mem_insertSorted _ _ _).mpr (Or.inr hr1), hr2⟩
            have hlen := nodupSubsetLen
              (List.Nodup.filter _ (occL_nodup _ hs)) hsub
            have hcb : prog.capacity ≤ countBetter prog.preferences
                (insertSorted s.id (occL σ.matching.matchesList prog.id))
                s.id := by
              simp only [countBetter]
              omega
            have hsin : s.id ∈ insertSorted s.id
                (occL σ.matching.matchesList prog.id) :=
              (mem_insertSorted _ _ _).mpr (Or.inl rfl)
            have hfmem : s.id ∈ (insertSorted s.id
                (occL σ.matching.matchesList prog.id)).filter
                (fun t => prog.capacity ≤ countBetter prog.preferences
                  (insertSorted s.id
                    (occL σ.matching.matchesList prog.id)) t) :=
              List.mem_filter.mpr ⟨hsin, by simpa using hcb⟩
            exact hcont (List.elem_eq_true_of_mem hfmem)
          · simp [hij]

/-- The per-applicant checker loop collects nobody in a single market
satisfying the invariant. -/
theorem c1_filterUnstable (ctx : Ctx) (hSM : SM ctx) (σ : MState)
    (hinv : C1Inv ctx σ) (prog : ResidencyProgram)
    (hpr : indexGet ctx.programs prog.id = Except.ok prog)
    (idx : List ResidencyProgram) :
    ∀ (l : List Applicant), (∀ a ∈ l, a ∈ ctx.applicants) →
    filterUnstable prog σ.matching idx l = .ok [] := by
  intro l
  induction l with
  | nil =>
    intro _
    rfl
  | cons a rest ih =>
    intro hl
    simp only [filterUnstable]
    rw [c1_unstableWith ctx hSM σ hinv prog hpr idx a
      (hl a (List.mem_cons_self _ _))]
    simp only [excBind_ok]
    rw [ih (fun x hx => hl x (List.mem_cons_of_mem _ hx))]
    simp only [excBind_ok, excPure_eq]
    rfl

/-- `unstable_pairs` is empty for every program of a single market
satisfying the invariant. -/
theorem c1_unstablePairs (ctx : Ctx) (hSM : SM ctx) (σ : MState)
    (hinv : C1Inv ctx σ) (prog : ResidencyProgram)
    (hpr : indexGet ctx.programs prog.id = Except.ok prog)
    (idx : List ResidencyProgram) :
    unstablePairs prog σ.matching idx = .ok [] := by
  simp only [unstablePairs]
  rw [hinv.2.2.2.2.2.1]
  rw [c1_filterUnstable ctx hSM σ hinv prog hpr idx ctx.applicants
    (fun a ha => ha)]
  rfl

/-- The program comprehension of `find_unstable_pairs` collects nothing
across the resolved index of a single market satisfying the invariant. -/
theorem c1_collectPairs (ctx : Ctx) (hSM : SM ctx) (σ : MState)
    (hinv : C1Inv ctx σ) (idx : List ResidencyProgram) :
    ∀ (l : List ResidencyProgram),
    (∀ prog ∈ l, indexGet ctx.programs prog.id = Except.ok prog) →
    collectPairs σ.matching idx l = .ok [] := by
  intro l
  induction l with
  | nil =>
    intro _
    rfl
  | cons prog rest ih =>
    intro hl
    simp only [collectPairs]
    rw [c1_unstablePairs ctx hSM σ hinv prog
      (hl prog (List.mem_cons_self _ _)) idx]
    simp only [excBind_ok]
    rw [ih (fun x hx => hl x (List.mem_cons_of_mem _ hx))]
    simp only [excBind_ok, excPure_eq]
    rfl

/-- The checker reports no unstable pair on a single-market state
satisfying the invariant. -/
theorem c1_findUnstablePairs (ctx : Ctx) (hSM : SM ctx) (σ : MState)
    (hinv : C1Inv ctx σ) : findUnstablePairs σ.matching = .ok [] := by
  simp only [findUnstablePairs]
  rw [hinv.2.2.2.2.2.2]
  refine c1_collectPairs ctx hSM σ hinv ctx.programs
    (indexValues ctx.programs) ?_
  intro prog hprog
  exact mem_indexValues hprog

/-- **Claim C1 (amended).** For every market with no couples whose
student preferences reference only known program ids, whose programs
each rank every student, whose student ids are pairwise distinct, and
whose students start with `best_unrejected = 0` (the dataclass default),
`find_unstable_pairs` applied to the matching `stable_matching` returns
is empty. -/
theorem C1_amended_stability (apps : List Applicant)
    (progs : List ResidencyProgram) (fuel : Nat) (σf : MState)
    (hclass : c1Class apps progs)
    (hzero : ∀ s ∈ collectStudents apps, s.best_unrejected = 0)
    (hdids : (collectStudents apps).Pairwise (fun a b => a.id ≠ b.id))
    (hrun : stableMatching apps progs fuel = .ok σf) :
    findUnstablePairs σf.matching = .ok [] := by
  have hSM := icInit_SM apps progs hclass hdids
  have hinv0 := icInit_C1Inv apps progs hzero
  have hres := c1_runGo (icInit apps progs).1 hSM fuel
    (icInit apps progs).1.applicants (icInit apps progs).2
    (fun a ha => ha) hinv0
  simp only [stableMatching] at hrun
  rw [hrun] at hres
  exact c1_findUnstablePairs (icInit apps progs).1 hSM σf hres

/-- C1 amended-claim witness: the two-student, two-program market where
the second student is displaced once; the run returns normally and the
checker reports no unstable pair. -/
theorem C1_amended_witness :
    c1Class c1wApps c1wProgs ∧
    findUnstablePairs c1wState.matching = .ok [] :=
  ⟨by unfold c1Class; decide,
    C1_amended_stability c1wApps c1wProgs 50 c1wState
      (by unfold c1Class; decide) (by decide) (by decide) rfl⟩

/-- `ranksOf` succeeds only when every pool member is on the list. -/
theorem ranksOf_ok_all (prefs : List Nat) : ∀ (pool : List Nat)
    (r : List (Nat × Nat)), ranksOf prefs pool = .ok r →
    ∀ t ∈ pool, t ∈ prefs := by
  intro pool
  induction pool with
  | nil =>
    intro r _ t ht
    cases ht
  | cons x rest ih =>
    intro r h t ht
    cases hf : firstIdx prefs x with
    | none =>
      simp only [ranksOf, hf] at h
      exact Except.noConfusion h
    | some idx =>
      simp only [ranksOf, hf] at h
      rcases List.mem_cons.mp ht with h1 | h1
      · rw [h1]
        exact List.get?_mem (firstIdx_get? _ _ _ hf)
      · cases hr : ranksOf prefs rest with
        | error e =>
          rw [hr, excBind_err] at h
          exact Except.noConfusion h
        | ok tl =>
          exact ih tl hr t h1

/-- Everything `unstable_pairs` reports tested true. -/
theorem unstablePairs_mem_true (prog : ResidencyProgram) (m : Matching)
    (idx : List ResidencyProgram) (r : List Applicant)
    (h : unstablePairs prog m idx = .ok r) : ∀ a ∈ r,
    unstableWith prog m idx a = .ok true := by
  intro a ha
  simp only [unstablePairs] at h
  cases hf : filterUnstable prog m idx m.applicants with
  | error e =>
    rw [hf, excBind_err] at h
    exact Except.noConfusion h
  | ok fl =>
    rw [hf] at h
    have h2 : applicantSet fl = r := by
      simp only [excBind_ok, pure, Except.pure] at h
      exact Except.ok.inj h
    rw [← h2] at ha
    exact (filterUnstable_mem hf (mem_of_mem_applicantSet ha)).2

/-- A true single-applicant test means: matched, preferred by the program
in the pool sense, and preferring the program. -/
theorem unstableWith_true_single (prog : ResidencyProgram) (m : Matching)
    (idx : List ResidencyProgram) (s : Student)
    (h : unstableWith prog m idx (.single s) = .ok true) :
    (∃ mid, dictGet s.id m.matchesList = some mid) ∧
    prog.prefers m [s.id] = .ok true ∧
    s.prefers prog.id m = true := by
  simp only [unstableWith] at h
  dsimp only [Applicant.proposalPair] at h
  by_cases hm : (dictGet s.id m.matchesList).isNone = true
  · rw [if_pos hm] at h
    simp [pure, Except.pure] at h
  · rw [if_neg hm] at h
    have hmid : ∃ mid, dictGet s.id m.matchesList = some mid := by
      cases hd : dictGet s.id m.matchesList with
      | none =>
        rw [hd] at hm
        exact absurd rfl hm
      | some mid => exact ⟨mid, rfl⟩
    cases hp : prog.prefers m [s.id] with
    | error e =>
      rw [hp, excBind_err] at h
      exact Except.noConfusion h
    | ok b =>
      rw [hp, excBind_ok] at h
      cases b with
      | false =>
        rw [if_neg (by decide)] at h
        exact Bool.noConfusion (Except.ok.inj h)
      | true =>
        rw [if_pos rfl] at h
        have h2 : s.prefers prog.id m = true := by
          simp only [pure, Except.pure] at h
          exact Except.ok.inj h
        exact ⟨hmid, rfl, h2⟩

/-- A true pool test puts the student among the program's top `capacity`
of its occupants joined with the student, all of them on the program's
list. -/
theorem prefers_true_pool (prog : ResidencyProgram) (m : Matching)
    (s : Student) (hs : sortedKeys m.matchesList)
    (h : prog.prefers m [s.id] = .ok true) :
    countBetter prog.preferences
      (insertSorted s.id (occL m.matchesList prog.id)) s.id
      < prog.capacity ∧
    (∀ t ∈ insertSorted s.id (occL m.matchesList prog.id),
      t ∈ prog.preferences) := by
  have hpool : unionSorted [s.id] (studentsMatchedTo m prog.id) =
      insertSorted s.id (occL m.matchesList prog.id) := rfl
  cases hro : ranksOf prog.preferences
      (insertSorted s.id (occL m.matchesList prog.id)) with
  | error e =>
    have hperr : prog.prefers m [s.id] = .error e := by
      simp only [ResidencyProgram.prefers, ResidencyProgram.select, hpool,
        hro, excBind_err]
    rw [hperr] at h
    exact Except.noConfusion h
  | ok ranked =>
    have hall := ranksOf_ok_all prog.preferences _ ranked hro
    have hnd : (insertSorted s.id (occL m.matchesList prog.id)).Nodup :=
      nodup_of_pairwise_lt (insertSorted_sorted _ _ (occL_pairwise _ hs))
    have hsel := select_spec prog
      (insertSorted s.id (occL m.matchesList prog.id)) hnd hall
    have hpref : prog.prefers m [s.id] = .ok
        (!((insertSorted s.id (occL m.matchesList prog.id)).filter
          (fun t => prog.capacity ≤ countBetter prog.preferences
            (insertSorted s.id (occL m.matchesList prog.id)) t)
          ).contains s.id) := by
      simp only [ResidencyProgram.prefers]
      rw [hpool, hsel]
      simp only [excBind_ok, excPure_eq, List.all_cons, List.all_nil,
        Bool.and_true]
    rw [hpref] at h
    have h2 := Except.ok.inj h
    refine ⟨?_, hall⟩
    by_contra hge
    push_neg at hge
    have hsin : s.id ∈ insertSorted s.id (occL m.matchesList prog.id) :=
      (mem_insertSorted _ _ _).mpr (Or.inl rfl)
    have hfmem : s.id ∈ (insertSorted s.id
        (occL m.matchesList prog.id)).filter
        (fun t => prog.capacity ≤ countBetter prog.preferences
          (insertSorted s.id (occL m.matchesList prog.id)) t) :=
      List.mem_filter.mpr ⟨hsin, by simpa using hge⟩
    have hc2 : ((insertSorted s.id (occL m.matchesList prog.id)).filter
        (fun t => prog.capacity ≤ countBetter prog.preferences
          (insertSorted s.id (occL m.matchesList prog.id)) t)
        ).contains s.id = true := List.elem_eq_true_of_mem hfmem
    rw [hc2] at h2
    exact Bool.noConfusion h2

/-- A true `Student.prefers` on a matched student means its current match
is off its list and the program is on it, or both indices exist and the
program's is strictly smaller. -/
theorem studentPrefers_true (s : Student) (pid : Nat) (m : Matching)
    (mid : Nat) (hd : dictGet s.id m.matchesList = some mid)
    (h : s.prefers pid m = true) :
    (s.preferences.contains mid = false ∧
      s.preferences.contains pid = true) ∨
    (s.preferences.contains mid = true ∧
      ∃ i j, firstIdx s.preferences pid = some i ∧
        firstIdx s.preferences mid = some j ∧ i < j) := by
  simp only [Student.prefers, hd] at h
  by_cases hc : s.preferences.contains mid = true
  · rw [if_neg (by rw [hc]; decide)] at h
    refine Or.inr ⟨hc, ?_⟩
    cases hfi : firstIdx s.preferences pid with
    | none => simp only [hfi, Bool.false_eq_true] at h
    | some i =>
      cases hfj : firstIdx s.preferences mid with
      | none => simp only [hfi, hfj, Bool.false_eq_true] at h
      | some j =>
        simp only [hfi, hfj, decide_eq_true_eq] at h
        exact ⟨i, j, rfl, rfl, h⟩
  · have hcf : s.preferences.contains mid = false := by
      rw [Bool.not_eq_true] at hc
      exact hc
    rw [if_pos (by rw [hcf]; decide)] at h
    exact Or.inl ⟨hcf, h⟩

/-- Set union into a sorted list stays sorted. -/
theorem unionSorted_sorted : ∀ (xs ys : List Nat),
    ys.Pairwise (· < ·) → (unionSorted xs ys).Pairwise (· < ·) := by
  intro xs
  induction xs with
  | nil =>
    intro ys h
    exact h
  | cons x rest ih =>
    intro ys h
    exact ih (insertSorted x ys) (insertSorted_sorted x ys h)

/-- What a successfully computed `ResidencyProgram.prefers` means: true
exactly when every given student ranks among the program's top `capacity`
of the pool of the students joined with the current occupants. -/
theorem prefers_char (P : ResidencyProgram) (m : Matching)
    (students : List Nat) (hs : sortedKeys m.matchesList) (b : Bool)
    (h : P.prefers m students = .ok b) :
    (b = true ↔ progPoolOk P students m) := by
  have hocc : studentsMatchedTo m P.id = occL m.matchesList P.id := rfl
  cases hro : ranksOf P.preferences
      (unionSorted students (occL m.matchesList P.id)) with
  | error e =>
    have hperr : P.prefers m students = .error e := by
      simp only [ResidencyProgram.prefers, ResidencyProgram.select, hocc,
        hro, excBind_err]
    rw [hperr] at h
    exact Except.noConfusion h
  | ok ranked =>
    have hall := ranksOf_ok_all P.preferences _ ranked hro
    have hnd : (unionSorted students (occL m.matchesList P.id)).Nodup :=
      nodup_of_pairwise_lt (unionSorted_sorted _ _ (occL_pairwise _ hs))
    have hsel := select_spec P
      (unionSorted students (occL m.matchesList P.id)) hnd hall
    have hpref : P.prefers m students = .ok
        (students.all (fun s => !((unionSorted students
          (occL m.matchesList P.id)).filter
          (fun t => P.capacity ≤ countBetter P.preferences
            (unionSorted students (occL m.matchesList P.id)) t)
          ).contains s)) := by
      simp only [ResidencyProgram.prefers, hocc]
      rw [hsel]
      simp only [excBind_ok, excPure_eq]
    rw [hpref] at h
    have hb := Except.ok.inj h
    rw [← hb, List.all_eq_true]
    constructor
    · intro hforall
      refine ⟨hall, ?_⟩
      intro s hsmem
      have h1 := hforall s hsmem
      by_contra hge
      push_neg at hge
      have hsin : s ∈ unionSorted students (occL m.matchesList P.id) :=
        (mem_unionSorted _ _ _).mpr (Or.inl hsmem)
      have hfmem : s ∈ (unionSorted students
          (occL m.matchesList P.id)).filter
          (fun t => P.capacity ≤ countBetter P.preferences
            (unionSorted students (occL m.matchesList P.id)) t) :=
        List.mem_filter.mpr ⟨hsin, by simpa using hge⟩
      have hc2 : ((unionSorted students
          (occL m.matchesList P.id)).filter
          (fun t => P.capacity ≤ countBetter P.preferences
            (unionSorted students (occL m.matchesList P.id)) t)
          ).contains s = true := List.elem_eq_true_of_mem hfmem
      rw [hc2] at h1
      exact Bool.noConfusion h1
    · intro hpp s hsmem
      have hnin : s ∉ (unionSorted students
          (occL m.matchesList P.id)).filter
          (fun t => P.capacity ≤ countBetter P.preferences
            (unionSorted students (occL m.matchesList P.id)) t) := by
        intro hmem
        rcases List.mem_filter.mp hmem with ⟨_, h2⟩
        have h3 : P.capacity ≤ countBetter P.preferences
            (unionSorted students (occL m.matchesList P.id)) s := by
          simpa using h2
        have h4 := hpp.2 s hsmem
        omega
      cases hcc : ((unionSorted students
          (occL m.matchesList P.id)).filter
          (fun t => P.capacity ≤ countBetter P.preferences
            (unionSorted students (occL m.matchesList P.id)) t)
          ).contains s with
      | false => rfl
      | true =>
        exact absurd (List.mem_of_elem_eq_true hcc) hnin

/-- `Student.prefers` on a matched student, as an equivalence with the
corrected strict-preference condition. -/
theorem studentPrefers_iff (s : Student) (pid : Nat) (m : Matching)
    (mid : Nat) (hd : dictGet s.id m.matchesList = some mid) :
    (s.prefers pid m = true ↔ studentPrefersProp s pid mid) := by
  constructor
  · exact studentPrefers_true s pid m mid hd
  · intro h
    simp only [Student.prefers, hd]
    rcases h with ⟨h1, h2⟩ | ⟨h1, i, j, hi, hj, hij⟩
    · rw [if_pos (by rw [h1]; decide)]
      exact h2
    · rw [if_neg (by rw [h1]; decide)]
      simp only [hi, hj, decide_eq_true_eq]
      exact hij

/-- `Couple.prefers` with a matched first member, as an equivalence with
the corrected couple strict-preference condition. -/
theorem couplePrefers_iff (a b : Student) (p1 p2 : ResidencyProgram)
    (m : Matching) (m1 : Nat)
    (hma : dictGet a.id m.matchesList = some m1) :
    (couplePrefers a b p1 p2 m = true ↔
      couplePrefersProp a b p1.id p2.id m) := by
  simp only [couplePrefers, hma]
  cases hmb : dictGet b.id m.matchesList with
  | none =>
    constructor
    · intro h
      rw [Bool.and_eq_true] at h
      rcases h with ⟨h1, h2⟩
      exact ⟨m1, hma, Or.inl
        ⟨hmb, h1, (studentPrefers_iff a p1.id m m1 hma).mp h2⟩⟩
    · rintro ⟨m1', hm1', hcase⟩
      have hm1e : m1' = m1 := by
        rw [hma] at hm1'
        exact (Option.some.inj hm1').symm
      subst hm1e
      rcases hcase with ⟨_, h1, h2⟩ | ⟨m2, hm2, _⟩
      · rw [Bool.and_eq_true]
        exact ⟨h1, (studentPrefers_iff a p1.id m m1' hma).mpr h2⟩
      · rw [hmb] at hm2
        cases hm2
  | some m2 =>
    constructor
    · intro h
      cases hfi : firstIdxPair (jointPreferences a b) (p1.id, p2.id) with
      | none => simp only [hfi, Bool.false_eq_true] at h
      | some i =>
        cases hfj : firstIdxPair (jointPreferences a b) (m1, m2) with
        | none => simp only [hfi, hfj, Bool.false_eq_true] at h
        | some j =>
          simp only [hfi, hfj, decide_eq_true_eq] at h
          exact ⟨m1, hma, Or.inr ⟨m2, hmb, i, j, hfi, hfj, h⟩⟩
    · rintro ⟨m1', hm1', hcase⟩
      have hm1e : m1' = m1 := by
        rw [hma] at hm1'
        exact (Option.some.inj hm1').symm
      subst hm1e
      rcases hcase with ⟨hbnone, _, _⟩ | ⟨m2', hm2', i, j, hi, hj, hij⟩
      · rw [hmb] at hbnone
        cases hbnone
      · have hm2e : m2' = m2 := by
          rw [hmb] at hm2'
          exact (Option.some.inj hm2').symm
        subst hm2e
        simp only [hi, hj, decide_eq_true_eq]
        exact hij

/-- The decision step of the couple scan at one relevant entry, given a
characterization of the program-side test. -/
theorem scan_if_char (P : ResidencyProgram) (m : Matching)
    (idx : List ResidencyProgram) (a b : Student)
    (rest : List (Nat × Nat)) (res : Bool) (p1id p2id : Nat)
    (p1 p2 : ResidencyProgram)
    (hg1 : indexGet idx p1id = Except.ok p1)
    (hg2 : indexGet idx p2id = Except.ok p2)
    (hor : p1.id = P.id ∨ p2.id = P.id)
    (m1 : Nat) (hma : dictGet a.id m.matchesList = some m1)
    (W : Bool)
    (hWpool : W = true ↔ (if p1.id = p2.id
      then progPoolOk p1 (insertSorted b.id [a.id]) m
      else progPoolOk p1 [a.id] m ∧ progPoolOk p2 [b.id] m))
    (h : (if (couplePrefers a b p1 p2 m && W) = true
      then (Except.ok true : Except PyErr Bool)
      else coupleScan P m idx a b rest) = .ok res)
    (hrest : ∀ r2 : Bool, coupleScan P m idx a b rest = .ok r2 →
      (r2 = true ↔ ∃ pr ∈ rest, entryOk P m idx a b pr)) :
    (res = true ↔ ∃ pr ∈ ((p1id, p2id) :: rest), entryOk P m idx a b pr)
    := by
  by_cases hcond : (couplePrefers a b p1 p2 m && W) = true
  · rw [if_pos hcond] at h
    have hres : res = true := (Except.ok.inj h).symm
    subst hres
    rw [Bool.and_eq_true] at hcond
    constructor
    · intro _
      refine ⟨(p1id, p2id), List.mem_cons_self _ _, p1, p2, hg1, hg2, hor,
        ?_, ?_⟩
      · exact (couplePrefers_iff a b p1 p2 m m1 hma).mp hcond.1
      · exact hWpool.mp hcond.2
    · intro _
      rfl
  · rw [if_neg hcond] at h
    rw [hrest res h]
    constructor
    · rintro ⟨q, hq, hqok⟩
      exact ⟨q, List.mem_cons_of_mem _ hq, hqok⟩
    · rintro ⟨q, hq, hqok⟩
      rcases List.mem_cons.mp hq with h1 | h1
      · exfalso
        subst h1
        obtain ⟨p1', p2', hq1, hq2, _, hcp, hpool⟩ := hqok
        have hq1' : indexGet idx p1id = .ok p1' := hq1
        have hq2' : indexGet idx p2id = .ok p2' := hq2
        rw [hg1] at hq1'
        rw [hg2] at hq2'
        have e1 : p1' = p1 := (Except.ok.inj hq1').symm
        have e2 : p2' = p2 := (Except.ok.inj hq2').symm
        subst e1
        subst e2
        refine hcond ?_
        rw [Bool.and_eq_true]
        exact ⟨(couplePrefers_iff a b p1' p2' m m1 hma).mpr hcp,
          hWpool.mpr hpool⟩
      · exact ⟨q, h1, hqok⟩

/-- The couple scan returns true exactly when some joint-preference entry
certifies the instability. -/
theorem coupleScan_char (P : ResidencyProgram) (m : Matching)
    (idx : List ResidencyProgram) (a b : Student) (m1 : Nat)
    (hs : sortedKeys m.matchesList)
    (hma : dictGet a.id m.matchesList = some m1) :
    ∀ (jl : List (Nat × Nat)) (res : Bool),
    coupleScan P m idx a b jl = .ok res →
    (res = true ↔ ∃ pr ∈ jl, entryOk P m idx a b pr) := by
  intro jl
  induction jl with
  | nil =>
    intro res h
    have hres : res = false := (Except.ok.inj h).symm
    subst hres
    constructor
    · intro hc
      cases hc
    · rintro ⟨pr, hpr, _⟩
      cases hpr
  | cons pr rest ih =>
    intro res h
    obtain ⟨p1id, p2id⟩ := pr
    simp only [coupleScan] at h
    cases hg1 : indexGet idx p1id with
    | error e =>
      rw [hg1, excBind_err] at h
      exact Except.noConfusion h
    | ok p1 =>
    rw [hg1, excBind_ok] at h
    cases hg2 : indexGet idx p2id with
    | error e =>
      rw [hg2, excBind_err] at h
      exact Except.noConfusion h
    | ok p2 =>
    rw [hg2, excBind_ok] at h
    by_cases hskip : (p1.id ≠ P.id && p2.id ≠ P.id) = true
    · rw [if_pos hskip] at h
      rw [ih res h]
      simp only [ne_eq, Bool.and_eq_true, decide_eq_true_eq] at hskip
      constructor
      · rintro ⟨q, hq, hqok⟩
        exact ⟨q, List.mem_cons_of_mem _ hq, hqok⟩
      · rintro ⟨q, hq, hqok⟩
        rcases List.mem_cons.mp hq with h1 | h1
        · exfalso
          subst h1
          obtain ⟨p1', p2', hq1, hq2, hor, _, _⟩ := hqok
          have hq1' : indexGet idx p1id = .ok p1' := hq1
          have hq2' : indexGet idx p2id = .ok p2' := hq2
          rw [hg1] at hq1'
          rw [hg2] at hq2'
          have e1 : p1' = p1 := (Except.ok.inj hq1').symm
          have e2 : p2' = p2 := (Except.ok.inj hq2').symm
          rcases hor with h2 | h2
          · refine hskip.1 ?_
            rw [← e1]
            exact h2
          · refine hskip.2 ?_
            rw [← e2]
            exact h2
        · exact ⟨q, h1, hqok⟩
    · rw [if_neg hskip] at h
      have hor : p1.id = P.id ∨ p2.id = P.id := by
        simp only [ne_eq, Bool.and_eq_true, decide_eq_true_eq, not_and_or,
          not_not] at hskip
        exact hskip
      by_cases hpp : p1.id = p2.id
      · rw [if_pos hpp] at h
        cases hpf : p1.prefers m (insertSorted b.id [a.id]) with
        | error e =>
          rw [hpf, excBind_err] at h
          exact Except.noConfusion h
        | ok pp =>
          rw [hpf, excBind_ok] at h
          refine scan_if_char P m idx a b rest res p1id p2id p1 p2 hg1 hg2
            hor m1 hma pp ?_ h (fun r2 h2 => ih r2 h2)
          rw [if_pos hpp]
          exact prefers_char p1 m (insertSorted b.id [a.id]) hs pp hpf
      · rw [if_neg hpp] at h
        cases hx : p1.prefers m [a.id] with
        | error e =>
          rw [hx, excBind_err] at h
          exact Except.noConfusion h
        | ok x =>
        rw [hx, excBind_ok] at h
        cases x with
        | true =>
          rw [if_pos rfl] at h
          cases hy : p2.prefers m [b.id] with
          | error e =>
            rw [hy, excBind_err] at h
            exact Except.noConfusion h
          | ok y =>
            rw [hy, excBind_ok] at h
            refine scan_if_char P m idx a b rest res p1id p2id p1 p2 hg1 hg2
              hor m1 hma y ?_ h (fun r2 h2 => ih r2 h2)
            rw [if_neg hpp]
            constructor
            · intro hyt
              exact ⟨(prefers_char p1 m [a.id] hs true hx).mp rfl,
                (prefers_char p2 m [b.id] hs y hy).mp hyt⟩
            · intro hc
              exact (prefers_char p2 m [b.id] hs y hy).mpr hc.2
        | false =>
          rw [if_neg (by decide)] at h
          rw [excPure_eq, excBind_ok] at h
          refine scan_if_char P m idx a b rest res p1id p2id p1 p2 hg1 hg2
            hor m1 hma false ?_ h (fun r2 h2 => ih r2 h2)
          rw [if_neg hpp]
          constructor
          · intro hf
            cases hf
          · intro hc
            exact (prefers_char p1 m [a.id] hs false hx).mpr hc.1

/-- The single-applicant checker test returns true exactly on a genuine
pool-sense instability. -/
theorem unstableWith_single_char (P : ResidencyProgram) (m : Matching)
    (idx : List ResidencyProgram) (s : Student) (res : Bool)
    (hs : sortedKeys m.matchesList)
    (h : unstableWith P m idx (.single s) = .ok res) :
    (res = true ↔ genuinePoolInstability s P m) := by
  have hpoolr : unionSorted [s.id] (occL m.matchesList P.id) =
      insertSorted s.id (occL m.matchesList P.id) := rfl
  simp only [unstableWith] at h
  dsimp only [Applicant.proposalPair] at h
  cases hd : dictGet s.id m.matchesList with
  | none =>
    have hct : (dictGet s.id m.matchesList).isNone = true := by
      rw [hd]
      rfl
    rw [if_pos hct] at h
    have hres : res = false := (Except.ok.inj h).symm
    subst hres
    constructor
    · intro hc
      cases hc
    · rintro ⟨⟨mid, hmid, _⟩, _, _⟩
      rw [hd] at hmid
      cases hmid
  | some mid =>
    have hcnd : ¬((dictGet s.id m.matchesList).isNone = true) := by
      rw [hd]
      intro hh
      exact Bool.noConfusion hh
    rw [if_neg hcnd] at h
    cases hp : P.prefers m [s.id] with
    | error e =>
      rw [hp, excBind_err] at h
      exact Except.noConfusion h
    | ok hp2 =>
      rw [hp, excBind_ok] at h
      have hchar := prefers_char P m [s.id] hs hp2 hp
      cases hp2 with
      | false =>
        rw [if_neg (by decide)] at h
        have hres : res = false := (Except.ok.inj h).symm
        subst hres
        constructor
        · intro hc
          cases hc
        · rintro ⟨_, hcb, hall⟩
          exfalso
          have hpool : progPoolOk P [s.id] m := by
            refine ⟨?_, ?_⟩
            · intro t ht
              rw [hpoolr] at ht
              exact hall t ht
            · intro x hx
              rw [List.mem_singleton] at hx
              subst hx
              rw [hpoolr]
              exact hcb
          exact Bool.noConfusion (hchar.mpr hpool)
      | true =>
        rw [if_pos rfl] at h
        have hres : s.prefers P.id m = res := Except.ok.inj h
        have hpool := hchar.mp rfl
        constructor
        · intro hrt
          have hsp : s.prefers P.id m = true := hres.trans hrt
          refine ⟨⟨mid, hd, (studentPrefers_iff s P.id m mid hd).mp hsp⟩,
            ?_, ?_⟩
          · have h2 := hpool.2 s.id (List.mem_singleton.mpr rfl)
            rw [hpoolr] at h2
            exact h2
          · intro t ht
            refine hpool.1 t ?_
            rw [hpoolr]
            exact ht
        · rintro ⟨⟨mid', hmid', hsp⟩, _, _⟩
          rw [hd] at hmid'
          have hmide : mid' = mid := (Option.some.inj hmid').symm
          rw [hmide] at hsp
          have h2 := (studentPrefers_iff s P.id m mid hd).mpr hsp
          rw [← hres]
          exact h2

/-- The couple checker test returns true exactly on a genuine pool-sense
couple instability. -/
theorem unstableWith_couple_char (P : ResidencyProgram) (m : Matching)
    (idx : List ResidencyProgram) (a b : Student) (res : Bool)
    (hs : sortedKeys m.matchesList)
    (h : unstableWith P m idx (.couple a b) = .ok res) :
    (res = true ↔ genuineCouplePoolInstability a b P m idx) := by
  simp only [unstableWith] at h
  dsimp only [Applicant.proposalPair] at h
  cases hd : dictGet a.id m.matchesList with
  | none =>
    have hct : (dictGet a.id m.matchesList).isNone = true := by
      rw [hd]
      rfl
    rw [if_pos hct] at h
    have hres : res = false := (Except.ok.inj h).symm
    subst hres
    constructor
    · intro hc
      cases hc
    · rintro ⟨⟨m1, hm1⟩, _⟩
      rw [hd] at hm1
      cases hm1
  | some m1 =>
    have hcnd : ¬((dictGet a.id m.matchesList).isNone = true) := by
      rw [hd]
      intro hh
      exact Bool.noConfusion hh
    rw [if_neg hcnd] at h
    cases hpa : P.prefers m [a.id] with
    | error e =>
      rw [hpa, excBind_err] at h
      exact Except.noConfusion h
    | ok pA =>
    rw [hpa, excBind_ok] at h
    cases hpb : P.prefers m [b.id] with
    | error e =>
      rw [hpb, excBind_err] at h
      exact Except.noConfusion h
    | ok pB =>
    rw [hpb, excBind_ok] at h
    have hcA := prefers_char P m [a.id] hs pA hpa
    have hcB := prefers_char P m [b.id] hs pB hpb
    by_cases hcond : (pA && pB) = true
    · rw [if_pos hcond] at h
      rw [Bool.and_eq_true] at hcond
      rw [coupleScan_char P m idx a b m1 hs hd (jointPreferences a b) res h]
      constructor
      · intro hex
        exact ⟨⟨m1, hd⟩, hcA.mp hcond.1, hcB.mp hcond.2, hex⟩
      · rintro ⟨_, _, _, hex⟩
        exact hex
    · rw [if_neg hcond] at h
      have hres : res = false := (Except.ok.inj h).symm
      subst hres
      constructor
      · intro hc
        cases hc
      · rintro ⟨_, hA, hB, _⟩
        exfalso
        refine hcond ?_
        rw [Bool.and_eq_true]
        exact ⟨hcA.mpr hA, hcB.mpr hB⟩

/-- An applicant-set insertion is never empty. -/
theorem insertApplicant_ne_nil (x : Applicant) : ∀ (ys : List Applicant),
    insertApplicant x ys ≠ [] := by
  intro ys
  cases ys with
  | nil =>
    intro h
    cases h
  | cons y ys2 =>
    simp only [insertApplicant]
    by_cases h1 : aeq x y = true
    · rw [if_pos h1]
      exact List.cons_ne_nil _ _
    · rw [if_neg h1]
      by_cases h2 : keyLe x.key y.key = true
      · rw [if_pos h2]
        exact List.cons_ne_nil _ _
      · rw [if_neg h2]
        exact List.cons_ne_nil _ _

/-- An empty canonical applicant set comes from an empty list. -/
theorem applicantSet_foldl_nil : ∀ (l acc : List Applicant),
    l.foldl (fun acc x => insertApplicant x acc) acc = [] →
    acc = [] ∧ l = [] := by
  intro l
  induction l with
  | nil =>
    intro acc h
    exact ⟨h, rfl⟩
  | cons x rest ih =>
    intro acc h
    simp only [List.foldl_cons] at h
    have h2 := (ih _ h).1
    exact absurd h2 (insertApplicant_ne_nil x acc)

/-- An empty checker filter means every applicant tested false. -/
theorem filterUnstable_nil (prog : ResidencyProgram) (m : Matching)
    (idx : List ResidencyProgram) : ∀ (l : List Applicant),
    filterUnstable prog m idx l = .ok [] → ∀ a ∈ l,
    unstableWith prog m idx a = .ok false := by
  intro l
  induction l with
  | nil =>
    intro _ a ha
    cases ha
  | cons x rest ih =>
    intro h a ha
    simp only [filterUnstable] at h
    cases hu : unstableWith prog m idx x with
    | error e =>
      rw [hu, excBind_err] at h
      exact Except.noConfusion h
    | ok b =>
      rw [hu, excBind_ok] at h
      cases hfr : filterUnstable prog m idx rest with
      | error e =>
        rw [hfr, excBind_err] at h
        exact Except.noConfusion h
      | ok tl =>
        rw [hfr] at h
        have h2 : (if b = true then x :: tl else tl) = [] := by
          have h3 := h
          simp only [excBind_ok, pure, Except.pure] at h3
          exact Except.ok.inj h3
        cases b with
        | true =>
          rw [if_pos rfl] at h2
          exact absurd h2 (List.cons_ne_nil _ _)
        | false =>
          rw [if_neg (by decide)] at h2
          subst h2
          rcases List.mem_cons.mp ha with h4 | h4
          · rw [h4]
            exact hu
          · exact ih hfr a h4

/-- An empty `unstable_pairs` means every market applicant tested
false. -/
theorem unstablePairs_nil (prog : ResidencyProgram) (m : Matching)
    (idx : List ResidencyProgram)
    (h : unstablePairs prog m idx = .ok []) : ∀ a ∈ m.applicants,
    unstableWith prog m idx a = .ok false := by
  simp only [unstablePairs] at h
  cases hf : filterUnstable prog m idx m.applicants with
  | error e =>
    rw [hf, excBind_err] at h
    exact Except.noConfusion h
  | ok fl =>
    rw [hf] at h
    have h2 : applicantSet fl = [] := by
      simp only [excBind_ok, pure, Except.pure] at h
      exact Except.ok.inj h
    have h3 : fl = [] := (applicantSet_foldl_nil fl [] h2).2
    rw [h3] at hf
    exact filterUnstable_nil prog m idx m.applicants hf

/-- An empty `find_unstable_pairs` means every iterated program reported
nothing. -/
theorem collectPairs_nil (m : Matching) (idx : List ResidencyProgram) :
    ∀ (pl : List ResidencyProgram),
    collectPairs m idx pl = .ok [] → ∀ prog ∈ pl,
    unstablePairs prog m idx = .ok [] := by
  intro pl
  induction pl with
  | nil =>
    intro _ prog hp
    cases hp
  | cons q rest ih =>
    intro h prog hp
    simp only [collectPairs] at h
    cases hu : unstablePairs q m idx with
    | error e =>
      rw [hu, excBind_err] at h
      exact Except.noConfusion h
    | ok apl =>
      rw [hu, excBind_ok] at h
      cases hc : collectPairs m idx rest with
      | error e =>
        rw [hc, excBind_err] at h
        exact Except.noConfusion h
      | ok tail =>
        rw [hc] at h
        have h2 : apl.map (fun app => (app, q)) ++ tail = [] := by
          have h3 := h
          simp only [excBind_ok, pure, Except.pure] at h3
          exact Except.ok.inj h3
        rw [List.append_eq_nil] at h2
        have hapl : apl = [] := List.map_eq_nil_iff.mp h2.1
        rcases List.mem_cons.mp hp with h4 | h4
        · rw [h4]
          rw [hapl] at hu
          exact hu
        · have hc2 : collectPairs m idx rest = .ok [] := by
            rw [hc, h2.2]
          exact ih hc2 prog h4

/-- **Claim C3 (amended).** Every pair (A, P) that `find_unstable_pairs`
returns is a genuine instability in the pool sense — a single A is
matched, strictly prefers P to its match, and P's selection over its
occupants joined with A retains A (a free seat or a beaten occupant); a
couple A has its first member matched, P prefers each member in the pool
sense, and some joint-preference entry strictly preferred by the couple
to its current state names P and passes the pool test on both coordinate
programs (jointly when they coincide).  And when `find_unstable_pairs`
returns the empty list, no such pool-sense instability exists for any
program of the index and any applicant of the matching. -/
theorem C3_amended_genuine_and_complete (m : Matching)
    (l : List (Applicant × ResidencyProgram))
    (hs : sortedKeys m.matchesList)
    (hrun : findUnstablePairs m = .ok l) :
    ((∀ s P, (Applicant.single s, P) ∈ l → genuinePoolInstability s P m) ∧
      (∀ a b P, (Applicant.couple a b, P) ∈ l →
        genuineCouplePoolInstability a b P m m.programs)) ∧
    (l = [] → ∀ P ∈ indexValues m.programs, ∀ app ∈ m.applicants,
      (∀ s, app = Applicant.single s → ¬ genuinePoolInstability s P m) ∧
      (∀ a b, app = Applicant.couple a b →
        ¬ genuineCouplePoolInstability a b P m m.programs)) := by
  simp only [findUnstablePairs] at hrun
  constructor
  · constructor
    · intro s P hmem
      obtain ⟨apl, hup, hamem⟩ := collectPairs_mem hrun hmem
      have hutrue := unstablePairs_mem_true P m m.programs apl hup
        (Applicant.single s) hamem
      exact (unstableWith_single_char P m m.programs s true hs hutrue).mp rfl
    · intro a b P hmem
      obtain ⟨apl, hup, hamem⟩ := collectPairs_mem hrun hmem
      have hutrue := unstablePairs_mem_true P m m.programs apl hup
        (Applicant.couple a b) hamem
      exact
        (unstableWith_couple_char P m m.programs a b true hs hutrue).mp rfl
  · intro hnil P hP app happ
    subst hnil
    have hupnil := collectPairs_nil m m.programs (indexValues m.programs)
      hrun P hP
    have hfalse := unstablePairs_nil P m m.programs hupnil app happ
    constructor
    · intro s hse
      rw [hse] at hfalse
      intro hg
      have h2 :=
        (unstableWith_single_char P m m.programs s false hs hfalse).mpr hg
      exact Bool.noConfusion h2
    · intro a b hse
      rw [hse] at hfalse
      intro hg
      have h2 :=
        (unstableWith_couple_char P m m.programs a b false hs hfalse).mpr hg
      exact Bool.noConfusion h2

/-- C3 amended-claim witness: the counterexample matching's reported
single pair is genuine in the pool sense; a couple matched below a joint
pair with room for both is reported and genuine; and on a matching the
checker finds stable, the completeness direction certifies no pool-sense
instability. -/
theorem C3_amended_witness :
    (sortedKeys c3xM.matchesList ∧
      genuinePoolInstability ⟨0, [0, 1], 0⟩ ⟨0, [0], 1⟩ c3xM) ∧
    (sortedKeys c3cM.matchesList ∧
      genuineCouplePoolInstability ⟨0, [0, 1], 0⟩ ⟨1, [0, 1], 0⟩
        ⟨0, [0, 1], 2⟩ c3cM c3cM.programs) ∧
    (sortedKeys c3sM.matchesList ∧
      ¬ genuinePoolInstability ⟨0, [0], 0⟩ ⟨0, [0], 1⟩ c3sM) := by
  refine ⟨⟨by unfold sortedKeys; decide, ?_⟩,
    ⟨by unfold sortedKeys; decide, ?_⟩,
    ⟨by unfold sortedKeys; decide, ?_⟩⟩
  · exact (C3_amended_genuine_and_complete c3xM
      [(.single ⟨0, [0, 1], 0⟩, ⟨0, [0], 1⟩)]
      (by unfold sortedKeys; decide) rfl).1.1 ⟨0, [0, 1], 0⟩ ⟨0, [0], 1⟩
      (List.mem_singleton.mpr rfl)
  · exact (C3_amended_genuine_and_complete c3cM
      [(.couple ⟨0, [0, 1], 0⟩ ⟨1, [0, 1], 0⟩, ⟨0, [0, 1], 2⟩)]
      (by unfold sortedKeys; decide) rfl).1.2 ⟨0, [0, 1], 0⟩ ⟨1, [0, 1], 0⟩
      ⟨0, [0, 1], 2⟩ (List.mem_singleton.mpr rfl)
  · exact ((C3_amended_genuine_and_complete c3sM []
      (by unfold sortedKeys; decide) rfl).2 rfl ⟨0, [0], 1⟩ (by decide)
      (.single ⟨0, [0], 0⟩) (List.mem_singleton.mpr rfl)).1 ⟨0, [0], 0⟩ rfl

end IC
